import Mathlib

/-!
Shallow embedding of `src/scheduler.cpp` (the single exported function
`run_scheduler`) and verification of the specification's claims about it.

Modelling conventions:
* Every C `int` field becomes a Lean `Int`; C truncating division is `Int.tdiv`.
* The caller's array `procs` and the internal working copy `queue`
  (`std::vector<Process> queue`, line 51) are carried separately, since the C
  code writes some fields only to one of them.
* `std::vector<GanttLog> local_logs` is kept in reverse (most recent entry
  first), because the C code only ever inspects and mutates `local_logs.back()`;
  it is reversed once at the end, in `mkResult`.
* The C field `at` is called `at_` here (`at` is reserved in Lean).
* Each `while (completed < n)` loop becomes a fuel-indexed function returning
  `Option`; `none` means the fuel was exhausted before the loop exited.
* The C++ `std::map<int, std::vector<int>> ready_queues` of the MLQ branch is
  modelled by the three lists that are ever read (`q1`, `q2`, `q3`) plus one
  list `qother` receiving indices whose target queue is outside {1,2,3}
  (such map entries are written by `check_arrivals` but never read).
* `std::sort` with a strict-weak comparator is modelled by a stable insertion
  sort on the corresponding non-strict relation; on states where all keys are
  distinct the two coincide (ties are ordered unspecified by `std::sort`).
-/

/-- Process record, `struct Process` (scheduler.cpp lines 7-23). -/
structure Process where
  pid : Int
  at_ : Int
  bt : Int
  priority : Int
  ct : Int
  tat : Int
  wt : Int
  rem_time : Int
  first_run : Int
  base_priority : Int
  current_priority : Int
  current_queue : Int
  last_q3_entry : Int
deriving Repr, DecidableEq, Inhabited

/-- Gantt log entry, `struct GanttLog` (lines 25-29). -/
structure GanttLog where
  pid : Int
  start : Int
  finish : Int
deriving Repr, DecidableEq, Inhabited

def PRIORITY_AGING_RATE : Int := 5
def Q1_QUANTUM : Int := 8
def Q2_QUANTUM : Int := 16
def Q3_PROMOTION_THRESHOLD : Int := 50
def MLQ_Q2_QUANTUM : Int := 10

/-- Array indexing `v[i]` (all C accesses are in bounds). -/
def getP (l : List Process) (i : Nat) : Process := l.getD i default

/-- Array update `v[i] = p`. -/
def setP (l : List Process) (i : Nat) (p : Process) : List Process := l.set i p

/-- `in_queue[i]` / `in_ready_queue[i]`. -/
def inqAt (inq : List Bool) (i : Nat) : Bool := inq.getD i false

/-- The Gantt append/coalesce step shared by all branches (e.g. lines 503-507):
if the newest entry has the same pid and its finish equals the new start,
extend it; otherwise push a new entry.  The log is kept most recent first. -/
def appendLog (logs : List GanttLog) (pid start fin : Int) : List GanttLog :=
  match logs with
  | l :: rest =>
      if l.pid = pid ∧ l.finish = start then { l with finish := fin } :: rest
      else ⟨pid, start, fin⟩ :: l :: rest
  | [] => [⟨pid, start, fin⟩]

/-- The idle step shared by all branches (e.g. lines 426-431): extend the
newest idle entry by one, or push a fresh `(-1, t, t+1)` entry. -/
def idleLog (logs : List GanttLog) (t : Int) : List GanttLog :=
  match logs with
  | l :: rest =>
      if l.pid = -1 then { l with finish := l.finish + 1 } :: rest
      else ⟨-1, t, t + 1⟩ :: l :: rest
  | [] => [⟨-1, t, t + 1⟩]

/-- Completion bookkeeping on the caller's record (e.g. lines 509-515):
`ct`, `tat`, `bt`, `wt` are written to `procs[idx]`; `p` is the working copy
`queue[idx]` (whose `at` equals the caller's, both being set from the input). -/
def finalizeP (pr p : Process) (ct : Int) : Process :=
  { pr with ct := ct, tat := ct - pr.at_, bt := p.bt, wt := (ct - pr.at_) - p.bt }

/-- Arrival scan shared by the RR branch (lines 329-334, 381-386) and the MLFQ
branch (`check_arrivals`, lines 216-223): walk the indices in order, appending
each not-yet-enqueued, unfinished, arrived process to `ready` and marking it. -/
def arrivalScan (queue : List Process) (t : Int) :
    List Nat → List Nat → List Bool → List Nat × List Bool
  | [], ready, inq => (ready, inq)
  | i :: rest, ready, inq =>
      if ¬ inqAt inq i ∧ 0 < (getP queue i).rem_time ∧ (getP queue i).at_ ≤ t then
        arrivalScan queue t rest (ready ++ [i]) (inq.set i true)
      else
        arrivalScan queue t rest ready inq

/-! ### Generic branch: algorithm codes 0,1,2,3,4 and any unrecognized code
(lines 402-517). -/

structure GenState where
  procs : List Process
  queue : List Process
  t : Int
  completed : Nat
  logs : List GanttLog
deriving Repr, DecidableEq

/-- Aging condition, line 409. -/
def agingReady (t : Int) (p : Process) : Prop :=
  0 < p.rem_time ∧ p.at_ ≤ t ∧ p.first_run = -1

instance (t : Int) (p : Process) : Decidable (agingReady t p) := by
  unfold agingReady; infer_instance

/-- Aged priority, lines 410-412: `max(1, base_priority - (t - at) / 5)` with
C truncating division. -/
def agedPriority (t : Int) (p : Process) : Int :=
  max 1 (p.base_priority - Int.tdiv (t - p.at_) PRIORITY_AGING_RATE)

/-- Aging phase (lines 406-416), applied to both arrays when the algorithm is
PRIO-NP (3) or PRIO-P (4).  The condition and the new value are computed from
the working copy `queue[i]`; the value is written to both copies. -/
def agePhase (code t : Int) (procs queue : List Process) :
    List Process × List Process :=
  if code = 3 ∨ code = 4 then
    (List.zipWith
      (fun pr p => if agingReady t p then { pr with current_priority := agedPriority t p } else pr)
      procs queue,
     queue.map
      (fun p => if agingReady t p then { p with current_priority := agedPriority t p } else p))
  else (procs, queue)

/-- Candidate scan, lines 419-424. -/
def gCandidates (queue : List Process) (t : Int) : List Nat :=
  (List.range queue.length).filter
    (fun i => decide ((getP queue i).at_ ≤ t ∧ 0 < (getP queue i).rem_time))

/-- Selection comparison, lines 435-451: `i` beats the current best `idx`.
The C if/else-if chain has mutually exclusive guards, written here as a
disjunction of guard-and-body conjunctions. -/
def selBetter (code : Int) (q : List Process) (i idx : Nat) : Prop :=
  (code = 0 ∧ (getP q i).at_ < (getP q idx).at_) ∨
  ((code = 1 ∨ code = 2) ∧
    ((getP q i).rem_time < (getP q idx).rem_time ∨
      ((getP q i).rem_time = (getP q idx).rem_time ∧ (getP q i).at_ < (getP q idx).at_))) ∨
  ((code = 3 ∨ code = 4) ∧
    ((getP q i).current_priority < (getP q idx).current_priority ∨
      ((getP q i).current_priority = (getP q idx).current_priority ∧
        (getP q i).at_ < (getP q idx).at_)))

instance (code : Int) (q : List Process) (i idx : Nat) : Decidable (selBetter code q i idx) := by
  unfold selBetter; infer_instance

/-- Selection loop, lines 434-451: start from the first candidate and replace
it whenever a later candidate compares better. -/
def gSelect (code : Int) (q : List Process) (cands : List Nat) (c0 : Nat) : Nat :=
  cands.foldl (fun idx i => if selBetter code q i idx then i else idx) c0

/-- Arrival-preemption test inside the duration scan, lines 467-477. -/
def genPreempts (code : Int) (q : List Process) (i idx : Nat) : Prop :=
  (code = 2 ∧ (getP q i).rem_time < (getP q idx).rem_time) ∨
  (code = 4 ∧ (getP q i).current_priority < (getP q idx).current_priority)

instance (code : Int) (q : List Process) (i idx : Nat) : Decidable (genPreempts code q i idx) := by
  unfold genPreempts; infer_instance

/-- Duration scan for the preemptive codes (lines 460-485): one pass over all
processes accumulating `next_switch_time` (component 1, initially
`t + rem_time`) and `run_time` (component 2, initially 1, re-set to 1 by the
PRIO-P ready-process clamp of lines 479-483). -/
def genScan (code : Int) (q : List Process) (t : Int) (idx : Nat) : Int × Int :=
  (List.range q.length).foldl
    (fun acc i =>
      if i = idx ∨ (getP q i).rem_time = 0 then acc
      else
        let p := getP q i
        let ns := if t < p.at_ ∧ p.at_ < acc.1 ∧ genPreempts code q i idx then p.at_ else acc.1
        let rt :=
          if code = 4 ∧ p.at_ ≤ t ∧ p.current_priority < (getP q idx).current_priority then 1
          else acc.2
        (ns, rt))
    (t + (getP q idx).rem_time, 1)

/-- `run_time` of the generic branch, lines 453-486. -/
def genRunTime (code : Int) (q : List Process) (t : Int) (idx : Nat) : Int :=
  if code = 0 ∨ code = 1 ∨ code = 3 then (getP q idx).rem_time
  else
    let s := genScan code q t idx
    min s.2 (s.1 - t)

/-- One iteration of the generic `while (completed < n)` loop, lines 403-516. -/
def genStep (code : Int) (s : GenState) : GenState :=
  let pq := agePhase code s.t s.procs s.queue
  let procs := pq.1
  let queue := pq.2
  let cands := gCandidates queue s.t
  match cands with
  | [] =>
      { s with procs := procs, queue := queue, logs := idleLog s.logs s.t, t := s.t + 1 }
  | c0 :: _ =>
      let idx := gSelect code queue cands c0
      let rt := genRunTime code queue s.t idx
      if rt ≤ 0 then
        { s with procs := procs, queue := queue, t := s.t + 1 }
      else
        let p := getP queue idx
        let procs := if p.first_run = -1 then setP procs idx { getP procs idx with first_run := s.t } else procs
        let queue := if p.first_run = -1 then setP queue idx { p with first_run := s.t } else queue
        let t' := s.t + rt
        let p' := getP queue idx
        let queue := setP queue idx { p' with rem_time := p'.rem_time - rt }
        let logs := appendLog s.logs p'.pid s.t t'
        if (getP queue idx).rem_time = 0 then
          { procs := setP procs idx (finalizeP (getP procs idx) (getP queue idx) t')
            queue := queue
            t := t'
            completed := s.completed + 1
            logs := logs }
        else
          { procs := procs, queue := queue, t := t', completed := s.completed, logs := logs }

def genLoop (code : Int) : Nat → GenState → Option GenState
  | 0, _ => none
  | fuel + 1, s =>
      if s.completed < s.queue.length then genLoop code fuel (genStep code s) else some s

/-! ### Round-Robin branch, algorithm code 5 (lines 324-398). -/

structure RRState where
  procs : List Process
  queue : List Process
  t : Int
  completed : Nat
  logs : List GanttLog
  ready : List Nat
  inq : List Bool
deriving Repr, DecidableEq

/-- `next_arrival_time` computation, lines 354-361, with the C sentinel `-1`
for "none found". -/
def rrNextArrival (queue : List Process) (inq : List Bool) : Int :=
  (List.range queue.length).foldl
    (fun na i =>
      if ¬ inqAt inq i ∧ 0 < (getP queue i).rem_time then
        (if na = -1 ∨ (getP queue i).at_ < na then (getP queue i).at_ else na)
      else na)
    (-1)

/-- Execution of the RR head process (lines 346-396), after `idx` was popped
from the ready queue (`rest` is the remainder) and the `first_run` bookkeeping
of lines 349-352 was applied; `exec0` is `min(rem_time, quantum)` of line 346. -/
def rrExec (procs queue : List Process) (t : Int) (completed : Nat)
    (logs : List GanttLog) (idx : Nat) (rest : List Nat) (inq : List Bool)
    (exec0 : Int) : RRState :=
  let na := rrNextArrival queue inq
  let clamped := na ≠ -1 ∧ na < t + exec0
  let exec := if clamped then na - t else exec0
  if clamped ∧ exec ≤ 0 then
    -- lines 365-369: jump to the arrival and put the process back in front
    ⟨procs, queue, na, completed, logs, idx :: rest, inq⟩
  else
    let t' := t + exec
    let p' := getP queue idx
    let queue2 := setP queue idx { p' with rem_time := p'.rem_time - exec }
    let logs2 := appendLog logs p'.pid t t'
    let sc2 := arrivalScan queue2 t' (List.range queue2.length) rest inq
    if 0 < (getP queue2 idx).rem_time then
      ⟨procs, queue2, t', completed, logs2, sc2.1 ++ [idx], sc2.2⟩
    else
      ⟨setP procs idx (finalizeP (getP procs idx) (getP queue2 idx) t'),
        queue2, t', completed + 1, logs2, sc2.1, sc2.2.set idx false⟩

/-- One iteration of the RR `while (completed < n)` loop, lines 328-397. -/
def rrStep (quantum : Int) (s : RRState) : RRState :=
  let sc := arrivalScan s.queue s.t (List.range s.queue.length) s.ready s.inq
  let ready := sc.1
  let inq := sc.2
  match ready with
  | [] =>
      { s with ready := [], inq := inq, logs := idleLog s.logs s.t, t := s.t + 1 }
  | idx :: rest =>
      let p := getP s.queue idx
      let exec0 := min p.rem_time quantum
      let procs := if p.first_run = -1 then setP s.procs idx { getP s.procs idx with first_run := s.t } else s.procs
      let queue := if p.first_run = -1 then setP s.queue idx { p with first_run := s.t } else s.queue
      rrExec procs queue s.t s.completed s.logs idx rest inq exec0

def rrLoop (quantum : Int) : Nat → RRState → Option RRState
  | 0, _ => none
  | fuel + 1, s =>
      if s.completed < s.queue.length then rrLoop quantum fuel (rrStep quantum s) else some s

/-! ### MLFQ branch, algorithm code 6 (lines 209-319). -/

structure MLFQState where
  procs : List Process
  queue : List Process
  t : Int
  completed : Nat
  logs : List GanttLog
  q1 : List Nat
  q2 : List Nat
  q3 : List Nat
  inq : List Bool
deriving Repr, DecidableEq

/-- Q3 promotion pass (lines 229-239): walk `q3` in order; each entry whose
`last_q3_entry` is set and at least 50 old moves to the back of `q2` (in
iteration order) with its record updated; the rest stay in `q3` in order. -/
def mlfqPromote (t : Int) (queue : List Process) :
    List Nat → List Process × List Nat × List Nat
  | [] => (queue, [], [])
  | i :: rest =>
      let p := getP queue i
      if p.last_q3_entry ≠ -1 ∧ Q3_PROMOTION_THRESHOLD ≤ t - p.last_q3_entry then
        let queue' := setP queue i { p with current_queue := 2, last_q3_entry := -1 }
        let r := mlfqPromote t queue' rest
        (r.1, i :: r.2.1, r.2.2)
      else
        let r := mlfqPromote t queue rest
        (r.1, r.2.1, i :: r.2.2)

/-- Execution and post-execution update of the MLFQ branch (lines 270-318),
after a process `idx` was popped from queue `cq` with quantum `quant`;
`q1 q2 q3` are the ready queues after the pop. -/
def mlfqExec (procs queue : List Process) (t : Int) (completed : Nat)
    (logs : List GanttLog) (q1 q2 q3 : List Nat) (inq : List Bool)
    (idx : Nat) (cq quant : Int) : MLFQState :=
  let p := getP queue idx
  let exec := min p.rem_time quant
  let procs := if p.first_run = -1 then setP procs idx { getP procs idx with first_run := t } else procs
  let queue := if p.first_run = -1 then setP queue idx { p with first_run := t } else queue
  let t' := t + exec
  let p' := getP queue idx
  let queue := setP queue idx { p' with rem_time := p'.rem_time - exec }
  let logs := appendLog logs p'.pid t t'
  let sc := arrivalScan queue t' (List.range queue.length) q1 inq
  let q1 := sc.1
  let inq := sc.2
  if (getP queue idx).rem_time = 0 then
    let procs := setP procs idx (finalizeP (getP procs idx) (getP queue idx) t')
    let inq := inq.set idx false
    -- line 318: procs[idx].current_queue = queue[idx].current_queue
    let procs := setP procs idx { getP procs idx with current_queue := (getP queue idx).current_queue }
    ⟨procs, queue, t', completed + 1, logs, q1, q2, q3, inq⟩
  else
    let st :=
      if exec < quant ∧ cq ≠ 3 then
        -- lines 300-303: finished its segment early, stay in the same queue
        if cq = 1 then (queue, q1 ++ [idx], q2, q3)
        else if cq = 2 then (queue, q1, q2 ++ [idx], q3)
        else (queue, q1, q2, q3)
      else if cq ≠ 3 then
        -- lines 304-315: quantum expired, demote
        let pd := getP queue idx
        let queue := setP queue idx { pd with current_queue := pd.current_queue + 1 }
        let pd' := getP queue idx
        if pd'.current_queue = 2 then (queue, q1, q2 ++ [idx], q3)
        else if 3 ≤ pd'.current_queue then
          (setP queue idx { pd' with current_queue := 3, last_q3_entry := t' }, q1, q2, q3 ++ [idx])
        else (queue, q1, q2, q3)
      else (queue, q1, q2, q3)
    let queue := st.1
    let inq := inq.set idx true
    let procs := setP procs idx { getP procs idx with current_queue := (getP queue idx).current_queue }
    ⟨procs, queue, t', completed, logs, st.2.1, st.2.2.1, st.2.2.2, inq⟩

/-- One iteration of the MLFQ `while (completed < n)` loop, lines 225-319. -/
def mlfqStep (s : MLFQState) : MLFQState :=
  let sc := arrivalScan s.queue s.t (List.range s.queue.length) s.q1 s.inq
  let q1 := sc.1
  let inq := sc.2
  let pm := mlfqPromote s.t s.queue s.q3
  let queue := pm.1
  let q2 := s.q2 ++ pm.2.1
  let q3 := pm.2.2
  match q1 with
  | idx :: q1rest =>
      mlfqExec s.procs queue s.t s.completed s.logs q1rest q2 q3 inq idx 1 Q1_QUANTUM
  | [] =>
      match q2 with
      | idx :: q2rest =>
          mlfqExec s.procs queue s.t s.completed s.logs [] q2rest q3 inq idx 2 Q2_QUANTUM
      | [] =>
          match q3 with
          | idx :: q3rest =>
              mlfqExec s.procs queue s.t s.completed s.logs [] [] q3rest inq idx 3
                (getP queue idx).rem_time
          | [] =>
              { s with
                queue := queue
                q1 := []
                q2 := []
                q3 := []
                inq := inq
                logs := idleLog s.logs s.t
                t := s.t + 1 }

def mlfqLoop : Nat → MLFQState → Option MLFQState
  | 0, _ => none
  | fuel + 1, s =>
      if s.completed < s.queue.length then mlfqLoop fuel (mlfqStep s) else some s

/-! ### MLQ branch, algorithm code 7 (lines 78-206). -/

structure MLQState where
  procs : List Process
  queue : List Process
  t : Int
  completed : Nat
  logs : List GanttLog
  q1 : List Nat
  q2 : List Nat
  q3 : List Nat
  qother : List Nat
  inq : List Bool
deriving Repr, DecidableEq

/-- Comparator of the MLQ Q1 sort (lines 92-97): base priority, then arrival. -/
def mlqQ1le (queue : List Process) (a b : Nat) : Prop :=
  (getP queue a).base_priority < (getP queue b).base_priority ∨
    ((getP queue a).base_priority = (getP queue b).base_priority ∧
      (getP queue a).at_ ≤ (getP queue b).at_)

instance (queue : List Process) (a b : Nat) : Decidable (mlqQ1le queue a b) := by
  unfold mlqQ1le; infer_instance

/-- Comparator of the MLQ Q3 sort (lines 100-104): arrival time. -/
def mlqQ3le (queue : List Process) (a b : Nat) : Prop :=
  (getP queue a).at_ ≤ (getP queue b).at_

instance (queue : List Process) (a b : Nat) : Decidable (mlqQ3le queue a b) := by
  unfold mlqQ3le; infer_instance

def insertLe (le : Nat → Nat → Prop) [DecidableRel le] (x : Nat) : List Nat → List Nat
  | [] => [x]
  | y :: ys => if le x y then x :: y :: ys else y :: insertLe le x ys

/-- Stable insertion sort modelling `std::sort` on the given comparator. -/
def sortLe (le : Nat → Nat → Prop) [DecidableRel le] (l : List Nat) : List Nat :=
  l.foldr (insertLe le) []

/-- MLQ `check_arrivals` (lines 83-107): each arrived process joins the queue
named by its fixed `current_queue` assignment; Q1 and Q3 are re-sorted after
each insertion (sorting after every insertion is equivalent to sorting once
the insertions are done, and is modelled by sorting the grown queue). -/
def mlqArrivalScan (queue : List Process) (t : Int) :
    List Nat → List Nat → List Nat → List Nat → List Nat → List Bool →
    List Nat × List Nat × List Nat × List Nat × List Bool
  | [], q1, q2, q3, qother, inq => (q1, q2, q3, qother, inq)
  | i :: rest, q1, q2, q3, qother, inq =>
      if ¬ inqAt inq i ∧ 0 < (getP queue i).rem_time ∧ (getP queue i).at_ ≤ t then
        let tq := (getP queue i).current_queue
        let inq' := inq.set i true
        if tq = 1 then
          mlqArrivalScan queue t rest (sortLe (mlqQ1le queue) (q1 ++ [i])) q2 q3 qother inq'
        else if tq = 2 then
          mlqArrivalScan queue t rest q1 (q2 ++ [i]) q3 qother inq'
        else if tq = 3 then
          mlqArrivalScan queue t rest q1 q2 (sortLe (mlqQ3le queue) (q3 ++ [i])) qother inq'
        else
          mlqArrivalScan queue t rest q1 q2 q3 (qother ++ [i]) inq'
      else
        mlqArrivalScan queue t rest q1 q2 q3 qother inq

/-- MLQ master preemption check (lines 152-161): clamp `next_switch_time` down
to the earliest strictly-future arrival of a Q1-assigned process. -/
def mlqNextSwitch (queue : List Process) (t rt0 : Int) : Int :=
  (List.range queue.length).foldl
    (fun ns i =>
      let p := getP queue i
      if 0 < p.rem_time ∧ p.current_queue = 1 ∧ t < p.at_ ∧ p.at_ < ns then p.at_ else ns)
    (t + rt0)

/-- Execution of the selected MLQ process (lines 141-205); `q1 q2 q3` are the
ready queues after selection (Q1 is peeked, lines 118-121, so for a Q1 pick
`q1` still contains `idx` in front; Q2 and Q3 are popped). -/
def mlqExec (s : MLQState) (q1 q2 q3 : List Nat) (idx : Nat) (cq : Int) : MLQState :=
  let rt0 : Int :=
    if cq = 1 then 1
    else if cq = 2 then min (getP s.queue idx).rem_time MLQ_Q2_QUANTUM
    else (getP s.queue idx).rem_time
  let ns := mlqNextSwitch s.queue s.t rt0
  let rt := ns - s.t
  if rt ≤ 0 then
    -- lines 163-170: reduced to zero by an arrival; push front and retry
    let q2' := if cq = 2 then idx :: q2 else q2
    let q3' := if cq = 3 then idx :: q3 else q3
    { s with q1 := q1, q2 := q2', q3 := q3', t := s.t + 1 }
  else
    let p := getP s.queue idx
    let procs := if p.first_run = -1 then setP s.procs idx { getP s.procs idx with first_run := s.t } else s.procs
    let queue := if p.first_run = -1 then setP s.queue idx { p with first_run := s.t } else s.queue
    let t' := s.t + rt
    let p' := getP queue idx
    let queue := setP queue idx { p' with rem_time := p'.rem_time - rt }
    let logs := appendLog s.logs p'.pid s.t t'
    if (getP queue idx).rem_time = 0 then
      -- lines 191-197: note that a completed Q1 process is NOT removed from q1
      { s with
        procs := setP procs idx (finalizeP (getP procs idx) (getP queue idx) t')
        queue := queue
        t := t'
        completed := s.completed + 1
        logs := logs
        q1 := q1
        q2 := q2
        q3 := q3
        inq := s.inq.set idx false }
    else
      -- lines 198-205: only a Q2 process is re-enqueued
      { s with
        procs := procs
        queue := queue
        t := t'
        logs := logs
        q1 := q1
        q2 := if cq = 2 then q2 ++ [idx] else q2
        q3 := q3 }

/-- One iteration of the MLQ `while (completed < n)` loop, lines 109-206. -/
def mlqStep (s : MLQState) : MLQState :=
  let sc := mlqArrivalScan s.queue s.t (List.range s.queue.length) s.q1 s.q2 s.q3 s.qother s.inq
  let s := { s with q1 := sc.1, q2 := sc.2.1, q3 := sc.2.2.1, qother := sc.2.2.2.1, inq := sc.2.2.2.2 }
  match s.q1 with
  | idx :: _ => mlqExec s s.q1 s.q2 s.q3 idx 1
  | [] =>
      match s.q2 with
      | idx :: q2rest => mlqExec s [] q2rest s.q3 idx 2
      | [] =>
          match s.q3 with
          | idx :: q3rest => mlqExec s [] [] q3rest idx 3
          | [] => { s with logs := idleLog s.logs s.t, t := s.t + 1 }

def mlqLoop : Nat → MLQState → Option MLQState
  | 0, _ => none
  | fuel + 1, s =>
      if s.completed < s.queue.length then mlqLoop fuel (mlqStep s) else some s

/-! ### The exported function `run_scheduler` (lines 43-530). -/

/-- Per-process initialization, lines 52-68. -/
def initProc (code : Int) (p : Process) : Process :=
  { p with
    rem_time := p.bt
    first_run := -1
    base_priority := p.priority
    current_priority := p.priority
    current_queue := if code = 6 then 1 else if code = 7 then p.priority else -1
    last_q3_entry := -1 }

/-- What `run_scheduler` hands back to the caller: the return value `count`,
the first `max_logs` log entries (lines 521-529), and the caller's (mutated)
process array. -/
structure SchedResult where
  count : Int
  logs : List GanttLog
  procs : List Process
deriving Repr, DecidableEq

def mkResult (maxLogs : Int) (procs : List Process) (logs : List GanttLog) : SchedResult :=
  let outLogs := logs.reverse.take maxLogs.toNat
  ⟨(outLogs.length : Int), outLogs, procs⟩

/-- Initial state of the MLQ loop, after lines 51-73 with code 7. -/
def mlqInitState (procs : List Process) : MLQState :=
  let init := procs.map (initProc 7)
  ⟨init, init, 0, 0, [], [], [], [], [], List.replicate init.length false⟩

/-- Initial state of the MLFQ loop, after lines 51-73 with code 6. -/
def mlfqInitState (procs : List Process) : MLFQState :=
  let init := procs.map (initProc 6)
  ⟨init, init, 0, 0, [], [], [], [], List.replicate init.length false⟩

/-- Initial state of the RR loop, after lines 51-73 with code 5. -/
def rrInitState (procs : List Process) : RRState :=
  let init := procs.map (initProc 5)
  ⟨init, init, 0, 0, [], [], List.replicate init.length false⟩

/-- Initial state of the generic loop, after lines 51-73. -/
def genInitState (code : Int) (procs : List Process) : GenState :=
  let init := procs.map (initProc code)
  ⟨init, init, 0, 0, []⟩

/-- `run_scheduler(procs, n, algorithm_code, quantum, logs, max_logs)` with
`n = procs.length`, as a fuel-indexed function: `none` models a call that has
not returned within `fuel` iterations of its simulation loop. -/
def run_scheduler (procs : List Process) (algorithm_code quantum maxLogs : Int)
    (fuel : Nat) : Option SchedResult :=
  if algorithm_code = 7 then
    (mlqLoop fuel (mlqInitState procs)).map (fun s => mkResult maxLogs s.procs s.logs)
  else if algorithm_code = 6 then
    (mlfqLoop fuel (mlfqInitState procs)).map (fun s => mkResult maxLogs s.procs s.logs)
  else if algorithm_code = 5 then
    (rrLoop quantum fuel (rrInitState procs)).map (fun s => mkResult maxLogs s.procs s.logs)
  else
    (genLoop algorithm_code fuel (genInitState algorithm_code procs)).map
      (fun s => mkResult maxLogs s.procs s.logs)

/-- An input process record: only `pid`, `at`, `bt`, `priority` are read by
the engine; the other fields are the caller's and start out zero here. -/
def inP (pid at_ bt priority : Int) : Process :=
  ⟨pid, at_, bt, priority, 0, 0, 0, 0, 0, 0, 0, 0, 0⟩

/-- Iterating a loop body `k` times. -/
def stepN {α : Type} (f : α → α) : Nat → α → α
  | 0, s => s
  | k + 1, s => stepN f k (f s)

/-! ### Concrete workloads used by the claims. -/

/-- The spec's MLQ scenario 6: `P1(at=0,bt=5,q=3)`, `P2(at=2,bt=3,q=1)`. -/
def mlqDemo : List Process := [inP 1 0 5 3, inP 2 2 3 1]

/-- The spec's RR scenario 3: `P1(at=0,bt=5)`, `P2(at=1,bt=3)`, `P3(at=2,bt=1)`. -/
def rrDemo : List Process := [inP 1 0 5 0, inP 2 1 3 0, inP 3 2 1 0]

/-- MLFQ workload with an arrival strictly inside the Q3 dispatch of P1:
P1 enters Q3 at t=24 with 6 remaining, P2 arrives at t=26. -/
def mlfqDemo : List Process := [inP 1 0 30 0, inP 2 26 2 0]

/-! ### C1, C2: MLQ on the spec's scenario 6.

Tracing the code on `mlqDemo`: P1 (queue 3) is dispatched at t=0 with
`run_time` clamped to 2 by P2's Q1 arrival; when preempted without completing,
the post-execution update (lines 198-205) re-enqueues only Q2 processes, so P1
leaves every ready queue while `in_ready_queue[0]` stays true — it can never
come back.  P2 then runs in Q1 and completes at t=5, but completion does not
remove it from `ready_queues[1]` (Q1 is peeked, not popped, line 119), so it
keeps being selected forever, its `rem_time` decreasing below zero, and
`completed` stays 1 < 2. -/

/-- Working-copy record of P1 in the absorbing MLQ states. -/
def stuckP1 : Process := ⟨1, 0, 5, 3, 0, 0, 0, 3, 0, 3, 3, 3, -1⟩

/-- Working-copy record of P2 in the absorbing MLQ states, remaining time `r`. -/
def stuckP2 (r : Int) : Process := ⟨2, 2, 3, 1, 0, 0, 0, r, 2, 1, 1, 1, -1⟩

/-- The absorbing family of MLQ states reached on `mlqDemo` after 4 iterations. -/
def MLQStuck (s : MLQState) : Prop :=
  ∃ (pr : List Process) (t r : Int) (rest : List GanttLog),
    r ≤ 0 ∧
    s = ⟨pr, [stuckP1, stuckP2 r], t, 1, ⟨2, 2, t⟩ :: rest, [1], [], [], [], [true, false]⟩

theorem mlqStep_stuck {s : MLQState} (h : MLQStuck s) : MLQStuck (mlqStep s) := by
  obtain ⟨pr, t, r, rest, hr, rfl⟩ := h
  refine ⟨pr, t + 1, r - 1, rest, by omega, ?_⟩
  have hr1 : ¬ (0 : Int) < r := by omega
  have hr2 : ¬ (r - 1 = 0) := by omega
  simp [mlqStep, mlqArrivalScan, mlqExec, mlqNextSwitch, appendLog, getP, setP, inqAt,
    stuckP1, stuckP2, List.range_succ, hr1, hr2]

theorem mlqStuck_completed {s : MLQState} (h : MLQStuck s) :
    s.completed < s.queue.length := by
  obtain ⟨pr, t, r, rest, hr, rfl⟩ := h
  simp

theorem mlqLoop_stuck (fuel : Nat) : ∀ s : MLQState, MLQStuck s → mlqLoop fuel s = none := by
  induction fuel with
  | zero => intro s _; rfl
  | succ f ih =>
      intro s hs
      simp only [mlqLoop]
      rw [if_pos (mlqStuck_completed hs)]
      exact ih _ (mlqStep_stuck hs)

theorem mlqLoop_succ (f : Nat) (s : MLQState) (h : s.completed < s.queue.length) :
    mlqLoop (f + 1) s = mlqLoop f (mlqStep s) := by
  simp only [mlqLoop]
  rw [if_pos h]

/-- C1: the claim states that `run_scheduler` terminates on every well-formed
input, in particular on MLQ inputs placing a process in queue 1.  It does not:
on `mlqDemo` (unique nonnegative pids, `at ≥ 0`, `bt > 0`, valid tag 7, queue
assignments in {1,2,3}, P2 in queue 1) the simulation loop never exits, for any
amount of fuel. -/
theorem mlq_wellformed_input_nontermination :
    ∀ fuel : Nat, run_scheduler mlqDemo 7 1 10 fuel = none := by
  have key : ∀ fuel : Nat, mlqLoop fuel (mlqInitState mlqDemo) = none := by
    intro fuel
    match fuel with
    | 0 => rfl
    | 1 => decide
    | 2 => decide
    | 3 => decide
    | (f + 4) =>
        have u1 : mlqLoop (f + 4) (mlqInitState mlqDemo) =
            mlqLoop (f + 3) (mlqStep (mlqInitState mlqDemo)) := mlqLoop_succ _ _ (by decide)
        have u2 : mlqLoop (f + 3) (mlqStep (mlqInitState mlqDemo)) =
            mlqLoop (f + 2) (mlqStep (mlqStep (mlqInitState mlqDemo))) :=
          mlqLoop_succ _ _ (by decide)
        have u3 : mlqLoop (f + 2) (mlqStep (mlqStep (mlqInitState mlqDemo))) =
            mlqLoop (f + 1) (mlqStep (mlqStep (mlqStep (mlqInitState mlqDemo)))) :=
          mlqLoop_succ _ _ (by decide)
        have u4 : mlqLoop (f + 1) (mlqStep (mlqStep (mlqStep (mlqInitState mlqDemo)))) =
            mlqLoop f (mlqStep (mlqStep (mlqStep (mlqStep (mlqInitState mlqDemo))))) :=
          mlqLoop_succ _ _ (by decide)
        have h4 : mlqStep (mlqStep (mlqStep (mlqStep (mlqInitState mlqDemo)))) =
            ⟨[⟨1,0,5,3,0,0,0,5,0,3,3,3,-1⟩, ⟨2,2,3,1,5,3,0,3,2,1,1,1,-1⟩],
             [stuckP1, stuckP2 0], 5, 1, [⟨2,2,5⟩, ⟨1,0,2⟩], [1], [], [], [], [true, false]⟩ := by
          decide
        rw [u1, u2, u3, u4, h4]
        exact mlqLoop_stuck f _ ⟨_, 5, 0, [⟨1,0,2⟩], by norm_num, rfl⟩
  intro fuel
  show (mlqLoop fuel (mlqInitState mlqDemo)).map _ = none
  rw [key fuel]
  rfl

/-- C2: the claim expects the MLQ engine on scenario 6 to produce the log
(1,0,2),(2,2,5),(1,5,8).  The first two intervals are produced (P1 is indeed
preempted at t=2 and P2 runs [2,5) to completion), but P1 never resumes: after
4 iterations P1 (3 units left) is in no ready queue while completed P2 is
still at the head of Q1, and two iterations later the code has kept running
P2, extending its log entry to (2,2,7) with `rem_time` = -2.  The claimed log
is never produced and the call never returns. -/
theorem mlq_scenario6_trace_diverges :
    (stepN mlqStep 4 (mlqInitState mlqDemo)).logs = [⟨2, 2, 5⟩, ⟨1, 0, 2⟩] ∧
    (stepN mlqStep 4 (mlqInitState mlqDemo)).completed = 1 ∧
    (stepN mlqStep 4 (mlqInitState mlqDemo)).t = 5 ∧
    (stepN mlqStep 4 (mlqInitState mlqDemo)).q1 = [1] ∧
    (stepN mlqStep 4 (mlqInitState mlqDemo)).q2 = [] ∧
    (stepN mlqStep 4 (mlqInitState mlqDemo)).q3 = [] ∧
    (getP (stepN mlqStep 4 (mlqInitState mlqDemo)).queue 0).rem_time = 3 ∧
    (getP (stepN mlqStep 4 (mlqInitState mlqDemo)).procs 1).ct = 5 ∧
    (stepN mlqStep 6 (mlqInitState mlqDemo)).logs = [⟨2, 2, 7⟩, ⟨1, 0, 2⟩] ∧
    (getP (stepN mlqStep 6 (mlqInitState mlqDemo)).queue 1).rem_time = -2 := by
  decide

/-- C4 counterexample: under RR with quantum 2 on scenario 3, the code does
not produce the claimed log (1,0,2),(2,2,4),(3,4,5),(1,5,7),(2,7,8),(1,8,9)
nor completion time 8 for P2 (the `next_arrival_time` clamp of lines 363-370
cuts P1's first quantum at P2's arrival t=1). -/
theorem rr_scenario3_log_counterexample :
    (run_scheduler rrDemo 5 2 100 100).map SchedResult.logs ≠
      some [⟨1, 0, 2⟩, ⟨2, 2, 4⟩, ⟨3, 4, 5⟩, ⟨1, 5, 7⟩, ⟨2, 7, 8⟩, ⟨1, 8, 9⟩] ∧
    (run_scheduler rrDemo 5 2 100 100).map (fun r => (getP r.procs 1).ct) ≠ some 8 := by
  decide

/-- C4 amended: under RR with quantum 2 on scenario 3 the engine produces the
log (1,0,1),(2,1,2),(1,2,4),(3,4,5),(2,5,7),(1,7,9) and completion times
9, 7, 5 for P1, P2, P3. -/
theorem rr_scenario3_actual_log :
    (run_scheduler rrDemo 5 2 100 100).map SchedResult.logs =
      some [⟨1, 0, 1⟩, ⟨2, 1, 2⟩, ⟨1, 2, 4⟩, ⟨3, 4, 5⟩, ⟨2, 5, 7⟩, ⟨1, 7, 9⟩] ∧
    (run_scheduler rrDemo 5 2 100 100).map
        (fun r => ((getP r.procs 0).ct, (getP r.procs 1).ct, (getP r.procs 2).ct)) =
      some (9, 7, 5) := by
  decide

/-- C3 counterexample: `run_scheduler` does not refuse malformed input.  With
the unknown algorithm tag 99 (and an otherwise well-formed process) it runs
the generic branch and returns count 1 with the simulation's log in the
buffer; with a duplicate pid under FCFS it simulates both processes and
returns their coalesced log.  No negative sentinel is ever produced. -/
theorem no_validation_counterexample :
    (run_scheduler [inP 1 0 1 0] 99 1 10 10).map SchedResult.count = some 1 ∧
    (run_scheduler [inP 1 0 1 0] 99 1 10 10).map SchedResult.logs = some [⟨1, 0, 1⟩] ∧
    (run_scheduler [inP 1 0 1 0, inP 1 0 1 0] 0 1 10 10).map SchedResult.logs =
      some [⟨1, 0, 2⟩] ∧
    ¬ ((1 : Int) < 0) := by
  decide

/-- C6 counterexample: on the well-formed FCFS input `P1(at=0,bt=1)` the
returned process record has `rem_time = 1` (its initialization value `bt`,
line 53), not 0: the simulation decrements only the working copy
`queue[idx].rem_time` and never writes `rem_time` back to the caller. -/
theorem rem_time_writeback_counterexample :
    (run_scheduler [inP 1 0 1 0] 0 1 10 10).map (fun r => (getP r.procs 0).rem_time) =
      some 1 ∧ (1 : Int) ≠ 0 := by
  decide

/-- State of the MLFQ loop on `mlfqDemo` after two iterations: t = 24, P1 in
Q3 with 6 units left, P2 (arrival 26) not yet arrived. -/
def mlfqDemoS2 : MLFQState := stepN mlfqStep 2 (mlfqInitState mlfqDemo)

/-- C7 counterexample: under MLFQ, a dispatched Q3 process is NOT preemptible
by a higher-queue arrival.  On `mlfqDemo`, the Q3 dispatch of P1 starts at
t=24 with 6 units remaining; P2 arrives at t=26, strictly inside (24, 30);
yet the very next iteration runs P1 to completion at t=30 (its Q3 quantum is
its whole remaining time, line 260, and arrivals are only observed after the
execution, line 289), so P1 is not descheduled at or before t=26. -/
theorem mlfq_q3_preempt_counterexample :
    mlfqDemoS2.t = 24 ∧ mlfqDemoS2.q1 = [] ∧ mlfqDemoS2.q2 = [] ∧ mlfqDemoS2.q3 = [0] ∧
    (getP mlfqDemoS2.queue 0).rem_time = 6 ∧ (getP mlfqDemoS2.queue 1).at_ = 26 ∧
    (getP mlfqDemoS2.queue 1).rem_time = 2 ∧
    (mlfqStep mlfqDemoS2).t = 30 ∧ (getP (mlfqStep mlfqDemoS2).queue 0).rem_time = 0 ∧
    mlfqDemoS2.t < (getP mlfqDemoS2.queue 1).at_ ∧
    (getP mlfqDemoS2.queue 1).at_ < mlfqDemoS2.t + (getP mlfqDemoS2.queue 0).rem_time ∧
    ¬ ((mlfqStep mlfqDemoS2).t ≤ (getP mlfqDemoS2.queue 1).at_) := by
  decide

/-! ### Generic list-surgery lemmas. -/

theorem getP_setP (l : List Process) (i j : Nat) (p : Process) :
    getP (setP l i p) j = if i = j ∧ j < l.length then p else getP l j := by
  induction l generalizing i j with
  | nil => simp [getP, setP]
  | cons a l ih =>
      cases i with
      | zero => cases j <;> simp [getP, setP]
      | succ i =>
          cases j with
          | zero => simp [getP, setP]
          | succ j =>
              have h := ih i j
              simp only [getP, setP, List.set, List.getD_cons_succ, List.length_cons] at h ⊢
              rw [h]
              by_cases hij : i = j
              · simp [hij, Nat.succ_lt_succ_iff]
              · simp [hij, fun hh => hij (Nat.succ_injective hh)]

theorem length_setP (l : List Process) (i : Nat) (p : Process) :
    (setP l i p).length = l.length := by
  simp [setP]

theorem getP_map (f : Process → Process) (l : List Process) (i : Nat) (h : i < l.length) :
    getP (l.map f) i = f (getP l i) := by
  induction l generalizing i with
  | nil => simp at h
  | cons a l ih =>
      cases i with
      | zero => simp [getP]
      | succ i => simpa [getP] using ih i (by simpa using h)

theorem mkResult_count (maxLogs : Int) (procs : List Process) (logs : List GanttLog) :
    0 ≤ (mkResult maxLogs procs logs).count ∧
    (mkResult maxLogs procs logs).count = ((mkResult maxLogs procs logs).logs.length : Int) := by
  simp [mkResult]

/-- C3 amended: instead of validating, `run_scheduler` always simulates; any
call that returns yields a count equal to the number of log entries handed
back, hence nonnegative — never a negative sentinel. -/
theorem run_scheduler_count_nonneg (procs : List Process) (code quantum maxLogs : Int)
    (fuel : Nat) (out : SchedResult)
    (h : run_scheduler procs code quantum maxLogs fuel = some out) :
    0 ≤ out.count ∧ out.count = (out.logs.length : Int) := by
  unfold run_scheduler at h
  split at h
  · obtain ⟨s, _, rfl⟩ := Option.map_eq_some'.mp h
    exact mkResult_count _ _ _
  · split at h
    · obtain ⟨s, _, rfl⟩ := Option.map_eq_some'.mp h
      exact mkResult_count _ _ _
    · split at h
      · obtain ⟨s, _, rfl⟩ := Option.map_eq_some'.mp h
        exact mkResult_count _ _ _
      · obtain ⟨s, _, rfl⟩ := Option.map_eq_some'.mp h
        exact mkResult_count _ _ _

/-- Result of `run_scheduler [inP 1 0 1 0] 0 1 10 10` (FCFS, one process). -/
def fcfsOneOut : SchedResult :=
  ⟨1, [⟨1, 0, 1⟩], [⟨1, 0, 1, 0, 1, 1, 0, 1, 0, 0, 0, -1, -1⟩]⟩

/-- C3 witness: the count returned on a concrete call is nonnegative. -/
theorem run_scheduler_count_nonneg_witness :
    0 ≤ fcfsOneOut.count ∧ fcfsOneOut.count = (fcfsOneOut.logs.length : Int) :=
  run_scheduler_count_nonneg [inP 1 0 1 0] 0 1 10 10 fcfsOneOut (by decide)

def remSame (old new : List Process) : Prop :=
  ∀ i : Nat, (getP new i).rem_time = (getP old i).rem_time

theorem remSame_refl (l : List Process) : remSame l l := fun _ => rfl

theorem remSame_trans {a b c : List Process} (h1 : remSame a b) (h2 : remSame b c) :
    remSame a c := fun i => (h2 i).trans (h1 i)

theorem remSame_setP (l : List Process) (i : Nat) (p : Process)
    (h : p.rem_time = (getP l i).rem_time) : remSame l (setP l i p) := by
  intro j
  rw [getP_setP]
  split
  · rename_i hc
    rw [h, hc.1]
  · rfl

theorem remSame_fr (l : List Process) (idx : Nat) (t : Int) :
    remSame l (setP l idx { getP l idx with first_run := t }) :=
  remSame_setP _ _ _ rfl

theorem remSame_fin (l : List Process) (idx : Nat) (p : Process) (ct : Int) :
    remSame l (setP l idx (finalizeP (getP l idx) p ct)) :=
  remSame_setP _ _ _ rfl

theorem rrExec_remSame (procs queue : List Process) (t : Int) (completed : Nat)
    (logs : List GanttLog) (idx : Nat) (rest : List Nat) (inq : List Bool)
    (exec0 : Int) :
    remSame procs (rrExec procs queue t completed logs idx rest inq exec0).procs := by
  simp only [rrExec]
  repeat' split
  all_goals
    first
    | exact remSame_refl _
    | exact remSame_fin _ _ _ _

theorem rrStep_remSame (quantum : Int) (s : RRState) :
    remSame s.procs (rrStep quantum s).procs := by
  simp only [rrStep]
  repeat' split
  all_goals
    first
    | exact remSame_refl _
    | exact rrExec_remSame _ _ _ _ _ _ _ _ _
    | exact remSame_trans (remSame_fr _ _ _) (rrExec_remSame _ _ _ _ _ _ _ _ _)

theorem mlqExec_remSame (s : MLQState) (q1 q2 q3 : List Nat) (idx : Nat) (cq : Int) :
    remSame s.procs (mlqExec s q1 q2 q3 idx cq).procs := by
  simp only [mlqExec]
  repeat' split
  all_goals
    first
    | exact remSame_refl _
    | exact remSame_fr _ _ _
    | exact remSame_fin _ _ _ _
    | exact remSame_trans (remSame_fr _ _ _) (remSame_fin _ _ _ _)

theorem mlqStep_remSame (s : MLQState) : remSame s.procs (mlqStep s).procs := by
  simp only [mlqStep]
  repeat' split
  all_goals
    first
    | exact remSame_refl _
    | exact mlqExec_remSame _ _ _ _ _ _

theorem mlfqExec_remSame (procs queue : List Process) (t : Int) (completed : Nat)
    (logs : List GanttLog) (q1 q2 q3 : List Nat) (inq : List Bool)
    (idx : Nat) (cq quant : Int) :
    remSame procs (mlfqExec procs queue t completed logs q1 q2 q3 inq idx cq quant).procs := by
  simp only [mlfqExec]
  repeat' split
  all_goals
    first
    | exact remSame_refl _
    | exact remSame_fr _ _ _
    | exact remSame_setP _ _ _ rfl
    | exact remSame_trans (remSame_fr _ _ _) (remSame_setP _ _ _ rfl)
    | exact remSame_trans (remSame_fin _ _ _ _) (remSame_setP _ _ _ rfl)
    | exact remSame_trans (remSame_fr _ _ _)
        (remSame_trans (remSame_fin _ _ _ _) (remSame_setP _ _ _ rfl))

theorem mlfqStep_remSame (s : MLFQState) : remSame s.procs (mlfqStep s).procs := by
  simp only [mlfqStep]
  repeat' split
  all_goals
    first
    | exact remSame_refl _
    | exact mlfqExec_remSame _ _ _ _ _ _ _ _ _ _ _ _

theorem remSame_age (t : Int) (procs queue : List Process) (h : procs.length = queue.length) :
    remSame procs (List.zipWith
      (fun pr p => if agingReady t p then { pr with current_priority := agedPriority t p } else pr)
      procs queue) := by
  induction procs generalizing queue with
  | nil => intro i; rfl
  | cons a l ih =>
      cases queue with
      | nil => simp at h
      | cons b m =>
          intro i
          cases i with
          | zero =>
              show (if agingReady t b then _ else _ : Process).rem_time = a.rem_time
              split <;> rfl
          | succ i => simpa [getP] using ih m (by simpa using h) i

theorem agePhase_facts (code t : Int) (procs queue : List Process)
    (h : procs.length = queue.length) :
    remSame procs (agePhase code t procs queue).1 ∧
    (agePhase code t procs queue).1.length = procs.length ∧
    (agePhase code t procs queue).2.length = queue.length := by
  unfold agePhase
  split
  · exact ⟨remSame_age t procs queue h, by simp [h], by simp⟩
  · exact ⟨remSame_refl _, rfl, rfl⟩

theorem genStep_remSame (code : Int) (s : GenState) (h : s.procs.length = s.queue.length) :
    remSame s.procs (genStep code s).procs ∧
    (genStep code s).procs.length = s.procs.length ∧
    (genStep code s).queue.length = s.queue.length := by
  obtain ⟨h1, h2, h3⟩ := agePhase_facts code s.t s.procs s.queue h
  simp only [genStep]
  repeat' split
  all_goals
    refine ⟨?_, by simp [length_setP, h2], by simp [length_setP, h3]⟩
  all_goals
    first
    | exact h1
    | exact remSame_trans h1 (remSame_fr _ _ _)
    | exact remSame_trans h1 (remSame_fin _ _ _ _)
    | exact remSame_trans h1 (remSame_trans (remSame_fr _ _ _) (remSame_fin _ _ _ _))

theorem genLoop_remSame (code : Int) : ∀ (fuel : Nat) (s out : GenState),
    s.procs.length = s.queue.length → genLoop code fuel s = some out →
    remSame s.procs out.procs := by
  intro fuel
  induction fuel with
  | zero => intro s out _ hloop; simp [genLoop] at hloop
  | succ f ih =>
      intro s out h hloop
      simp only [genLoop] at hloop
      split at hloop
      · have step := genStep_remSame code s h
        exact remSame_trans step.1 (ih _ _ (by rw [step.2.1, step.2.2, h]) hloop)
      · obtain rfl := Option.some.inj hloop
        exact remSame_refl _

theorem rrLoop_remSame (quantum : Int) : ∀ (fuel : Nat) (s out : RRState),
    rrLoop quantum fuel s = some out → remSame s.procs out.procs := by
  intro fuel
  induction fuel with
  | zero => intro s out hloop; simp [rrLoop] at hloop
  | succ f ih =>
      intro s out hloop
      simp only [rrLoop] at hloop
      split at hloop
      · exact remSame_trans (rrStep_remSame quantum s) (ih _ _ hloop)
      · obtain rfl := Option.some.inj hloop
        exact remSame_refl _

theorem mlfqLoop_remSame : ∀ (fuel : Nat) (s out : MLFQState),
    mlfqLoop fuel s = some out → remSame s.procs out.procs := by
  intro fuel
  induction fuel with
  | zero => intro s out hloop; simp [mlfqLoop] at hloop
  | succ f ih =>
      intro s out hloop
      simp only [mlfqLoop] at hloop
      split at hloop
      · exact remSame_trans (mlfqStep_remSame s) (ih _ _ hloop)
      · obtain rfl := Option.some.inj hloop
        exact remSame_refl _

theorem mlqLoop_remSame : ∀ (fuel : Nat) (s out : MLQState),
    mlqLoop fuel s = some out → remSame s.procs out.procs := by
  intro fuel
  induction fuel with
  | zero => intro s out hloop; simp [mlqLoop] at hloop
  | succ f ih =>
      intro s out hloop
      simp only [mlqLoop] at hloop
      split at hloop
      · exact remSame_trans (mlqStep_remSame s) (ih _ _ hloop)
      · obtain rfl := Option.some.inj hloop
        exact remSame_refl _

/-- C6 amended: on any call that returns (any input, any algorithm), the
`rem_time` field of every caller record equals its initialization value `bt`
(line 53), not 0: no simulation path ever writes `rem_time` back to the
caller's array. -/
theorem rem_time_final_equals_bt (procs : List Process) (code quantum maxLogs : Int)
    (fuel : Nat) (out : SchedResult)
    (h : run_scheduler procs code quantum maxLogs fuel = some out) :
    ∀ i : Nat, i < procs.length → (getP out.procs i).rem_time = (getP procs i).bt := by
  intro i hi
  have hinit : ∀ c : Int, (getP (procs.map (initProc c)) i).rem_time = (getP procs i).bt := by
    intro c
    rw [getP_map _ _ _ hi]
    rfl
  unfold run_scheduler at h
  split at h
  · obtain ⟨s, hs, rfl⟩ := Option.map_eq_some'.mp h
    have hr := mlqLoop_remSame fuel _ s hs
    show (getP s.procs i).rem_time = _
    rw [hr i]
    exact hinit 7
  · split at h
    · obtain ⟨s, hs, rfl⟩ := Option.map_eq_some'.mp h
      have hr := mlfqLoop_remSame fuel _ s hs
      show (getP s.procs i).rem_time = _
      rw [hr i]
      exact hinit 6
    · split at h
      · obtain ⟨s, hs, rfl⟩ := Option.map_eq_some'.mp h
        have hr := rrLoop_remSame quantum fuel _ s hs
        show (getP s.procs i).rem_time = _
        rw [hr i]
        exact hinit 5
      · obtain ⟨s, hs, rfl⟩ := Option.map_eq_some'.mp h
        have hr := genLoop_remSame code fuel _ s rfl hs
        show (getP s.procs i).rem_time = _
        rw [hr i]
        exact hinit code

/-- C6 witness: applying the amended statement on the FCFS run of a single
process with burst 1, whose returned record carries `rem_time = bt = 1`. -/
theorem rem_time_final_equals_bt_witness :
    (getP fcfsOneOut.procs 0).rem_time = (getP [inP 1 0 1 0] 0).bt :=
  rem_time_final_equals_bt [inP 1 0 1 0] 0 1 10 10 fcfsOneOut (by decide) 0 (by decide)

theorem getP_oob (l : List Process) (i : Nat) (h : l.length ≤ i) : getP l i = default :=
  List.getD_eq_default l default h

theorem getP_setP_self (l : List Process) (i : Nat) (p : Process) (h : i < l.length) :
    getP (setP l i p) i = p := by
  rw [getP_setP]
  simp [h]

/-- C7 amended: under MLFQ a Q3 dispatch always runs to completion.  Whenever
the MLFQ loop selects from Q3 (both higher queues empty after the arrival scan
and the promotion pass), the iteration advances `t` by the process's whole
remaining time, zeroes it and completes it — regardless of any arrival
strictly inside the dispatch, which is only observed afterwards. -/
theorem mlfq_q3_dispatch_completes (s : MLFQState) (idx : Nat) (q3rest : List Nat)
    (hq1 : (arrivalScan s.queue s.t (List.range s.queue.length) s.q1 s.inq).1 = [])
    (hq2 : s.q2 ++ (mlfqPromote s.t s.queue s.q3).2.1 = [])
    (hq3 : (mlfqPromote s.t s.queue s.q3).2.2 = idx :: q3rest)
    (hrem : 0 < (getP (mlfqPromote s.t s.queue s.q3).1 idx).rem_time) :
    (mlfqStep s).t = s.t + (getP (mlfqPromote s.t s.queue s.q3).1 idx).rem_time ∧
    (getP (mlfqStep s).queue idx).rem_time = 0 ∧
    (mlfqStep s).completed = s.completed + 1 := by
  have hidx : idx < (mlfqPromote s.t s.queue s.q3).1.length := by
    by_contra hc
    rw [getP_oob _ _ (Nat.le_of_not_lt hc)] at hrem
    exact absurd hrem (by decide)
  set queue := (mlfqPromote s.t s.queue s.q3).1 with hqdef
  set p := getP queue idx with hpdef
  simp only [mlfqStep, hq1, hq2, hq3]
  show (mlfqExec s.procs queue s.t s.completed s.logs [] [] q3rest _ idx 3 p.rem_time).t = _ ∧ _
  unfold mlfqExec
  simp only [min_self, ← hpdef]
  split
  · have h1 : getP (setP queue idx { p with first_run := s.t }) idx = { p with first_run := s.t } :=
      getP_setP_self _ _ _ (by simpa using hidx)
    simp only [h1]
    have h2 : getP (setP (setP queue idx { p with first_run := s.t }) idx
        { p with first_run := s.t, rem_time := p.rem_time - p.rem_time })
        idx = { p with first_run := s.t, rem_time := p.rem_time - p.rem_time } := by
      apply getP_setP_self
      simpa [length_setP] using hidx
    simp only [show p.rem_time - p.rem_time = 0 by ring] at h2 ⊢
    rw [if_pos]
    · refine ⟨rfl, ?_, rfl⟩
      show (getP _ idx).rem_time = 0
      rw [h2]
    · show (getP _ idx).rem_time = 0
      rw [h2]
  · have h2 : getP (setP queue idx { p with rem_time := p.rem_time - p.rem_time }) idx =
        { p with rem_time := p.rem_time - p.rem_time } :=
      getP_setP_self _ _ _ (by simpa using hidx)
    simp only [show p.rem_time - p.rem_time = 0 by ring] at h2 ⊢
    rw [if_pos]
    · refine ⟨rfl, ?_, rfl⟩
      show (getP _ idx).rem_time = 0
      rw [h2]
    · show (getP _ idx).rem_time = 0
      rw [h2]

/-- C7 witness: the Q3 dispatch of P1 on `mlfqDemo` at t=24 (6 units left)
runs to completion at t=30 in one iteration. -/
theorem mlfq_q3_dispatch_completes_witness :
    (mlfqStep mlfqDemoS2).t = mlfqDemoS2.t +
      (getP (mlfqPromote mlfqDemoS2.t mlfqDemoS2.queue mlfqDemoS2.q3).1 0).rem_time ∧
    (getP (mlfqStep mlfqDemoS2).queue 0).rem_time = 0 ∧
    (mlfqStep mlfqDemoS2).completed = mlfqDemoS2.completed + 1 :=
  mlfq_q3_dispatch_completes mlfqDemoS2 0 [] (by decide) (by decide) (by decide) (by decide)

/-! ### C8: priority aging in the PRIO-NP / PRIO-P branch. -/

theorem agePhase_queue_getP (code t : Int) (procs queue : List Process) (i : Nat) :
    getP (agePhase code t procs queue).2 i =
      if (code = 3 ∨ code = 4) ∧ i < queue.length ∧ agingReady t (getP queue i) then
        { getP queue i with current_priority := agedPriority t (getP queue i) }
      else getP queue i := by
  unfold agePhase
  split
  · rename_i hc
    by_cases hi : i < queue.length
    · rw [getP_map _ _ _ hi]
      by_cases ha : agingReady t (getP queue i)
      · rw [if_pos ha, if_pos ⟨hc, hi, ha⟩]
      · rw [if_neg ha, if_neg (by tauto)]
    · rw [if_neg (by tauto)]
      show getP _ i = _
      rw [getP_oob _ _ (by simpa using Nat.le_of_not_lt hi),
        getP_oob _ _ (Nat.le_of_not_lt hi)]
  · rename_i hc
    rw [if_neg (by tauto)]

theorem cp_setP (l : List Process) (idx : Nat) (p : Process)
    (h : p.current_priority = (getP l idx).current_priority) (i : Nat) :
    (getP (setP l idx p) i).current_priority = (getP l i).current_priority := by
  rw [getP_setP]
  split
  · rename_i hc
    rw [h, hc.1]
  · rfl

theorem fr_setP (l : List Process) (idx : Nat) (p : Process)
    (h : p.first_run = (getP l idx).first_run) (i : Nat) :
    (getP (setP l idx p) i).first_run = (getP l i).first_run := by
  rw [getP_setP]
  split
  · rename_i hc
    rw [h, hc.1]
  · rfl

/-- `current_priority` of every working-copy entry is unchanged from the end
of the aging phase to the end of the iteration: nothing after aging writes it. -/
theorem genStep_queue_cp (code : Int) (s : GenState) (i : Nat) :
    (getP (genStep code s).queue i).current_priority =
    (getP (agePhase code s.t s.procs s.queue).2 i).current_priority := by
  simp only [genStep]
  repeat' split
  all_goals
    first
    | rfl
    | simp only [cp_setP]

theorem fr_setP_guard (l : List Process) (idx : Nat) (q : Process) (i : Nat)
    (hg : (getP l idx).first_run = -1) (hi : (getP l i).first_run ≠ -1) :
    (getP (setP l idx q) i).first_run = (getP l i).first_run := by
  rw [getP_setP]
  split
  · rename_i hc
    exact absurd (hc.1 ▸ hg) hi
  · rfl

/-- A process that has already run keeps its `first_run` through an iteration
(the only write to `first_run` is guarded by `first_run == -1`, line 495). -/
theorem genStep_queue_fr (code : Int) (s : GenState) (i : Nat)
    (h : (getP (agePhase code s.t s.procs s.queue).2 i).first_run ≠ -1) :
    (getP (genStep code s).queue i).first_run =
    (getP (agePhase code s.t s.procs s.queue).2 i).first_run := by
  simp only [genStep]
  repeat' split
  all_goals simp only [fr_setP]
  all_goals
    first
    | rfl
    | (apply fr_setP_guard <;> assumption)

/-- The spec's Priority-Preemptive aging scenario 4:
`P1(at=0,bt=10,pri=3)`, `P2(at=2,bt=2,pri=1)`. -/
def prioDemo : List Process := [inP 1 0 10 3, inP 2 2 2 1]

/-- C8: in the PRIO-NP (3) / PRIO-P (4) branch, each iteration sets the
`current_priority` of every ready, never-run process `i` to
`max(1, base_priority - (t - at) / 5)` (truncating division, with `t - at ≥ 0`
this is the floor of the claim); and once a process has run (`first_run ≠ -1`)
an iteration changes neither its `current_priority` nor its `first_run`, so
aging never recomputes it. -/
theorem prio_aging_formula (code : Int) (s : GenState) (i : Nat)
    (hcode : code = 3 ∨ code = 4) (hi : i < s.queue.length) :
    (agingReady s.t (getP s.queue i) →
      (getP (genStep code s).queue i).current_priority =
        max 1 ((getP s.queue i).base_priority -
          Int.tdiv (s.t - (getP s.queue i).at_) PRIORITY_AGING_RATE)) ∧
    ((getP s.queue i).first_run ≠ -1 →
      (getP (genStep code s).queue i).current_priority =
        (getP s.queue i).current_priority ∧
      (getP (genStep code s).queue i).first_run = (getP s.queue i).first_run) := by
  have hcp := genStep_queue_cp code s i
  have hch := agePhase_queue_getP code s.t s.procs s.queue i
  constructor
  · intro ha
    rw [hcp, hch, if_pos ⟨hcode, hi, ha⟩]
    rfl
  · intro hfr
    have hch2 : getP (agePhase code s.t s.procs s.queue).2 i = getP s.queue i := by
      rw [hch, if_neg]
      intro hc
      exact hfr hc.2.2.2.2
    refine ⟨?_, ?_⟩
    · rw [hcp, hch2]
    · rw [genStep_queue_fr code s i (by rw [hch2]; exact hfr), hch2]

/-- C8 witness: on the initial state of scenario 4 under PRIO-P, P1 (ready,
never run, `t = at = 0`) gets `current_priority = max 1 (3 - 0) = 3`. -/
theorem prio_aging_formula_witness :
    (getP (genStep 4 (genInitState 4 prioDemo)).queue 0).current_priority =
      max 1 ((getP (genInitState 4 prioDemo).queue 0).base_priority -
        Int.tdiv ((genInitState 4 prioDemo).t - (getP (genInitState 4 prioDemo).queue 0).at_)
          PRIORITY_AGING_RATE) :=
  (prio_aging_formula 4 (genInitState 4 prioDemo) 0 (Or.inr rfl) (by decide)).1 (by decide)

/-! ### C10: behaviour of unrecognized algorithm codes (generic branch). -/

theorem foldl_invariant {α β : Type} (f : β → α → β) (P : β → Prop)
    (step : ∀ b a, P b → P (f b a)) : ∀ (l : List α) (b : β), P b → P (l.foldl f b) := by
  intro l
  induction l with
  | nil => intro b h; exact h
  | cons a l ih => intro b h; exact ih _ (step _ _ h)

theorem filter_sorted_head (p : Nat → Bool) :
    ∀ (l : List Nat) (i : Nat) (rest : List Nat),
      List.Pairwise (· < ·) l → l.filter p = i :: rest →
      p i = true ∧ ∀ j ∈ l, j < i → p j = false := by
  intro l
  induction l with
  | nil => intro i rest _ h; simp at h
  | cons a l ih =>
      intro i rest hp hf
      rw [List.filter_cons] at hf
      split at hf
      · rename_i hpa
        have hai : a = i := (List.cons.injEq ..).mp hf |>.1
        subst hai
        refine ⟨hpa, ?_⟩
        intro j hj hji
        rcases List.mem_cons.mp hj with rfl | hj'
        · exact absurd hji (lt_irrefl j)
        · have : a < j := (List.pairwise_cons.mp hp).1 j hj'
          omega
      · rename_i hpa
        obtain ⟨h1, h2⟩ := ih i rest (List.pairwise_cons.mp hp).2 hf
        refine ⟨h1, ?_⟩
        intro j hj hji
        rcases List.mem_cons.mp hj with rfl | hj'
        · simpa using hpa
        · exact h2 j hj' hji

/-- For an unrecognized algorithm code, no selection comparison ever fires. -/
theorem selBetter_unknown (code : Int) (q : List Process) (i idx : Nat)
    (hcode : code < 0 ∨ 7 < code) : ¬ selBetter code q i idx := by
  unfold selBetter
  rintro (⟨h, -⟩ | ⟨h | h, -⟩ | ⟨h | h, -⟩) <;> omega

theorem gSelect_unknown (code : Int) (q : List Process) (cands : List Nat) (c0 : Nat)
    (hcode : code < 0 ∨ 7 < code) : gSelect code q cands c0 = c0 := by
  unfold gSelect
  have := foldl_invariant (fun idx i => if selBetter code q i idx then i else idx)
    (fun b => b = c0) ?_ cands c0 rfl
  · exact this
  · intro b a hb
    show (if selBetter code q a b then a else b) = c0
    rw [if_neg (selBetter_unknown code q a b hcode), hb]

theorem genPreempts_unknown (code : Int) (q : List Process) (i idx : Nat)
    (hcode : code < 0 ∨ 7 < code) : ¬ genPreempts code q i idx := by
  unfold genPreempts
  rintro (⟨h, -⟩ | ⟨h, -⟩) <;> omega

/-- For an unrecognized code the duration scan leaves `run_time = 1` and only
lowers `next_switch_time` to strictly-future arrivals, so with a positive
remaining time the dispatch length is exactly 1. -/
theorem genRunTime_unknown (code : Int) (q : List Process) (t : Int) (idx : Nat)
    (hcode : code < 0 ∨ 7 < code) (hrem : 0 < (getP q idx).rem_time) :
    genRunTime code q t idx = 1 := by
  unfold genRunTime
  rw [if_neg (by omega)]
  have hscan := foldl_invariant
    (fun (acc : Int × Int) i =>
      if i = idx ∨ (getP q i).rem_time = 0 then acc
      else
        let p := getP q i
        let ns := if t < p.at_ ∧ p.at_ < acc.1 ∧ genPreempts code q i idx then p.at_ else acc.1
        let rt :=
          if code = 4 ∧ p.at_ ≤ t ∧ p.current_priority < (getP q idx).current_priority then 1
          else acc.2
        (ns, rt))
    (fun acc => t + 1 ≤ acc.1 ∧ acc.2 = 1) ?_ (List.range q.length)
    (t + (getP q idx).rem_time, 1) ⟨by omega, rfl⟩
  · show min (genScan code q t idx).2 ((genScan code q t idx).1 - t) = 1
    unfold genScan
    obtain ⟨h1, h2⟩ := hscan
    rw [h2]
    omega
  · intro b a hb
    dsimp only
    split
    · exact hb
    · constructor
      · split
        · rename_i hc
          exact absurd hc.2.2 (genPreempts_unknown code q a idx hcode)
        · exact hb.1
      · show (if code = 4 ∧ (getP q a).at_ ≤ t ∧
            (getP q a).current_priority < (getP q idx).current_priority then 1 else b.2) = 1
        split
        · rfl
        · exact hb.2

theorem agePhase_id (code t : Int) (procs queue : List Process)
    (h : ¬ (code = 3 ∨ code = 4)) : agePhase code t procs queue = (procs, queue) := by
  unfold agePhase
  exact if_neg h

theorem getP_setP_setP_self (l : List Process) (i : Nat) (p q : Process)
    (h : i < l.length) : getP (setP (setP l i p) i q) i = q :=
  getP_setP_self _ _ _ (by simpa [length_setP] using h)

theorem genStep_unknown_dispatch (code : Int) (s : GenState) (i : Nat) (rest : List Nat)
    (hcode : code < 0 ∨ 7 < code)
    (hc : gCandidates s.queue s.t = i :: rest) :
    (genStep code s).t = s.t + 1 ∧
    (getP (genStep code s).queue i).rem_time = (getP s.queue i).rem_time - 1 ∧
    (genStep code s).logs = appendLog s.logs (getP s.queue i).pid s.t (s.t + 1) := by
  have hage : agePhase code s.t s.procs s.queue = (s.procs, s.queue) :=
    agePhase_id code s.t s.procs s.queue (by omega)
  have hmem : i ∈ gCandidates s.queue s.t := by
    rw [hc]
    exact List.mem_cons_self i rest
  have hi : i < s.queue.length := by
    unfold gCandidates at hmem
    simpa [List.mem_range] using (List.mem_filter.mp hmem).1
  have hrem : 0 < (getP s.queue i).rem_time :=
    (of_decide_eq_true (List.mem_filter.mp hmem).2).2
  simp only [genStep, hage, hc]
  rw [gSelect_unknown _ _ _ _ hcode, genRunTime_unknown _ _ _ _ hcode hrem]
  rw [if_neg (by norm_num : ¬ (1 : Int) ≤ 0)]
  have hp1 : getP (setP s.queue i { getP s.queue i with first_run := s.t }) i =
      { getP s.queue i with first_run := s.t } := getP_setP_self _ _ _ hi
  split
  · split
    · refine ⟨rfl, ?_, ?_⟩
      · rw [getP_setP_setP_self _ _ _ _ hi, hp1]
      · rw [hp1]
    · refine ⟨rfl, ?_, ?_⟩
      · rw [getP_setP_setP_self _ _ _ _ hi, hp1]
      · rw [hp1]
  · split
    · refine ⟨rfl, ?_, ?_⟩
      · rw [getP_setP_self _ _ _ hi]
      · rfl
    · refine ⟨rfl, ?_, ?_⟩
      · rw [getP_setP_self _ _ _ hi]
      · rfl

/-- Total remaining work in the working copy, clamped at 0 per entry. -/
def sumRem (l : List Process) : Nat := l.foldr (fun p a => p.rem_time.toNat + a) 0

/-- Largest arrival time in the working copy (at least 0). -/
def maxArr (l : List Process) : Int := l.foldr (fun p a => max p.at_ a) 0

/-- Number of entries with positive remaining time. -/
def posCount (l : List Process) : Nat := l.countP (fun p => decide (0 < p.rem_time))

/-- Loop invariant of the generic branch tying `completed` to the number of
finished entries. -/
def zeroInv (s : GenState) : Prop :=
  s.queue.length ≤ s.completed + posCount s.queue ∧ ∀ p ∈ s.queue, 0 ≤ p.rem_time

/-- Decreasing measure of the generic loop. -/
def gmeasure (s : GenState) : Nat := sumRem s.queue + (maxArr s.queue + 1 - s.t).toNat

theorem sumRem_setP (l : List Process) (i : Nat) (p : Process) (h : i < l.length) :
    sumRem (setP l i p) + (getP l i).rem_time.toNat = sumRem l + p.rem_time.toNat := by
  induction l generalizing i with
  | nil => simp at h
  | cons a l ih =>
      cases i with
      | zero =>
          show p.rem_time.toNat + sumRem l + a.rem_time.toNat =
            a.rem_time.toNat + sumRem l + p.rem_time.toNat
          omega
      | succ i =>
          have hih := ih i (by simpa using h)
          show a.rem_time.toNat + sumRem (setP l i p) + (getP l i).rem_time.toNat =
            a.rem_time.toNat + sumRem l + p.rem_time.toNat
          omega

theorem posCount_setP (l : List Process) (i : Nat) (p : Process) (h : i < l.length) :
    posCount (setP l i p) + (if 0 < (getP l i).rem_time then 1 else 0) =
    posCount l + (if 0 < p.rem_time then 1 else 0) := by
  induction l generalizing i with
  | nil => simp at h
  | cons a l ih =>
      cases i with
      | zero =>
          show posCount (p :: l) + (if 0 < a.rem_time then 1 else 0) =
            posCount (a :: l) + (if 0 < p.rem_time then 1 else 0)
          simp only [posCount, List.countP_cons, decide_eq_true_eq]
          by_cases hp : 0 < p.rem_time <;> by_cases ha : 0 < a.rem_time <;>
            simp [hp, ha] <;> omega
      | succ i =>
          have hih := ih i (by simpa using h)
          show posCount (a :: setP l i p) + (if 0 < (getP l i).rem_time then 1 else 0) =
            posCount (a :: l) + (if 0 < p.rem_time then 1 else 0)
          simp only [posCount, List.countP_cons, decide_eq_true_eq] at hih ⊢
          by_cases h1 : 0 < (getP l i).rem_time <;> by_cases h2 : 0 < p.rem_time <;>
            by_cases ha : 0 < a.rem_time <;> simp [h1, h2, ha] at hih ⊢ <;> omega

theorem maxArr_setP (l : List Process) (i : Nat) (p : Process)
    (h : p.at_ = (getP l i).at_) : maxArr (setP l i p) = maxArr l := by
  induction l generalizing i with
  | nil => rfl
  | cons a l ih =>
      cases i with
      | zero =>
          show max p.at_ (maxArr l) = max a.at_ (maxArr l)
          rw [h]
          rfl
      | succ i =>
          show max a.at_ (maxArr (setP l i p)) = max a.at_ (maxArr l)
          rw [ih i h]

theorem le_maxArr (l : List Process) (p : Process) (hp : p ∈ l) : p.at_ ≤ maxArr l := by
  induction l with
  | nil => simp at hp
  | cons a l ih =>
      rcases List.mem_cons.mp hp with rfl | hp'
      · exact le_max_left _ _
      · exact le_trans (ih hp') (le_max_right _ _)

theorem getP_mem (l : List Process) (i : Nat) (h : i < l.length) : getP l i ∈ l := by
  rw [getP, List.getD_eq_getElem l default h]
  exact List.getElem_mem h

theorem mem_setP (l : List Process) (i : Nat) (p q : Process) (h : q ∈ setP l i p) :
    q ∈ l ∨ q = p := by
  rcases List.mem_or_eq_of_mem_set h with h' | rfl
  · exact Or.inl h'
  · exact Or.inr rfl


theorem genStep_unknown_facts (code : Int) (s : GenState) (i : Nat) (rest : List Nat)
    (hcode : code < 0 ∨ 7 < code) (hc : gCandidates s.queue s.t = i :: rest)
    (hnn : ∀ p ∈ s.queue, 0 ≤ p.rem_time) :
    (genStep code s).t = s.t + 1 ∧
    sumRem (genStep code s).queue + 1 = sumRem s.queue ∧
    maxArr (genStep code s).queue = maxArr s.queue ∧
    (genStep code s).queue.length = s.queue.length ∧
    (genStep code s).completed + posCount (genStep code s).queue =
      s.completed + posCount s.queue ∧
    (∀ p ∈ (genStep code s).queue, 0 ≤ p.rem_time) := by
  have hage : agePhase code s.t s.procs s.queue = (s.procs, s.queue) :=
    agePhase_id code s.t s.procs s.queue (by omega)
  have hmem : i ∈ gCandidates s.queue s.t := by
    rw [hc]
    exact List.mem_cons_self i rest
  have hi : i < s.queue.length := by
    unfold gCandidates at hmem
    simpa [List.mem_range] using (List.mem_filter.mp hmem).1
  have hrem : 0 < (getP s.queue i).rem_time :=
    (of_decide_eq_true (List.mem_filter.mp hmem).2).2
  simp only [genStep, hage, hc]
  rw [gSelect_unknown _ _ _ _ hcode, genRunTime_unknown _ _ _ _ hcode hrem]
  rw [if_neg (by norm_num : ¬ (1 : Int) ≤ 0)]
  split
  · -- first dispatch of this process: first_run written, then rem_time
    set p := getP s.queue i with hpdef
    set A : Process := { p with first_run := s.t } with hAdef
    set Q1 := setP s.queue i A with hQ1def
    have hiQ1 : i < Q1.length := by simpa [hQ1def, length_setP] using hi
    have hp1 : getP Q1 i = A := getP_setP_self _ _ _ hi
    rw [hp1]
    set B : Process := { A with rem_time := A.rem_time - 1 } with hBdef
    have hgB : getP (setP Q1 i B) i = B := getP_setP_self _ _ _ hiQ1
    have e1 := sumRem_setP s.queue i A hi
    have e2 := sumRem_setP Q1 i B hiQ1
    rw [hp1] at e2
    have c1 := posCount_setP s.queue i A hi
    have c2 := posCount_setP Q1 i B hiQ1
    rw [hp1] at c2
    rw [← hpdef] at e1 c1
    rw [← hQ1def] at e1 c1
    have hAr : A.rem_time = p.rem_time := rfl
    have hBr : B.rem_time = p.rem_time - 1 := rfl
    have m1 : maxArr Q1 = maxArr s.queue := maxArr_setP _ _ _ rfl
    have m2 : maxArr (setP Q1 i B) = maxArr Q1 := by
      apply maxArr_setP
      rw [hp1]
    have hnn1 : ∀ q ∈ setP Q1 i B, 0 ≤ q.rem_time := by
      intro q hq
      rcases mem_setP _ _ _ _ hq with hq' | rfl
      · rcases mem_setP _ _ _ _ hq' with hq'' | rfl
        · exact hnn q hq''
        · rw [hAr]
          exact hnn p (getP_mem _ _ hi)
      · rw [hBr]
        omega
    have hlen : (setP Q1 i B).length = s.queue.length := by
      simp [hQ1def, length_setP]
    split
    · rename_i hz
      rw [hgB] at hz
      rw [hBr] at hz e2 c2
      rw [hAr] at e1 e2 c1 c2
      rw [if_pos hrem] at c1 c2
      rw [if_neg (by omega : ¬ (0 : Int) < p.rem_time - 1)] at c2
      refine ⟨rfl, ?_, ?_, hlen, ?_, hnn1⟩
      · show sumRem (setP Q1 i B) + 1 = sumRem s.queue
        omega
      · show maxArr (setP Q1 i B) = maxArr s.queue
        rw [m2, m1]
      · show s.completed + 1 + posCount (setP Q1 i B) = s.completed + posCount s.queue
        omega
    · rename_i hz
      rw [hgB] at hz
      rw [hBr] at hz e2 c2
      rw [hAr] at e1 e2 c1 c2
      rw [if_pos hrem] at c1 c2
      rw [if_pos (by omega : (0 : Int) < p.rem_time - 1)] at c2
      refine ⟨rfl, ?_, ?_, hlen, ?_, hnn1⟩
      · show sumRem (setP Q1 i B) + 1 = sumRem s.queue
        omega
      · show maxArr (setP Q1 i B) = maxArr s.queue
        rw [m2, m1]
      · show s.completed + posCount (setP Q1 i B) = s.completed + posCount s.queue
        omega
  · -- process has run before: single update
    set p := getP s.queue i with hpdef
    set B : Process := { p with rem_time := p.rem_time - 1 } with hBdef
    have hgB : getP (setP s.queue i B) i = B := getP_setP_self _ _ _ hi
    have e2 := sumRem_setP s.queue i B hi
    have c2 := posCount_setP s.queue i B hi
    rw [← hpdef] at e2 c2
    have hBr : B.rem_time = p.rem_time - 1 := rfl
    have m2 : maxArr (setP s.queue i B) = maxArr s.queue := maxArr_setP _ _ _ rfl
    have hnn1 : ∀ q ∈ setP s.queue i B, 0 ≤ q.rem_time := by
      intro q hq
      rcases mem_setP _ _ _ _ hq with hq' | rfl
      · exact hnn q hq'
      · rw [hBr]
        omega
    have hlen : (setP s.queue i B).length = s.queue.length := by simp [length_setP]
    split
    · rename_i hz
      rw [hgB] at hz
      rw [hBr] at hz e2 c2
      rw [if_pos hrem] at c2
      rw [if_neg (by omega : ¬ (0 : Int) < p.rem_time - 1)] at c2
      refine ⟨rfl, ?_, m2, hlen, ?_, hnn1⟩
      · show sumRem (setP s.queue i B) + 1 = sumRem s.queue
        omega
      · show s.completed + 1 + posCount (setP s.queue i B) = s.completed + posCount s.queue
        omega
    · rename_i hz
      rw [hgB] at hz
      rw [hBr] at hz e2 c2
      rw [if_pos hrem] at c2
      rw [if_pos (by omega : (0 : Int) < p.rem_time - 1)] at c2
      refine ⟨rfl, ?_, m2, hlen, ?_, hnn1⟩
      · show sumRem (setP s.queue i B) + 1 = sumRem s.queue
        omega
      · show s.completed + posCount (setP s.queue i B) = s.completed + posCount s.queue
        omega

theorem genStep_idle_facts (code : Int) (s : GenState)
    (hcode : ¬ (code = 3 ∨ code = 4)) (hc : gCandidates s.queue s.t = []) :
    (genStep code s).t = s.t + 1 ∧ (genStep code s).queue = s.queue ∧
    (genStep code s).completed = s.completed := by
  have hage := agePhase_id code s.t s.procs s.queue hcode
  simp only [genStep, hage, hc]
  refine ⟨?_, ?_, ?_⟩ <;> first | rfl | trivial

theorem getP_eq_getElem (l : List Process) (j : Nat) (h : j < l.length) :
    getP l j = l[j] := List.getD_eq_getElem l default h

/-- When the generic branch goes idle while work remains, some process with
positive remaining time has a strictly future arrival. -/
theorem idle_future_arrival (s : GenState) (hinv : zeroInv s)
    (hrun : s.completed < s.queue.length) (hc : gCandidates s.queue s.t = []) :
    ∃ j : Nat, j < s.queue.length ∧ 0 < (getP s.queue j).rem_time ∧
      s.t < (getP s.queue j).at_ := by
  have hpos : 0 < posCount s.queue := by
    have := hinv.1
    omega
  obtain ⟨q, hqmem, hq2⟩ := List.countP_pos.mp hpos
  have hq2' : 0 < q.rem_time := of_decide_eq_true hq2
  obtain ⟨j, hj, hqe⟩ := List.mem_iff_getElem.mp hqmem
  have hgj : getP s.queue j = q := by rw [getP_eq_getElem _ _ hj, hqe]
  have hq2'' : 0 < (getP s.queue j).rem_time := by rw [hgj]; exact hq2'
  refine ⟨j, hj, hq2'', ?_⟩
  have hnc : ∀ a ∈ List.range s.queue.length,
      ¬ (fun i => decide ((getP s.queue i).at_ ≤ s.t ∧ 0 < (getP s.queue i).rem_time)) a = true := by
    rw [← List.filter_eq_nil_iff]
    exact hc
  have hthis := hnc j (List.mem_range.mpr hj)
  rw [decide_eq_true_eq] at hthis
  by_contra hle
  exact hthis ⟨by omega, hq2''⟩

theorem genStep_unknown_inv (code : Int) (s : GenState) (hcode : code < 0 ∨ 7 < code)
    (hinv : zeroInv s) (hrun : s.completed < s.queue.length) :
    zeroInv (genStep code s) ∧ gmeasure (genStep code s) < gmeasure s := by
  rcases hcand : gCandidates s.queue s.t with _ | ⟨i, rest⟩
  · obtain ⟨ht, hq, hcm⟩ := genStep_idle_facts code s (by omega) hcand
    obtain ⟨j, hj, hjr, hja⟩ := idle_future_arrival s hinv hrun hcand
    have hmax := le_maxArr s.queue (getP s.queue j) (getP_mem _ _ hj)
    constructor
    · constructor
      · rw [hq, hcm]
        exact hinv.1
      · rw [hq]
        exact hinv.2
    · unfold gmeasure
      rw [hq, ht]
      omega
  · obtain ⟨ht, hsum, hmax, hlen, hcp, hnn⟩ :=
      genStep_unknown_facts code s i rest hcode hcand hinv.2
    constructor
    · constructor
      · rw [hlen]
        have := hinv.1
        omega
      · exact hnn
    · unfold gmeasure
      rw [ht, hmax]
      omega

theorem genLoop_unknown_term (code : Int) (hcode : code < 0 ∨ 7 < code) :
    ∀ (fuel : Nat) (s : GenState),
      zeroInv s → gmeasure s < fuel → ∃ out, genLoop code fuel s = some out := by
  intro fuel
  induction fuel with
  | zero => intro s _ h; omega
  | succ f ih =>
      intro s hinv hm
      by_cases hrun : s.completed < s.queue.length
      · obtain ⟨hinv', hm'⟩ := genStep_unknown_inv code s hcode hinv hrun
        obtain ⟨out, hout⟩ := ih (genStep code s) hinv' (by omega)
        refine ⟨out, ?_⟩
        simp only [genLoop]
        rw [if_pos hrun]
        exact hout
      · refine ⟨s, ?_⟩
        simp only [genLoop]
        rw [if_neg hrun]

/-- Well-formed input per the spec: unique nonnegative pids, nonnegative
arrivals, positive bursts. -/
def WellFormedInput (procs : List Process) : Prop :=
  (∀ p ∈ procs, 0 ≤ p.pid ∧ 0 ≤ p.at_ ∧ 0 < p.bt) ∧ (procs.map Process.pid).Nodup

theorem zeroInv_init (code : Int) (procs : List Process)
    (hwf : ∀ p ∈ procs, 0 < p.bt) : zeroInv (genInitState code procs) := by
  constructor
  · show (procs.map (initProc code)).length ≤ 0 + posCount (procs.map (initProc code))
    have hlen : posCount (procs.map (initProc code)) = (procs.map (initProc code)).length := by
      rw [posCount, List.countP_eq_length]
      intro a ha
      obtain ⟨p0, hp0, rfl⟩ := List.mem_map.mp ha
      have := hwf p0 hp0
      simpa using this
    omega
  · intro p hp
    obtain ⟨p0, hp0, rfl⟩ := List.mem_map.mp hp
    have := hwf p0 hp0
    show (0 : Int) ≤ p0.bt
    omega

/-- C10: for every algorithm code outside 0..7 and well-formed input,
`run_scheduler` does not reject: it runs the generic branch and terminates
with a nonnegative log count (first conjunct); and in every iteration whose
candidate list is nonempty, no selection comparison applies (the fold returns
the first candidate), that candidate is the ready process of smallest table
index, `run_time` keeps its initial value 1, and the step dispatches it for
exactly one time unit, logging one unit for its pid (second conjunct). -/
theorem unknown_code_lowest_index (procs : List Process) (code quantum maxLogs : Int)
    (hcode : code < 0 ∨ 7 < code) (hwf : WellFormedInput procs) :
    (∃ (fuel : Nat) (out : SchedResult),
        run_scheduler procs code quantum maxLogs fuel = some out ∧ 0 ≤ out.count) ∧
    (∀ (s : GenState) (i : Nat) (rest : List Nat),
        gCandidates s.queue s.t = i :: rest →
        gSelect code s.queue (i :: rest) i = i ∧
        (∀ j : Nat, j < i → ¬ ((getP s.queue j).at_ ≤ s.t ∧ 0 < (getP s.queue j).rem_time)) ∧
        genRunTime code s.queue s.t i = 1 ∧
        (genStep code s).t = s.t + 1 ∧
        (getP (genStep code s).queue i).rem_time = (getP s.queue i).rem_time - 1 ∧
        (genStep code s).logs = appendLog s.logs (getP s.queue i).pid s.t (s.t + 1)) := by
  constructor
  · obtain ⟨out0, hout0⟩ := genLoop_unknown_term code hcode
      (gmeasure (genInitState code procs) + 1) (genInitState code procs)
      (zeroInv_init code procs (fun p hp => (hwf.1 p hp).2.2)) (by omega)
    refine ⟨gmeasure (genInitState code procs) + 1,
      mkResult maxLogs out0.procs out0.logs, ?_, (mkResult_count _ _ _).1⟩
    unfold run_scheduler
    rw [if_neg (by omega : ¬ code = 7), if_neg (by omega : ¬ code = 6),
      if_neg (by omega : ¬ code = 5), hout0]
    rfl
  · intro s i rest hc
    have hmem : i ∈ gCandidates s.queue s.t := by
      rw [hc]
      exact List.mem_cons_self i rest
    have hin : i < s.queue.length := by
      unfold gCandidates at hmem
      simpa [List.mem_range] using (List.mem_filter.mp hmem).1
    have hrem : 0 < (getP s.queue i).rem_time :=
      (of_decide_eq_true (List.mem_filter.mp hmem).2).2
    have hfs := filter_sorted_head _ (List.range s.queue.length) i rest
      (List.pairwise_lt_range _) hc
    have hd := genStep_unknown_dispatch code s i rest hcode hc
    refine ⟨gSelect_unknown code s.queue (i :: rest) i hcode, ?_,
      genRunTime_unknown code s.queue s.t i hcode hrem, hd.1, hd.2.1, hd.2.2⟩
    intro j hj hready
    have hjn : j < s.queue.length := lt_trans hj hin
    have hfalse := hfs.2 j (List.mem_range.mpr hjn) hj
    rw [decide_eq_false_iff_not] at hfalse
    exact hfalse ⟨hready.1, hready.2⟩

/-- C10 witness: with code 99 on two identical-arrival processes, the first
iteration dispatches the lowest index for exactly one time unit. -/
theorem unknown_code_lowest_index_witness :
    (genStep 99 (genInitState 99 [inP 1 0 2 0, inP 2 0 2 0])).t =
      (genInitState 99 [inP 1 0 2 0, inP 2 0 2 0]).t + 1 :=
  ((unknown_code_lowest_index [inP 1 0 2 0, inP 2 0 2 0] 99 0 100 (by omega)
      ⟨by decide, by decide⟩).2
    (genInitState 99 [inP 1 0 2 0, inP 2 0 2 0]) 0 [1] (by decide)).2.2.2.1

/-! ### C5: the RR preemption oracle. -/

theorem inqAt_set (inq : List Bool) (j i : Nat) (b : Bool) :
    inqAt (inq.set j b) i = if j = i ∧ i < inq.length then b else inqAt inq i := by
  induction inq generalizing j i with
  | nil => simp [inqAt]
  | cons a l ih =>
      cases j with
      | zero => cases i <;> simp [inqAt]
      | succ j =>
          cases i with
          | zero => simp [inqAt]
          | succ i =>
              have h := ih j i
              simp only [inqAt, List.set, List.getD_cons_succ, List.length_cons] at h ⊢
              rw [h]
              by_cases hij : j = i
              · simp [hij, Nat.succ_lt_succ_iff]
              · simp [hij, fun hh => hij (Nat.succ_injective hh)]

/-- The arrival scan only turns `in_queue` flags on, never off. -/
theorem arrivalScan_inq_mono (queue : List Process) (t : Int) :
    ∀ (idxs ready : List Nat) (inq : List Bool) (i : Nat),
      inqAt inq i = true → inqAt (arrivalScan queue t idxs ready inq).2 i = true := by
  intro idxs
  induction idxs with
  | nil => intro ready inq i h; exact h
  | cons j rest ih =>
      intro ready inq i h
      unfold arrivalScan
      split
      · apply ih
        rw [inqAt_set]
        split
        · rfl
        · exact h
      · exact ih ready inq i h

/-- After the arrival scan, an unmarked process (within the flag array) with
work left has a strictly future arrival. -/
theorem arrivalScan_unmarked (queue : List Process) (t : Int) :
    ∀ (idxs ready : List Nat) (inq : List Bool) (i : Nat), i ∈ idxs →
      i < inq.length →
      inqAt (arrivalScan queue t idxs ready inq).2 i = false →
      0 < (getP queue i).rem_time → t < (getP queue i).at_ := by
  intro idxs
  induction idxs with
  | nil => intro ready inq i h; simp at h
  | cons j rest ih =>
      intro ready inq i hmem hlen hfalse hrem
      rcases List.mem_cons.mp hmem with rfl | hmem'
      · unfold arrivalScan at hfalse
        split at hfalse
        · exfalso
          have hmark : inqAt (arrivalScan queue t rest (ready ++ [i]) (inq.set i true)).2 i = true := by
            apply arrivalScan_inq_mono
            rw [inqAt_set, if_pos ⟨rfl, hlen⟩]
          rw [hfalse] at hmark
          cases hmark
        · rename_i hcond
          push_neg at hcond
          by_cases hflag : inqAt inq i = true
          · have hmark := arrivalScan_inq_mono queue t rest ready inq i hflag
            rw [hfalse] at hmark
            cases hmark
          · have := hcond (by simpa using hflag) hrem
            omega
      · unfold arrivalScan at hfalse
        have hlen' : i < (inq.set j true).length := by simpa using hlen
        split at hfalse
        · exact ih _ _ i hmem' hlen' hfalse hrem
        · exact ih _ _ i hmem' hlen hfalse hrem

theorem arrivalScan_inq_length (queue : List Process) (t : Int) :
    ∀ (idxs ready : List Nat) (inq : List Bool),
      (arrivalScan queue t idxs ready inq).2.length = inq.length := by
  intro idxs
  induction idxs with
  | nil => intro ready inq; rfl
  | cons j rest ih =>
      intro ready inq
      unfold arrivalScan
      split
      · rw [ih]
        simp
      · exact ih ready inq

/-- The arrival scan appends exactly the indices (in order) whose process is
unmarked, unfinished and arrived; the flags are per-index and each index is
visited once, so the scan is the filter over the initial flags. -/
theorem arrivalScan_ready (queue : List Process) (t : Int) :
    ∀ (idxs ready : List Nat) (inq : List Bool), idxs.Nodup →
      (arrivalScan queue t idxs ready inq).1 = ready ++ idxs.filter
        (fun i => decide (¬ inqAt inq i = true ∧ 0 < (getP queue i).rem_time ∧
          (getP queue i).at_ ≤ t)) := by
  intro idxs
  induction idxs with
  | nil => intro ready inq _; simp [arrivalScan]
  | cons j rest ih =>
      intro ready inq hnd
      obtain ⟨hj, hnd'⟩ := List.pairwise_cons.mp hnd
      unfold arrivalScan
      rw [List.filter_cons]
      split
      · rename_i hcond
        rw [if_pos (by simpa using hcond)]
        rw [ih (ready ++ [j]) (inq.set j true) hnd']
        have hfe : rest.filter (fun i => decide (¬ inqAt (inq.set j true) i = true ∧
            0 < (getP queue i).rem_time ∧ (getP queue i).at_ ≤ t)) =
          rest.filter (fun i => decide (¬ inqAt inq i = true ∧
            0 < (getP queue i).rem_time ∧ (getP queue i).at_ ≤ t)) := by
          apply List.filter_congr
          intro i hi
          have hne : j ≠ i := fun he => (hj i hi) he
          rw [inqAt_set, if_neg (fun hc => hne hc.1)]
        rw [hfe]
        simp
      · rename_i hcond
        rw [if_neg (by simpa using hcond)]
        exact ih ready inq hnd'

/-- The spec's "earliest arrival among not-yet-enqueued processes with
remaining work, ignoring arrivals at or before `t`" (spec 4.4, RR). -/
def rrSpecMinArrival (queue : List Process) (inq : List Bool) (t : Int) : Option Int :=
  (List.range queue.length).foldl
    (fun acc i =>
      if ¬ inqAt inq i = true ∧ 0 < (getP queue i).rem_time ∧ t < (getP queue i).at_ then
        (match acc with
         | none => some (getP queue i).at_
         | some a => some (min a (getP queue i).at_))
      else acc)
    none

/-- The spec's RR switch time `min(t + rem_time, t + q, next_arrival_time)`. -/
def rrSpecTSwitch (queue : List Process) (inq : List Bool) (t quantum : Int) (idx : Nat) : Int :=
  let base := min (t + (getP queue idx).rem_time) (t + quantum)
  match rrSpecMinArrival queue inq t with
  | none => base
  | some a => min base a

/-- The code's sentinel-based `next_arrival_time` scan agrees with the spec's
minimum once every unmarked live process is known to arrive strictly after
`t` (which the arrival scan guarantees) and `t ≥ 0`. -/
theorem rrNextArrival_rel (queue : List Process) (inq : List Bool) (t : Int)
    (ht : 0 ≤ t)
    (hpost : ∀ i : Nat, i < queue.length → inqAt inq i = false →
      0 < (getP queue i).rem_time → t < (getP queue i).at_) :
    (rrNextArrival queue inq = -1 ∧ rrSpecMinArrival queue inq t = none) ∨
    (∃ a : Int, rrSpecMinArrival queue inq t = some a ∧ rrNextArrival queue inq = a ∧ t < a) := by
  unfold rrNextArrival rrSpecMinArrival
  have main : ∀ (l : List Nat), (∀ i ∈ l, i < queue.length) → ∀ (na : Int) (acc : Option Int),
      (na = -1 ∧ acc = none ∨ ∃ a, acc = some a ∧ na = a ∧ t < a) →
      ((l.foldl (fun na i =>
          if ¬ inqAt inq i = true ∧ 0 < (getP queue i).rem_time then
            (if na = -1 ∨ (getP queue i).at_ < na then (getP queue i).at_ else na)
          else na) na) = -1 ∧
        (l.foldl (fun acc i =>
          if ¬ inqAt inq i = true ∧ 0 < (getP queue i).rem_time ∧ t < (getP queue i).at_ then
            (match acc with
             | none => some (getP queue i).at_
             | some a => some (min a (getP queue i).at_))
          else acc) acc) = none) ∨
      (∃ a, (l.foldl (fun acc i =>
          if ¬ inqAt inq i = true ∧ 0 < (getP queue i).rem_time ∧ t < (getP queue i).at_ then
            (match acc with
             | none => some (getP queue i).at_
             | some a => some (min a (getP queue i).at_))
          else acc) acc) = some a ∧
        (l.foldl (fun na i =>
          if ¬ inqAt inq i = true ∧ 0 < (getP queue i).rem_time then
            (if na = -1 ∨ (getP queue i).at_ < na then (getP queue i).at_ else na)
          else na) na) = a ∧ t < a) := by
    intro l
    induction l with
    | nil => intro _ na acc h; exact h
    | cons j rest ih =>
        intro hb na acc hinv
        have hbj : j < queue.length := hb j (List.mem_cons_self j rest)
        have hb' : ∀ i ∈ rest, i < queue.length := fun i hi => hb i (List.mem_cons_of_mem j hi)
        simp only [List.foldl_cons]
        by_cases hA : ¬ inqAt inq j = true ∧ 0 < (getP queue j).rem_time
        · have hat : t < (getP queue j).at_ :=
            hpost j hbj (by simpa using hA.1) hA.2
          rw [if_pos hA, if_pos (show ¬ inqAt inq j = true ∧ 0 < (getP queue j).rem_time ∧
            t < (getP queue j).at_ from ⟨hA.1, hA.2, hat⟩)]
          rcases hinv with ⟨hna, hacc⟩ | ⟨a, hacc, hna, hta⟩
          · rw [hna, hacc]
            rw [if_pos (show (-1 : Int) = -1 ∨ (getP queue j).at_ < -1 from Or.inl rfl)]
            exact ih hb' _ _ (Or.inr ⟨(getP queue j).at_, rfl, rfl, hat⟩)
          · rw [hna, hacc]
            by_cases hlt : (getP queue j).at_ < a
            · rw [if_pos (Or.inr hlt)]
              exact ih hb' _ _ (Or.inr ⟨min a (getP queue j).at_, rfl, by omega, by omega⟩)
            · rw [if_neg (show ¬ (a = -1 ∨ (getP queue j).at_ < a) from by
                push_neg
                refine ⟨by omega, by omega⟩)]
              exact ih hb' _ _ (Or.inr ⟨min a (getP queue j).at_, rfl, by omega, by omega⟩)
        · rw [if_neg hA, if_neg (fun hc => hA ⟨hc.1, hc.2.1⟩)]
          exact ih hb' na acc hinv
  exact main (List.range queue.length) (fun i hi => List.mem_range.mp hi) (-1) none
    (Or.inl ⟨rfl, rfl⟩)

theorem appendLog_head (logs : List GanttLog) (pid a b : Int) :
    ∃ (l : GanttLog) (ls : List GanttLog),
      appendLog logs pid a b = l :: ls ∧ l.pid = pid ∧ l.finish = b := by
  cases logs with
  | nil => exact ⟨⟨pid, a, b⟩, [], rfl, rfl, rfl⟩
  | cons x xs =>
      by_cases hc : x.pid = pid ∧ x.finish = a
      · refine ⟨{ x with finish := b }, xs, ?_, hc.1, rfl⟩
        simp only [appendLog]
        rw [if_pos hc]
      · refine ⟨⟨pid, a, b⟩, x :: xs, ?_, rfl, rfl⟩
        simp only [appendLog]
        rw [if_neg hc]

/-- Core of C5: the dispatched RR interval ends at the spec's `T_switch` and,
without completion, the ready queue becomes
`rest ++ (new arrivals in index order) ++ [running]`. -/
theorem rrExec_tswitch (procs queue : List Process) (t : Int) (completed : Nat)
    (logs : List GanttLog) (idx : Nat) (rest : List Nat) (inq : List Bool)
    (quantum : Int)
    (ht : 0 ≤ t) (hq : 0 < quantum) (hidxlen : idx < queue.length)
    (hrem : 0 < (getP queue idx).rem_time)
    (hidx : inqAt inq idx = true)
    (hpost : ∀ i : Nat, i < queue.length → inqAt inq i = false →
      0 < (getP queue i).rem_time → t < (getP queue i).at_) :
    (rrExec procs queue t completed logs idx rest inq
        (min (getP queue idx).rem_time quantum)).t =
      rrSpecTSwitch queue inq t quantum idx ∧
    (∃ (l : GanttLog) (ls : List GanttLog),
      (rrExec procs queue t completed logs idx rest inq
          (min (getP queue idx).rem_time quantum)).logs = l :: ls ∧
      l.pid = (getP queue idx).pid ∧ l.finish = rrSpecTSwitch queue inq t quantum idx) ∧
    (rrSpecTSwitch queue inq t quantum idx - t < (getP queue idx).rem_time →
      (rrExec procs queue t completed logs idx rest inq
          (min (getP queue idx).rem_time quantum)).ready =
        rest ++ (List.range queue.length).filter (fun i =>
          decide (¬ inqAt inq i = true ∧ 0 < (getP queue i).rem_time ∧
            (getP queue i).at_ ≤ rrSpecTSwitch queue inq t quantum idx)) ++ [idx]) := by
  have hT1 : (if (rrNextArrival queue inq ≠ -1 ∧
        rrNextArrival queue inq < t + min (getP queue idx).rem_time quantum)
      then rrNextArrival queue inq - t else min (getP queue idx).rem_time quantum) =
        rrSpecTSwitch queue inq t quantum idx - t ∧
      t < rrSpecTSwitch queue inq t quantum idx := by
    rcases rrNextArrival_rel queue inq t ht hpost with ⟨hna, hspec⟩ | ⟨a, hspec, hna, hta⟩
    · have hTv : rrSpecTSwitch queue inq t quantum idx =
          min (t + (getP queue idx).rem_time) (t + quantum) := by
        unfold rrSpecTSwitch
        rw [hspec]
      rw [hna, hTv]
      constructor
      · rw [if_neg (by simp)]
        omega
      · omega
    · have hTv : rrSpecTSwitch queue inq t quantum idx =
          min (min (t + (getP queue idx).rem_time) (t + quantum)) a := by
        unfold rrSpecTSwitch
        rw [hspec]
      rw [hna, hTv]
      by_cases hcl : a < t + min (getP queue idx).rem_time quantum
      · rw [if_pos ⟨by omega, hcl⟩]
        constructor
        · omega
        · omega
      · rw [if_neg (fun hc => hcl hc.2)]
        constructor
        · omega
        · omega
  simp only [rrExec]
  rw [hT1.1]
  rw [if_neg (show ¬ ((rrNextArrival queue inq ≠ -1 ∧
      rrNextArrival queue inq < t + min (getP queue idx).rem_time quantum) ∧
      rrSpecTSwitch queue inq t quantum idx - t ≤ 0) from fun hc => by
    have := hT1.2
    omega)]
  rw [show t + (rrSpecTSwitch queue inq t quantum idx - t) =
    rrSpecTSwitch queue inq t quantum idx from by omega]
  have hq2 : getP (setP queue idx { getP queue idx with
      rem_time := (getP queue idx).rem_time -
        (rrSpecTSwitch queue inq t quantum idx - t) }) idx =
      { getP queue idx with
        rem_time := (getP queue idx).rem_time -
          (rrSpecTSwitch queue inq t quantum idx - t) } := getP_setP_self _ _ _ hidxlen
  split
  · rename_i hz
    rw [hq2] at hz
    refine ⟨rfl, ?_, ?_⟩
    · obtain ⟨l, ls, he, hp, hf⟩ := appendLog_head logs (getP queue idx).pid t
        (rrSpecTSwitch queue inq t quantum idx)
      exact ⟨l, ls, he, hp, hf⟩
    · intro hnc
      show (arrivalScan _ _ _ rest inq).1 ++ [idx] = _
      rw [arrivalScan_ready _ _ _ rest inq (List.nodup_range _)]
      rw [length_setP]
      have hfc : (List.range queue.length).filter (fun i =>
          decide (¬ inqAt inq i = true ∧
            0 < (getP (setP queue idx { getP queue idx with
              rem_time := (getP queue idx).rem_time -
                (rrSpecTSwitch queue inq t quantum idx - t) }) i).rem_time ∧
            (getP (setP queue idx { getP queue idx with
              rem_time := (getP queue idx).rem_time -
                (rrSpecTSwitch queue inq t quantum idx - t) }) i).at_ ≤
              rrSpecTSwitch queue inq t quantum idx)) =
          (List.range queue.length).filter (fun i =>
            decide (¬ inqAt inq i = true ∧ 0 < (getP queue i).rem_time ∧
              (getP queue i).at_ ≤ rrSpecTSwitch queue inq t quantum idx)) := by
        apply List.filter_congr
        intro i hi
        by_cases hii : inqAt inq i = true
        · simp [hii]
        · have hne : idx ≠ i := fun he => hii (he ▸ hidx)
          rw [getP_setP, if_neg (fun hc => hne hc.1)]
      rw [hfc]
  · rename_i hz
    rw [hq2] at hz
    refine ⟨rfl, ?_, ?_⟩
    · obtain ⟨l, ls, he, hp, hf⟩ := appendLog_head logs (getP queue idx).pid t
        (rrSpecTSwitch queue inq t quantum idx)
      exact ⟨l, ls, he, hp, hf⟩
    · intro hnc
      exfalso
      simp only [show ({ getP queue idx with
        rem_time := (getP queue idx).rem_time -
          (rrSpecTSwitch queue inq t quantum idx - t) } : Process).rem_time =
        (getP queue idx).rem_time -
          (rrSpecTSwitch queue inq t quantum idx - t) from rfl] at hz
      omega

theorem inqAt_true_lt (inq : List Bool) (i : Nat) (h : inqAt inq i = true) :
    i < inq.length := by
  by_contra hlt
  push_neg at hlt
  unfold inqAt at h
  rw [List.getD_eq_default _ _ hlt] at h
  exact Bool.noConfusion h

theorem foldl_fn_congr {α β : Type} (f g : β → α → β) :
    ∀ (l : List α), (∀ a ∈ l, ∀ b, f b a = g b a) → ∀ b, l.foldl f b = l.foldl g b := by
  intro l
  induction l with
  | nil => intro _ b; rfl
  | cons x xs ih =>
      intro h b
      simp only [List.foldl_cons]
      rw [h x (List.mem_cons_self x xs)]
      exact ih (fun a ha b => h a (List.mem_cons_of_mem x ha) b) _

/-- The spec's minimum-arrival oracle only reads `rem_time` and `at`, so it is
unchanged by the first-run bookkeeping update of the dispatched process. -/
theorem rrSpecMinArrival_congr (squeue queue1 : List Process) (inq : List Bool) (t : Int)
    (hlen : queue1.length = squeue.length)
    (hf : ∀ i, i < squeue.length →
      (getP queue1 i).rem_time = (getP squeue i).rem_time ∧
      (getP queue1 i).at_ = (getP squeue i).at_) :
    rrSpecMinArrival queue1 inq t = rrSpecMinArrival squeue inq t := by
  unfold rrSpecMinArrival
  rw [hlen]
  apply foldl_fn_congr
  intro i hi b
  rw [(hf i (List.mem_range.mp hi)).1, (hf i (List.mem_range.mp hi)).2]

theorem rrSpecTSwitch_congr (squeue queue1 : List Process) (inq : List Bool)
    (t quantum : Int) (idx : Nat)
    (hidx : idx < squeue.length)
    (hlen : queue1.length = squeue.length)
    (hf : ∀ i, i < squeue.length →
      (getP queue1 i).rem_time = (getP squeue i).rem_time ∧
      (getP queue1 i).at_ = (getP squeue i).at_) :
    rrSpecTSwitch queue1 inq t quantum idx = rrSpecTSwitch squeue inq t quantum idx := by
  unfold rrSpecTSwitch
  rw [rrSpecMinArrival_congr squeue queue1 inq t hlen hf, (hf idx hidx).1]

/-- `rrExec_tswitch` transported along a field-preserving change of the working
queue (the first-run update touches only `first_run`). -/
theorem rrExec_tswitch_congr (procs1 queue1 squeue : List Process) (t : Int)
    (completed : Nat) (logs : List GanttLog) (idx : Nat) (rest : List Nat)
    (inq : List Bool) (quantum : Int)
    (ht : 0 ≤ t) (hq : 0 < quantum) (hidxlen : idx < squeue.length)
    (hq1len : queue1.length = squeue.length)
    (hfields : ∀ i, i < squeue.length →
      (getP queue1 i).rem_time = (getP squeue i).rem_time ∧
      (getP queue1 i).at_ = (getP squeue i).at_ ∧
      (getP queue1 i).pid = (getP squeue i).pid)
    (hrem : 0 < (getP squeue idx).rem_time)
    (hflag : inqAt inq idx = true)
    (hpost : ∀ i : Nat, i < squeue.length → inqAt inq i = false →
      0 < (getP squeue i).rem_time → t < (getP squeue i).at_) :
    (rrExec procs1 queue1 t completed logs idx rest inq
        (min (getP squeue idx).rem_time quantum)).t =
      rrSpecTSwitch squeue inq t quantum idx ∧
    (∃ (l : GanttLog) (ls : List GanttLog),
      (rrExec procs1 queue1 t completed logs idx rest inq
          (min (getP squeue idx).rem_time quantum)).logs = l :: ls ∧
      l.pid = (getP squeue idx).pid ∧ l.finish = rrSpecTSwitch squeue inq t quantum idx) ∧
    (rrSpecTSwitch squeue inq t quantum idx - t < (getP squeue idx).rem_time →
      (rrExec procs1 queue1 t completed logs idx rest inq
          (min (getP squeue idx).rem_time quantum)).ready =
        rest ++ (List.range squeue.length).filter (fun i =>
          decide (¬ inqAt inq i = true ∧ 0 < (getP squeue i).rem_time ∧
            (getP squeue i).at_ ≤ rrSpecTSwitch squeue inq t quantum idx)) ++ [idx]) := by
  have hf2 : ∀ i, i < squeue.length →
      (getP queue1 i).rem_time = (getP squeue i).rem_time ∧
      (getP queue1 i).at_ = (getP squeue i).at_ :=
    fun i hi => ⟨(hfields i hi).1, (hfields i hi).2.1⟩
  have core := rrExec_tswitch procs1 queue1 t completed logs idx rest inq quantum
    ht hq (by omega) (by rw [(hf2 idx hidxlen).1]; exact hrem) hflag
    (by
      intro i hi hfalse hr
      rw [hq1len] at hi
      rw [(hf2 i hi).1] at hr
      rw [(hf2 i hi).2]
      exact hpost i hi hfalse hr)
  rw [(hf2 idx hidxlen).1,
    rrSpecTSwitch_congr squeue queue1 inq t quantum idx hidxlen hq1len hf2,
    (hfields idx hidxlen).2.2, hq1len] at core
  have hfc : (List.range squeue.length).filter (fun i =>
        decide (¬ inqAt inq i = true ∧ 0 < (getP queue1 i).rem_time ∧
          (getP queue1 i).at_ ≤ rrSpecTSwitch squeue inq t quantum idx)) =
      (List.range squeue.length).filter (fun i =>
        decide (¬ inqAt inq i = true ∧ 0 < (getP squeue i).rem_time ∧
          (getP squeue i).at_ ≤ rrSpecTSwitch squeue inq t quantum idx)) := by
    apply List.filter_congr
    intro i hi
    rw [(hf2 i (List.mem_range.mp hi)).1, (hf2 i (List.mem_range.mp hi)).2]
  rw [hfc] at core
  exact core

/-- C5: under RR, a dispatched interval ends exactly at the spec's
`T_switch = min(t + rem_time, t + quantum, next_arrival_time)` where
arrivals at or before `t` are ignored by the clamp; and when the running
process does not complete, the arrivals detected up to the new time are
appended to the ready queue (in table order) before the running process is
re-appended at the tail. -/
theorem rr_dispatch_tswitch (quantum : Int) (s : RRState) (idx : Nat) (rest : List Nat)
    (hq : 0 < quantum) (ht : 0 ≤ s.t)
    (hlen : s.inq.length = s.queue.length)
    (hready : (arrivalScan s.queue s.t (List.range s.queue.length) s.ready s.inq).1 =
      idx :: rest)
    (hrem : 0 < (getP s.queue idx).rem_time)
    (hflag : inqAt (arrivalScan s.queue s.t (List.range s.queue.length) s.ready s.inq).2
      idx = true) :
    (rrStep quantum s).t =
      rrSpecTSwitch s.queue
        (arrivalScan s.queue s.t (List.range s.queue.length) s.ready s.inq).2
        s.t quantum idx ∧
    (∃ (l : GanttLog) (ls : List GanttLog),
      (rrStep quantum s).logs = l :: ls ∧ l.pid = (getP s.queue idx).pid ∧
      l.finish = rrSpecTSwitch s.queue
        (arrivalScan s.queue s.t (List.range s.queue.length) s.ready s.inq).2
        s.t quantum idx) ∧
    (rrSpecTSwitch s.queue
        (arrivalScan s.queue s.t (List.range s.queue.length) s.ready s.inq).2
        s.t quantum idx - s.t < (getP s.queue idx).rem_time →
      (rrStep quantum s).ready =
        rest ++ (List.range s.queue.length).filter (fun i =>
          decide (¬ inqAt (arrivalScan s.queue s.t (List.range s.queue.length)
              s.ready s.inq).2 i = true ∧
            0 < (getP s.queue i).rem_time ∧
            (getP s.queue i).at_ ≤ rrSpecTSwitch s.queue
              (arrivalScan s.queue s.t (List.range s.queue.length) s.ready s.inq).2
              s.t quantum idx)) ++ [idx]) := by
  have hidxlen : idx < s.queue.length := by
    have h1 := inqAt_true_lt _ _ hflag
    rw [arrivalScan_inq_length] at h1
    omega
  have hpost0 : ∀ i : Nat, i < s.queue.length →
      inqAt (arrivalScan s.queue s.t (List.range s.queue.length) s.ready s.inq).2 i =
        false →
      0 < (getP s.queue i).rem_time → s.t < (getP s.queue i).at_ := by
    intro i hi hfalse hr
    exact arrivalScan_unmarked s.queue s.t (List.range s.queue.length) s.ready s.inq i
      (List.mem_range.mpr hi) (by omega) hfalse hr
  by_cases hfr : (getP s.queue idx).first_run = -1
  · have hstep : rrStep quantum s = rrExec
        (setP s.procs idx { getP s.procs idx with first_run := s.t })
        (setP s.queue idx { getP s.queue idx with first_run := s.t })
        s.t s.completed s.logs idx rest
        (arrivalScan s.queue s.t (List.range s.queue.length) s.ready s.inq).2
        (min (getP s.queue idx).rem_time quantum) := by
      simp only [rrStep, hready]
      rw [if_pos hfr, if_pos hfr]
    rw [hstep]
    exact rrExec_tswitch_congr _ _ s.queue s.t s.completed s.logs idx rest _ quantum
      ht hq hidxlen (length_setP _ _ _)
      (by
        intro i hi
        rw [getP_setP]
        by_cases he : idx = i
        · subst he
          rw [if_pos ⟨rfl, hidxlen⟩]
          exact ⟨rfl, rfl, rfl⟩
        · rw [if_neg (fun hc => he hc.1)]
          exact ⟨rfl, rfl, rfl⟩)
      hrem hflag hpost0
  · have hstep : rrStep quantum s = rrExec s.procs s.queue
        s.t s.completed s.logs idx rest
        (arrivalScan s.queue s.t (List.range s.queue.length) s.ready s.inq).2
        (min (getP s.queue idx).rem_time quantum) := by
      simp only [rrStep, hready]
      rw [if_neg hfr, if_neg hfr]
    rw [hstep]
    exact rrExec_tswitch_congr _ _ s.queue s.t s.completed s.logs idx rest _ quantum
      ht hq hidxlen rfl (fun i hi => ⟨rfl, rfl, rfl⟩) hrem hflag hpost0

theorem rr_dispatch_tswitch_witness :
    (rrStep 2 (rrInitState rrDemo)).t =
      rrSpecTSwitch (rrInitState rrDemo).queue
        (arrivalScan (rrInitState rrDemo).queue (rrInitState rrDemo).t
          (List.range (rrInitState rrDemo).queue.length)
          (rrInitState rrDemo).ready (rrInitState rrDemo).inq).2
        (rrInitState rrDemo).t 2 0 :=
  (rr_dispatch_tswitch 2 (rrInitState rrDemo) 0 [] (by decide) (by decide)
    (by decide) (by decide) (by decide) (by decide)).1

/-! ### C9: Gantt-log invariants.  The internal log is most recent first;
`LInv` is the loop invariant (well-formed reversed log whose newest entry
ends at the current time), `GanttOk` the claimed property of the emitted
(oldest-first) log. -/

def LogOk (logs : List GanttLog) : Prop :=
  (∀ e ∈ logs, e.start < e.finish) ∧
  logs.Chain' (fun a b => b.finish = a.start ∧ b.pid ≠ a.pid)

def LInv (t : Int) (logs : List GanttLog) : Prop :=
  LogOk logs ∧ ∀ e, logs.head? = some e → e.finish = t

def GanttOk (l : List GanttLog) : Prop :=
  (∀ e ∈ l, e.start < e.finish) ∧
  l.Chain' (fun a b => a.finish = b.start) ∧
  l.Chain' (fun a b => a.pid ≠ b.pid) ∧
  l.Pairwise (fun a b => a.finish ≤ b.start)

theorem LInv_nil (t : Int) : LInv t [] :=
  ⟨⟨fun e he => absurd he (List.not_mem_nil e), List.chain'_nil⟩,
   fun e he => Option.noConfusion he⟩

theorem appendLog_LInv {t : Int} {logs : List GanttLog} (pid t' : Int)
    (h : LInv t logs) (hlt : t < t') : LInv t' (appendLog logs pid t t') := by
  obtain ⟨⟨hall, hchain⟩, hhead⟩ := h
  cases logs with
  | nil =>
      refine ⟨⟨?_, ?_⟩, ?_⟩
      · intro e he
        simp only [appendLog, List.mem_singleton] at he
        rw [he]
        exact hlt
      · simp [appendLog]
      · intro e he
        simp only [appendLog, List.head?_cons, Option.some.injEq] at he
        rw [← he]
  | cons l rest =>
      have hlf : l.finish = t := hhead l rfl
      have hls : l.start < l.finish := hall l (List.mem_cons_self l rest)
      by_cases hc : l.pid = pid ∧ l.finish = t
      · have he : appendLog (l :: rest) pid t t' = { l with finish := t' } :: rest := by
          simp only [appendLog]
          rw [if_pos hc]
        rw [he]
        refine ⟨⟨?_, ?_⟩, ?_⟩
        · intro e hme
          rcases List.mem_cons.mp hme with rfl | hme'
          · show l.start < t'
            omega
          · exact hall e (List.mem_cons_of_mem l hme')
        · rw [List.chain'_cons']
          refine ⟨?_, (List.chain'_cons'.mp hchain).2⟩
          intro b hb
          have := (List.chain'_cons'.mp hchain).1 b hb
          exact this
        · intro e hme
          simp only [List.head?_cons, Option.some.injEq] at hme
          rw [← hme]
      · have he : appendLog (l :: rest) pid t t' = ⟨pid, t, t'⟩ :: l :: rest := by
          simp only [appendLog]
          rw [if_neg hc]
        have hpne : l.pid ≠ pid := fun hp => hc ⟨hp, hlf⟩
        rw [he]
        refine ⟨⟨?_, ?_⟩, ?_⟩
        · intro e hme
          rcases List.mem_cons.mp hme with rfl | hme'
          · exact hlt
          · exact hall e hme'
        · rw [List.chain'_cons]
          exact ⟨⟨by show l.finish = t; exact hlf, hpne⟩, hchain⟩
        · intro e hme
          simp only [List.head?_cons, Option.some.injEq] at hme
          rw [← hme]

theorem idleLog_LInv {t : Int} {logs : List GanttLog}
    (h : LInv t logs) : LInv (t + 1) (idleLog logs t) := by
  obtain ⟨⟨hall, hchain⟩, hhead⟩ := h
  cases logs with
  | nil =>
      refine ⟨⟨?_, ?_⟩, ?_⟩
      · intro e he
        simp only [idleLog, List.mem_singleton] at he
        rw [he]
        show t < t + 1
        omega
      · simp [idleLog]
      · intro e he
        simp only [idleLog, List.head?_cons, Option.some.injEq] at he
        rw [← he]
  | cons l rest =>
      have hlf : l.finish = t := hhead l rfl
      have hls : l.start < l.finish := hall l (List.mem_cons_self l rest)
      by_cases hc : l.pid = -1
      · have he : idleLog (l :: rest) t = { l with finish := l.finish + 1 } :: rest := by
          simp only [idleLog]
          rw [if_pos hc]
        rw [he]
        refine ⟨⟨?_, ?_⟩, ?_⟩
        · intro e hme
          rcases List.mem_cons.mp hme with rfl | hme'
          · show l.start < l.finish + 1
            omega
          · exact hall e (List.mem_cons_of_mem l hme')
        · rw [List.chain'_cons']
          exact ⟨(List.chain'_cons'.mp hchain).1, (List.chain'_cons'.mp hchain).2⟩
        · intro e hme
          simp only [List.head?_cons, Option.some.injEq] at hme
          rw [← hme]
          show l.finish + 1 = t + 1
          omega
      · have he : idleLog (l :: rest) t = ⟨-1, t, t + 1⟩ :: l :: rest := by
          simp only [idleLog]
          rw [if_neg hc]
        rw [he]
        refine ⟨⟨?_, ?_⟩, ?_⟩
        · intro e hme
          rcases List.mem_cons.mp hme with rfl | hme'
          · show t < t + 1
            omega
          · exact hall e hme'
        · rw [List.chain'_cons]
          exact ⟨⟨by show l.finish = t; exact hlf, hc⟩, hchain⟩
        · intro e hme
          simp only [List.head?_cons, Option.some.injEq] at hme
          rw [← hme]

theorem chain_head_bound :
    ∀ (l : List GanttLog) (a : GanttLog),
      (∀ e ∈ a :: l, e.start < e.finish) →
      (a :: l).Chain' (fun x y => x.finish = y.start) →
      ∀ b ∈ l, a.finish ≤ b.start := by
  intro l
  induction l with
  | nil => intro a _ _ b hb; exact absurd hb (List.not_mem_nil b)
  | cons c l' ih =>
      intro a hall hchain b hb
      have hac : a.finish = c.start := (List.chain'_cons.mp hchain).1
      rcases List.mem_cons.mp hb with rfl | hb'
      · exact le_of_eq hac
      · have hcf : c.start < c.finish := hall c (List.mem_cons_of_mem a (List.mem_cons_self c l'))
        have := ih c (fun e he => hall e (List.mem_cons_of_mem a he))
          (List.chain'_cons.mp hchain).2 b hb'
        omega

theorem chain_pairwise :
    ∀ (l : List GanttLog), (∀ e ∈ l, e.start < e.finish) →
      l.Chain' (fun a b => a.finish = b.start) →
      l.Pairwise (fun a b => a.finish ≤ b.start) := by
  intro l
  induction l with
  | nil => intro _ _; exact List.Pairwise.nil
  | cons a l ih =>
      intro hall hchain
      rw [List.pairwise_cons]
      refine ⟨chain_head_bound l a hall hchain, ?_⟩
      exact ih (fun e he => hall e (List.mem_cons_of_mem a he))
        (List.chain'_cons'.mp hchain).2

theorem chain'_take {α : Type} (R : α → α → Prop) (l : List α) (n : Nat)
    (h : l.Chain' R) : (l.take n).Chain' R := by
  have hsplit := List.take_append_drop n l
  rw [← hsplit] at h
  exact (List.chain'_append.mp h).1

/-- The emitted log — the reversed internal log truncated to `max_logs`
entries — is well formed whenever the internal log is. -/
theorem LogOk_gantt {logs : List GanttLog} (h : LogOk logs) (n : Nat) :
    GanttOk (logs.reverse.take n) := by
  obtain ⟨hall, hchain⟩ := h
  have hall' : ∀ e ∈ logs.reverse, e.start < e.finish :=
    fun e he => hall e (List.mem_reverse.mp he)
  have hchain1 : logs.reverse.Chain' (fun a b => a.finish = b.start ∧ a.pid ≠ b.pid) := by
    rw [List.chain'_reverse]
    exact hchain
  have hcontig : logs.reverse.Chain' (fun a b => a.finish = b.start) :=
    hchain1.imp (fun a b hab => hab.1)
  have hpids : logs.reverse.Chain' (fun a b => a.pid ≠ b.pid) :=
    hchain1.imp (fun a b hab => hab.2)
  refine ⟨?_, ?_, ?_, ?_⟩
  · intro e he
    exact hall' e ((List.take_sublist n logs.reverse).subset he)
  · exact chain'_take _ _ n hcontig
  · exact chain'_take _ _ n hpids
  · exact (chain_pairwise logs.reverse hall' hcontig).sublist (List.take_sublist n logs.reverse)

/-! #### C9, generic branch. -/

theorem foldl_invariant_mem {α β : Type} (f : β → α → β) (P : β → Prop) :
    ∀ (l : List α), (∀ b a, a ∈ l → P b → P (f b a)) → ∀ b, P b → P (l.foldl f b) := by
  intro l
  induction l with
  | nil => intro _ b h; exact h
  | cons x xs ih =>
      intro step b h
      exact ih (fun b a ha hb => step b a (List.mem_cons_of_mem x ha) hb) _
        (step b x (List.mem_cons_self x xs) h)

theorem gSelect_mem (code : Int) (q : List Process) (cands : List Nat) (c0 : Nat)
    (h : c0 ∈ cands) : gSelect code q cands c0 ∈ cands := by
  unfold gSelect
  exact foldl_invariant_mem _ (fun x => x ∈ cands) cands
    (fun b a ha hb => by
      by_cases hs : selBetter code q a b
      · rw [if_pos hs]; exact ha
      · rw [if_neg hs]; exact hb) c0 h

theorem gCandidates_mem (queue : List Process) (t : Int) (i : Nat)
    (h : i ∈ gCandidates queue t) :
    (getP queue i).at_ ≤ t ∧ 0 < (getP queue i).rem_time := by
  unfold gCandidates at h
  have h2 := (List.mem_filter.mp h).2
  simpa using h2

theorem genScan_facts (code : Int) (q : List Process) (t : Int) (idx : Nat)
    (hrem : 0 < (getP q idx).rem_time) :
    t < (genScan code q t idx).1 ∧ (genScan code q t idx).2 = 1 := by
  unfold genScan
  apply foldl_invariant _ (fun acc : Int × Int => t < acc.1 ∧ acc.2 = 1)
  · intro b a hb
    dsimp only
    split
    · exact hb
    · refine ⟨?_, ?_⟩
      · dsimp only
        split
        · rename_i hcond
          exact hcond.1
        · exact hb.1
      · dsimp only
        split
        · rfl
        · exact hb.2
  · exact ⟨by omega, rfl⟩

theorem genRunTime_pos (code : Int) (q : List Process) (t : Int) (idx : Nat)
    (hrem : 0 < (getP q idx).rem_time) : 0 < genRunTime code q t idx := by
  unfold genRunTime
  split
  · exact hrem
  · have h := genScan_facts code q t idx hrem
    show 0 < min (genScan code q t idx).2 ((genScan code q t idx).1 - t)
    omega

/-- One generic-branch iteration preserves the log invariant: the idle path
logs `[t, t+1)`, and the dispatch path always has `run_time > 0` (the selected
candidate has remaining work, and the preemption scan never clamps below the
current time), logging `[t, t+run_time)`. -/
theorem genStep_LInv (code : Int) (s : GenState) (h : LInv s.t s.logs) :
    LInv (genStep code s).t (genStep code s).logs := by
  simp only [genStep]
  split
  · exact idleLog_LInv h
  · rename_i c0 cs hcands
    have hmem : gSelect code (agePhase code s.t s.procs s.queue).2
        (gCandidates (agePhase code s.t s.procs s.queue).2 s.t) c0 ∈
        gCandidates (agePhase code s.t s.procs s.queue).2 s.t :=
      gSelect_mem _ _ _ _ (by rw [hcands]; exact List.mem_cons_self _ _)
    have hrem := (gCandidates_mem _ _ _ hmem).2
    have hrt : 0 < genRunTime code (agePhase code s.t s.procs s.queue).2 s.t
        (gSelect code (agePhase code s.t s.procs s.queue).2
          (gCandidates (agePhase code s.t s.procs s.queue).2 s.t) c0) :=
      genRunTime_pos _ _ _ _ hrem
    split
    · rename_i hle
      exfalso
      omega
    · rename_i hnle
      split
      all_goals split
      all_goals
        exact appendLog_LInv _
          (s.t + genRunTime code (agePhase code s.t s.procs s.queue).2 s.t
            (gSelect code (agePhase code s.t s.procs s.queue).2
              (gCandidates (agePhase code s.t s.procs s.queue).2 s.t) c0))
          h (by omega)

theorem genLoop_LInv (code : Int) : ∀ (fuel : Nat) (s out : GenState),
    LInv s.t s.logs → genLoop code fuel s = some out → LInv out.t out.logs := by
  intro fuel
  induction fuel with
  | zero => intro s out _ hloop; simp [genLoop] at hloop
  | succ f ih =>
      intro s out h hloop
      simp only [genLoop] at hloop
      split at hloop
      · exact ih _ _ (genStep_LInv code s h) hloop
      · obtain rfl := Option.some.inj hloop
        exact h

/-! #### C9, RR branch. -/

theorem rrNextArrival_gt (queue : List Process) (inq : List Bool) (t : Int)
    (hpost : ∀ i : Nat, i < queue.length → inqAt inq i = false →
      0 < (getP queue i).rem_time → t < (getP queue i).at_) :
    rrNextArrival queue inq = -1 ∨ t < rrNextArrival queue inq := by
  unfold rrNextArrival
  apply foldl_invariant_mem _ (fun na : Int => na = -1 ∨ t < na)
  · intro b a ha hb
    dsimp only
    split
    · rename_i hc
      split
      · right
        exact hpost a (List.mem_range.mp ha) (by simpa using hc.1) hc.2
      · exact hb
    · exact hb
  · exact Or.inl rfl

theorem arrivalScan_marks (queue : List Process) (t : Int) :
    ∀ (idxs ready : List Nat) (inq : List Bool),
      (∀ j ∈ idxs, j < inq.length) →
      (∀ i ∈ ready, inqAt inq i = true) →
      ∀ i ∈ (arrivalScan queue t idxs ready inq).1,
        inqAt (arrivalScan queue t idxs ready inq).2 i = true := by
  intro idxs
  induction idxs with
  | nil => intro ready inq _ hready i hi; exact hready i hi
  | cons j rest ih =>
      intro ready inq hb hready i hi
      have hjlen : j < inq.length := hb j (List.mem_cons_self j rest)
      unfold arrivalScan at hi ⊢
      split at hi
      · rename_i hcond
        rw [if_pos hcond]
        refine ih (ready ++ [j]) (inq.set j true) ?_ ?_ i hi
        · intro a ha
          rw [List.length_set]
          exact hb a (List.mem_cons_of_mem j ha)
        · intro a ha
          rcases List.mem_append.mp ha with ha' | ha'
          · rw [inqAt_set]
            split
            · rfl
            · exact hready a ha'
          · have : a = j := List.mem_singleton.mp ha'
            subst this
            rw [inqAt_set, if_pos ⟨rfl, hjlen⟩]
      · rename_i hcond
        rw [if_neg hcond]
        exact ih ready inq (fun a ha => hb a (List.mem_cons_of_mem j ha)) hready i hi

theorem arrivalScan_mem_rem (queue : List Process) (t : Int)
    (idxs ready : List Nat) (inq : List Bool) (hnd : idxs.Nodup)
    (hready : ∀ i ∈ ready, 0 < (getP queue i).rem_time) :
    ∀ i ∈ (arrivalScan queue t idxs ready inq).1, 0 < (getP queue i).rem_time := by
  intro i hi
  rw [arrivalScan_ready queue t idxs ready inq hnd] at hi
  rcases List.mem_append.mp hi with hi' | hi'
  · exact hready i hi'
  · have := (List.mem_filter.mp hi').2
    simp only [decide_eq_true_eq] at this
    exact this.2.1

theorem arrivalScan_out_nodup (queue : List Process) (t : Int)
    (idxs ready : List Nat) (inq : List Bool) (hnd : idxs.Nodup)
    (hrnd : ready.Nodup) (hflag : ∀ i ∈ ready, inqAt inq i = true) :
    (arrivalScan queue t idxs ready inq).1.Nodup := by
  rw [arrivalScan_ready queue t idxs ready inq hnd]
  rw [List.nodup_append]
  refine ⟨hrnd, hnd.filter _, ?_⟩
  rw [List.disjoint_left]
  intro a ha ha'
  have := (List.mem_filter.mp ha').2
  simp only [decide_eq_true_eq] at this
  exact this.1 (hflag a ha)

theorem arrivalScan_flag_not_mem (queue : List Process) (t : Int)
    (idxs ready : List Nat) (inq : List Bool) (hnd : idxs.Nodup) (i : Nat)
    (hflag : inqAt inq i = true) (hnr : i ∉ ready) :
    i ∉ (arrivalScan queue t idxs ready inq).1 := by
  rw [arrivalScan_ready queue t idxs ready inq hnd]
  intro hmem
  rcases List.mem_append.mp hmem with h' | h'
  · exact hnr h'
  · have := (List.mem_filter.mp h').2
    simp only [decide_eq_true_eq] at this
    exact this.1 hflag

/-- The per-state invariant of the RR loop used for the log property: ready
members are marked and unfinished, the ready queue has no duplicates, and the
flag array spans the process table. -/
def RRCore (s : RRState) : Prop :=
  (∀ i ∈ s.ready, inqAt s.inq i = true ∧ 0 < (getP s.queue i).rem_time) ∧
  s.ready.Nodup ∧ s.inq.length = s.queue.length

/-- Invariant propagation through the normal (logging) path of the RR
execution, for any final `exec` value `E`. -/
theorem rrExecBody_inv (procs queue : List Process) (t : Int) (completed : Nat)
    (logs : List GanttLog) (idx : Nat) (rest : List Nat) (inq : List Bool)
    (E : Int) (out : RRState)
    (hlen : inq.length = queue.length)
    (hready : ∀ i ∈ idx :: rest, inqAt inq i = true ∧ 0 < (getP queue i).rem_time)
    (hnd : (idx :: rest).Nodup)
    (hout : out =
      (let t' := t + E
       let p' := getP queue idx
       let queue2 := setP queue idx { p' with rem_time := p'.rem_time - E }
       let logs2 := appendLog logs p'.pid t t'
       let sc2 := arrivalScan queue2 t' (List.range queue2.length) rest inq
       if 0 < (getP queue2 idx).rem_time then
         (⟨procs, queue2, t', completed, logs2, sc2.1 ++ [idx], sc2.2⟩ : RRState)
       else
         ⟨setP procs idx (finalizeP (getP procs idx) (getP queue2 idx) t'),
           queue2, t', completed + 1, logs2, sc2.1, sc2.2.set idx false⟩)) :
    (∀ i ∈ out.ready, inqAt out.inq i = true ∧ 0 < (getP out.queue i).rem_time) ∧
    out.ready.Nodup ∧ out.inq.length = out.queue.length ∧
    out.queue.length = queue.length ∧
    (0 < E → t < out.t ∧ (LInv t logs → LInv out.t out.logs)) ∧
    (0 < (getP queue idx).rem_time - E → out.completed = completed) := by
  have hidxflag := (hready idx (List.mem_cons_self idx rest)).1
  have hidxnr : idx ∉ rest := (List.nodup_cons.mp hnd).1
  have hrestnd : rest.Nodup := (List.nodup_cons.mp hnd).2
  have hidxlen : idx < queue.length := by
    have := inqAt_true_lt _ _ hidxflag
    omega
  have hq2 : getP (setP queue idx { getP queue idx with
      rem_time := (getP queue idx).rem_time - E }) idx =
      { getP queue idx with rem_time := (getP queue idx).rem_time - E } :=
    getP_setP_self _ _ _ hidxlen
  have hq2rem : (getP (setP queue idx { getP queue idx with
      rem_time := (getP queue idx).rem_time - E }) idx).rem_time =
      (getP queue idx).rem_time - E := by
    rw [hq2]
  have hq2len : (setP queue idx { getP queue idx with
      rem_time := (getP queue idx).rem_time - E }).length = queue.length :=
    length_setP _ _ _
  have hb : ∀ j ∈ List.range (setP queue idx { getP queue idx with
      rem_time := (getP queue idx).rem_time - E }).length, j < inq.length := by
    intro j hj
    have := List.mem_range.mp hj
    omega
  have hrestflag : ∀ i ∈ rest, inqAt inq i = true :=
    fun i hi => (hready i (List.mem_cons_of_mem idx hi)).1
  have hrestrem2 : ∀ i ∈ rest, 0 < (getP (setP queue idx { getP queue idx with
      rem_time := (getP queue idx).rem_time - E }) i).rem_time := by
    intro i hi
    have hne : idx ≠ i := fun he => hidxnr (he ▸ hi)
    rw [getP_setP, if_neg (fun hc => hne hc.1)]
    exact (hready i (List.mem_cons_of_mem idx hi)).2
  have hm := arrivalScan_marks (setP queue idx { getP queue idx with
      rem_time := (getP queue idx).rem_time - E }) (t + E) (List.range (setP queue idx { getP queue idx with
      rem_time := (getP queue idx).rem_time - E }).length) rest inq
    hb hrestflag
  have hr := arrivalScan_mem_rem (setP queue idx { getP queue idx with
      rem_time := (getP queue idx).rem_time - E }) (t + E) (List.range (setP queue idx { getP queue idx with
      rem_time := (getP queue idx).rem_time - E }).length) rest inq
    (List.nodup_range _) hrestrem2
  have hnd2 := arrivalScan_out_nodup (setP queue idx { getP queue idx with
      rem_time := (getP queue idx).rem_time - E }) (t + E) (List.range (setP queue idx { getP queue idx with
      rem_time := (getP queue idx).rem_time - E }).length) rest inq
    (List.nodup_range _) hrestnd hrestflag
  have hnm := arrivalScan_flag_not_mem (setP queue idx { getP queue idx with
      rem_time := (getP queue idx).rem_time - E }) (t + E) (List.range (setP queue idx { getP queue idx with
      rem_time := (getP queue idx).rem_time - E }).length) rest inq
    (List.nodup_range _) idx hidxflag hidxnr
  have hsl := arrivalScan_inq_length (setP queue idx { getP queue idx with
      rem_time := (getP queue idx).rem_time - E }) (t + E) (List.range (setP queue idx { getP queue idx with
      rem_time := (getP queue idx).rem_time - E }).length) rest inq
  subst hout
  simp only []
  split
  · rename_i hp
    refine ⟨?_, ?_, ?_, ?_, ?_, ?_⟩
    · intro i hi
      rcases List.mem_append.mp hi with hi' | hi'
      · exact ⟨hm i hi', hr i hi'⟩
      · have : i = idx := List.mem_singleton.mp hi'
        subst this
        exact ⟨arrivalScan_inq_mono _ _ _ _ _ i hidxflag, hp⟩
    · rw [List.nodup_append]
      refine ⟨hnd2, List.nodup_singleton idx, ?_⟩
      rw [List.disjoint_left]
      intro a ha ha'
      have : a = idx := List.mem_singleton.mp ha'
      subst this
      exact hnm ha
    · show (arrivalScan _ _ _ rest inq).2.length = _
      rw [hsl, hq2len, hlen]
    · exact hq2len
    · intro hE
      refine ⟨show t < t + E from by omega, fun hL => appendLog_LInv _ (t + E) hL (by omega)⟩
    · intro _
      rfl
  · rename_i hp
    rw [hq2rem] at hp
    refine ⟨?_, ?_, ?_, ?_, ?_, ?_⟩
    · intro i hi
      have hne : idx ≠ i := fun he => hnm (he ▸ hi)
      constructor
      · show inqAt ((arrivalScan _ _ _ rest inq).2.set idx false) i = true
        rw [inqAt_set, if_neg (fun hc => hne hc.1)]
        exact hm i hi
      · exact hr i hi
    · exact hnd2
    · show ((arrivalScan _ _ _ rest inq).2.set idx false).length = _
      rw [List.length_set, hsl, hq2len, hlen]
    · exact hq2len
    · intro hE
      refine ⟨show t < t + E from by omega, fun hL => appendLog_LInv _ (t + E) hL (by omega)⟩
    · intro hgt
      exfalso
      omega

/-- Invariant propagation through one RR execution (lines 346-396): the
arrival-jump path is dead, the interval is logged contiguously when the
computed slice is positive, and a nonpositive quantum never completes the
process. -/
theorem rrExec_cinv (procs queue : List Process) (t : Int) (completed : Nat)
    (logs : List GanttLog) (idx : Nat) (rest : List Nat) (inq : List Bool)
    (exec0 : Int)
    (hlen : inq.length = queue.length)
    (hready : ∀ i ∈ idx :: rest, inqAt inq i = true ∧ 0 < (getP queue i).rem_time)
    (hnd : (idx :: rest).Nodup)
    (hpost : ∀ i : Nat, i < queue.length → inqAt inq i = false →
      0 < (getP queue i).rem_time → t < (getP queue i).at_) :
    (∀ i ∈ (rrExec procs queue t completed logs idx rest inq exec0).ready,
        inqAt (rrExec procs queue t completed logs idx rest inq exec0).inq i = true ∧
        0 < (getP (rrExec procs queue t completed logs idx rest inq exec0).queue i).rem_time) ∧
    (rrExec procs queue t completed logs idx rest inq exec0).ready.Nodup ∧
    (rrExec procs queue t completed logs idx rest inq exec0).inq.length =
      (rrExec procs queue t completed logs idx rest inq exec0).queue.length ∧
    (rrExec procs queue t completed logs idx rest inq exec0).queue.length = queue.length ∧
    (0 < exec0 → t < (rrExec procs queue t completed logs idx rest inq exec0).t ∧
      (LInv t logs →
        LInv (rrExec procs queue t completed logs idx rest inq exec0).t
          (rrExec procs queue t completed logs idx rest inq exec0).logs)) ∧
    (exec0 ≤ 0 → (rrExec procs queue t completed logs idx rest inq exec0).completed =
      completed) := by
  have hidxrem := (hready idx (List.mem_cons_self idx rest)).2
  have hna := rrNextArrival_gt queue inq t hpost
  by_cases hcl : rrNextArrival queue inq ≠ -1 ∧ rrNextArrival queue inq < t + exec0
  · have htna : t < rrNextArrival queue inq := by
      rcases hna with h | h
      · exact absurd h hcl.1
      · exact h
    have key := rrExecBody_inv procs queue t completed logs idx rest inq
      (rrNextArrival queue inq - t)
      (rrExec procs queue t completed logs idx rest inq exec0)
      hlen hready hnd
      (by
        simp only [rrExec]
        rw [if_pos hcl]
        rw [if_neg (show ¬ ((rrNextArrival queue inq ≠ -1 ∧
            rrNextArrival queue inq < t + exec0) ∧
            rrNextArrival queue inq - t ≤ 0) from fun hc => by omega)])
    refine ⟨key.1, key.2.1, key.2.2.1, key.2.2.2.1, ?_, ?_⟩
    · intro _
      exact key.2.2.2.2.1 (by omega)
    · intro h0
      exfalso
      omega
  · have key := rrExecBody_inv procs queue t completed logs idx rest inq exec0
      (rrExec procs queue t completed logs idx rest inq exec0)
      hlen hready hnd
      (by
        simp only [rrExec]
        rw [if_neg hcl]
        rw [if_neg (fun hc => hcl hc.1)])
    refine ⟨key.1, key.2.1, key.2.2.1, key.2.2.2.1, ?_, ?_⟩
    · intro hE
      exact key.2.2.2.2.1 hE
    · intro h0
      exact key.2.2.2.2.2 (by omega)

theorem rrStep_cinv (quantum : Int) (s : RRState) (h : RRCore s) :
    RRCore (rrStep quantum s) ∧
    (rrStep quantum s).queue.length = s.queue.length ∧
    (0 < quantum → LInv s.t s.logs →
      LInv (rrStep quantum s).t (rrStep quantum s).logs) ∧
    (quantum ≤ 0 → (rrStep quantum s).completed = s.completed) := by
  obtain ⟨hready, hnd, hlen⟩ := h
  have hb : ∀ j ∈ List.range s.queue.length, j < s.inq.length := by
    intro j hj
    have := List.mem_range.mp hj
    omega
  have hflags : ∀ i ∈ s.ready, inqAt s.inq i = true := fun i hi => (hready i hi).1
  have hm := arrivalScan_marks s.queue s.t (List.range s.queue.length) s.ready s.inq
    hb hflags
  have hr := arrivalScan_mem_rem s.queue s.t (List.range s.queue.length) s.ready s.inq
    (List.nodup_range _) (fun i hi => (hready i hi).2)
  have hond := arrivalScan_out_nodup s.queue s.t (List.range s.queue.length) s.ready
    s.inq (List.nodup_range _) hnd hflags
  have hsl := arrivalScan_inq_length s.queue s.t (List.range s.queue.length) s.ready
    s.inq
  have hpost0 : ∀ i : Nat, i < s.queue.length →
      inqAt (arrivalScan s.queue s.t (List.range s.queue.length) s.ready s.inq).2 i =
        false →
      0 < (getP s.queue i).rem_time → s.t < (getP s.queue i).at_ := by
    intro i hi hfalse hrm
    exact arrivalScan_unmarked s.queue s.t (List.range s.queue.length) s.ready s.inq i
      (List.mem_range.mpr hi) (by omega) hfalse hrm
  simp only [rrStep]
  split
  · refine ⟨⟨?_, ?_, ?_⟩, ?_, ?_, ?_⟩
    · intro i hi
      exact absurd hi (List.not_mem_nil i)
    · exact List.nodup_nil
    · show (arrivalScan s.queue s.t (List.range s.queue.length) s.ready s.inq).2.length =
        s.queue.length
      omega
    · rfl
    · intro _ hL
      exact idleLog_LInv hL
    · intro _
      rfl
  · rename_i idx rest hsc
    have hmem : ∀ i ∈ idx :: rest,
        i ∈ (arrivalScan s.queue s.t (List.range s.queue.length) s.ready s.inq).1 := by
      intro i hi
      rw [hsc]
      exact hi
    by_cases hfr : (getP s.queue idx).first_run = -1
    · rw [if_pos hfr, if_pos hfr]
      have hqr : ∀ i : Nat,
          (getP (setP s.queue idx { getP s.queue idx with first_run := s.t }) i).rem_time =
            (getP s.queue i).rem_time := by
        intro i
        rw [getP_setP]
        split
        · rename_i hc
          rw [← hc.1]
        · rfl
      have hqa : ∀ i : Nat,
          (getP (setP s.queue idx { getP s.queue idx with first_run := s.t }) i).at_ =
            (getP s.queue i).at_ := by
        intro i
        rw [getP_setP]
        split
        · rename_i hc
          rw [← hc.1]
        · rfl
      have hq1len : (setP s.queue idx { getP s.queue idx with first_run := s.t }).length =
          s.queue.length := length_setP _ _ _
      have key := rrExec_cinv
        (setP s.procs idx { getP s.procs idx with first_run := s.t })
        (setP s.queue idx { getP s.queue idx with first_run := s.t })
        s.t s.completed s.logs idx rest
        (arrivalScan s.queue s.t (List.range s.queue.length) s.ready s.inq).2
        (min (getP s.queue idx).rem_time quantum)
        (by omega)
        (by
          intro i hi
          exact ⟨hm i (hmem i hi), by rw [hqr]; exact hr i (hmem i hi)⟩)
        (by rw [← hsc]; exact hond)
        (by
          intro i hi hfalse hrm
          rw [hq1len] at hi
          rw [hqr] at hrm
          rw [hqa]
          exact hpost0 i hi hfalse hrm)
      refine ⟨⟨key.1, key.2.1, key.2.2.1⟩, ?_, ?_, ?_⟩
      · rw [key.2.2.2.1, hq1len]
      · intro hq hL
        have hrm0 : 0 < (getP s.queue idx).rem_time :=
          hr idx (hmem idx (List.mem_cons_self idx rest))
        exact (key.2.2.2.2.1 (by omega)).2 hL
      · intro hq
        exact key.2.2.2.2.2 (by omega)
    · rw [if_neg hfr, if_neg hfr]
      have key := rrExec_cinv s.procs s.queue s.t s.completed s.logs idx rest
        (arrivalScan s.queue s.t (List.range s.queue.length) s.ready s.inq).2
        (min (getP s.queue idx).rem_time quantum)
        (by omega)
        (fun i hi => ⟨hm i (hmem i hi), hr i (hmem i hi)⟩)
        (by rw [← hsc]; exact hond)
        hpost0
      refine ⟨⟨key.1, key.2.1, key.2.2.1⟩, key.2.2.2.1, ?_, ?_⟩
      · intro hq hL
        have hrm0 : 0 < (getP s.queue idx).rem_time :=
          hr idx (hmem idx (List.mem_cons_self idx rest))
        exact (key.2.2.2.2.1 (by omega)).2 hL
      · intro hq
        exact key.2.2.2.2.2 (by omega)

theorem rrLoop_LInv (quantum : Int) : ∀ (fuel : Nat) (s out : RRState),
    0 < quantum → RRCore s → LInv s.t s.logs → rrLoop quantum fuel s = some out →
    LInv out.t out.logs := by
  intro fuel
  induction fuel with
  | zero => intro s out _ _ _ hloop; simp [rrLoop] at hloop
  | succ f ih =>
      intro s out hq hc hL hloop
      simp only [rrLoop] at hloop
      split at hloop
      · have step := rrStep_cinv quantum s hc
        exact ih _ _ hq step.1 (step.2.2.1 hq hL) hloop
      · obtain rfl := Option.some.inj hloop
        exact hL

theorem rrLoop_bad (quantum : Int) (hq : quantum ≤ 0) :
    ∀ (fuel : Nat) (s : RRState), RRCore s → s.completed = 0 →
      0 < s.queue.length → rrLoop quantum fuel s = none := by
  intro fuel
  induction fuel with
  | zero => intro s _ _ _; rfl
  | succ f ih =>
      intro s hc h0 hlen
      simp only [rrLoop]
      rw [if_pos (by omega)]
      have step := rrStep_cinv quantum s hc
      exact ih _ step.1 (by rw [step.2.2.2 hq, h0]) (by omega)

theorem rrLoop_exit (quantum : Int) (fuel : Nat) (s out : RRState)
    (h : rrLoop quantum fuel s = some out)
    (hc : ¬ s.completed < s.queue.length) : out = s := by
  cases fuel with
  | zero => simp [rrLoop] at h
  | succ f =>
      simp only [rrLoop] at h
      rw [if_neg hc] at h
      exact (Option.some.inj h).symm

/-! #### C9, MLFQ branch. -/

theorem nodup3_of_parts {a b c : List Nat} (ha : a.Nodup) (hb : b.Nodup) (hc : c.Nodup)
    (dab : ∀ x ∈ a, x ∉ b) (dac : ∀ x ∈ a, x ∉ c) (dbc : ∀ x ∈ b, x ∉ c) :
    (a ++ b ++ c).Nodup := by
  rw [List.nodup_append]
  refine ⟨?_, hc, ?_⟩
  · rw [List.nodup_append]
    exact ⟨ha, hb, List.disjoint_left.mpr dab⟩
  · rw [List.disjoint_left]
    intro x hx
    rcases List.mem_append.mp hx with hx' | hx'
    · exact dac x hx'
    · exact dbc x hx'

theorem nodup3_parts {a b c : List Nat} (h : (a ++ b ++ c).Nodup) :
    a.Nodup ∧ b.Nodup ∧ c.Nodup ∧ (∀ x ∈ a, x ∉ b) ∧ (∀ x ∈ a, x ∉ c) ∧
    (∀ x ∈ b, x ∉ c) := by
  rw [List.nodup_append] at h
  obtain ⟨hab, hc, hd⟩ := h
  rw [List.nodup_append] at hab
  obtain ⟨ha, hb, hab'⟩ := hab
  rw [List.disjoint_left] at hab' hd
  refine ⟨ha, hb, hc, fun x hx => hab' hx, ?_, ?_⟩
  · intro x hx
    exact hd (List.mem_append.mpr (Or.inl hx))
  · intro x hx
    exact hd (List.mem_append.mpr (Or.inr hx))

theorem nodup3_cons_head {x : Nat} {a b c : List Nat}
    (h : ((x :: a) ++ b ++ c).Nodup) :
    (a ++ b ++ c).Nodup ∧ x ∉ a ++ b ++ c := by
  obtain ⟨ha, hb, hc, dab, dac, dbc⟩ := nodup3_parts h
  obtain ⟨hxa, ha'⟩ := List.nodup_cons.mp ha
  refine ⟨nodup3_of_parts ha' hb hc
    (fun y hy => dab y (List.mem_cons_of_mem x hy))
    (fun y hy => dac y (List.mem_cons_of_mem x hy)) dbc, ?_⟩
  intro hx
  rcases List.mem_append.mp hx with hx' | hx'
  · rcases List.mem_append.mp hx' with hx'' | hx''
    · exact hxa hx''
    · exact dab x (List.mem_cons_self x a) hx''
  · exact dac x (List.mem_cons_self x a) hx'

theorem arrivalScan_mem_cases (queue : List Process) (t : Int)
    (idxs ready : List Nat) (inq : List Bool) (hnd : idxs.Nodup) (i : Nat)
    (hi : i ∈ (arrivalScan queue t idxs ready inq).1) :
    i ∈ ready ∨ inqAt inq i = false := by
  rw [arrivalScan_ready queue t idxs ready inq hnd] at hi
  rcases List.mem_append.mp hi with h' | h'
  · exact Or.inl h'
  · right
    have := (List.mem_filter.mp h').2
    simp only [decide_eq_true_eq] at this
    simpa using this.1

theorem mlfqPromote_perm (t : Int) :
    ∀ (l : List Nat) (queue : List Process),
      ((mlfqPromote t queue l).2.1 ++ (mlfqPromote t queue l).2.2).Perm l := by
  intro l
  induction l with
  | nil => intro queue; exact List.Perm.refl _
  | cons i rest ih =>
      intro queue
      unfold mlfqPromote
      dsimp only
      split
      · exact List.Perm.cons i (ih _)
      · exact (List.perm_middle).trans (List.Perm.cons i (ih _))

theorem mlfqPromote_rem (t : Int) :
    ∀ (l : List Nat) (queue : List Process) (j : Nat),
      (getP (mlfqPromote t queue l).1 j).rem_time = (getP queue j).rem_time := by
  intro l
  induction l with
  | nil => intro queue j; rfl
  | cons i rest ih =>
      intro queue j
      unfold mlfqPromote
      dsimp only
      split
      · rw [ih]
        rw [getP_setP]
        split
        · rename_i hc
          rw [← hc.1]
        · rfl
      · exact ih queue j

theorem mlfqPromote_len (t : Int) :
    ∀ (l : List Nat) (queue : List Process),
      (mlfqPromote t queue l).1.length = queue.length := by
  intro l
  induction l with
  | nil => intro queue; rfl
  | cons i rest ih =>
      intro queue
      unfold mlfqPromote
      dsimp only
      split
      · rw [ih, length_setP]
      · exact ih queue

/-- The per-state invariant of the MLFQ loop: every ready index (in any of the
three queues) is marked and unfinished, the three queues have no duplicate
entries between them, and the flag array spans the table. -/
def MLFQCore (s : MLFQState) : Prop :=
  (∀ i ∈ s.q1 ++ s.q2 ++ s.q3, inqAt s.inq i = true ∧ 0 < (getP s.queue i).rem_time) ∧
  (s.q1 ++ s.q2 ++ s.q3).Nodup ∧ s.inq.length = s.queue.length

theorem inqAt_set_true_mono (inq : List Bool) (j i : Nat)
    (h : inqAt inq i = true) : inqAt (inq.set j true) i = true := by
  rw [inqAt_set]
  split
  · rfl
  · exact h

set_option maxHeartbeats 1600000 in
/-- Invariant propagation through the execution path of the MLFQ branch, for
any positive slice `E` not exceeding the remaining time. -/
theorem mlfqExecBody_inv (procsA queueA : List Process) (t : Int) (completed : Nat)
    (logs : List GanttLog) (q1 q2 q3 : List Nat) (inq : List Bool)
    (idx : Nat) (cq quant E : Int) (out : MLFQState)
    (hlen : inq.length = queueA.length)
    (hEpos : 0 < E)
    (hEle : E ≤ (getP queueA idx).rem_time)
    (hidxflag : inqAt inq idx = true)
    (hq : ∀ i ∈ q1 ++ q2 ++ q3, inqAt inq i = true ∧ 0 < (getP queueA i).rem_time)
    (hnd : (q1 ++ q2 ++ q3).Nodup)
    (hnm : idx ∉ q1 ++ q2 ++ q3)
    (hout : out =
      (let t' := t + E
       let p' := getP queueA idx
       let queueB := setP queueA idx { p' with rem_time := p'.rem_time - E }
       let logs2 := appendLog logs p'.pid t t'
       let sc := arrivalScan queueB t' (List.range queueB.length) q1 inq
       let q1' := sc.1
       let inq' := sc.2
       if (getP queueB idx).rem_time = 0 then
         let procsB := setP procsA idx (finalizeP (getP procsA idx) (getP queueB idx) t')
         let inq2 := inq'.set idx false
         let procsC := setP procsB idx
           { getP procsB idx with current_queue := (getP queueB idx).current_queue }
         (⟨procsC, queueB, t', completed + 1, logs2, q1', q2, q3, inq2⟩ : MLFQState)
       else
         let st :=
           if E < quant ∧ cq ≠ 3 then
             if cq = 1 then (queueB, q1' ++ [idx], q2, q3)
             else if cq = 2 then (queueB, q1', q2 ++ [idx], q3)
             else (queueB, q1', q2, q3)
           else if cq ≠ 3 then
             let pd := getP queueB idx
             let queueC := setP queueB idx { pd with current_queue := pd.current_queue + 1 }
             let pd' := getP queueC idx
             if pd'.current_queue = 2 then (queueC, q1', q2 ++ [idx], q3)
             else if 3 ≤ pd'.current_queue then
               (setP queueC idx { pd' with current_queue := 3, last_q3_entry := t' },
                 q1', q2, q3 ++ [idx])
             else (queueC, q1', q2, q3)
           else (queueB, q1', q2, q3)
         let queueF := st.1
         let inq2 := inq'.set idx true
         let procsB := setP procsA idx
           { getP procsA idx with current_queue := (getP queueF idx).current_queue }
         ⟨procsB, queueF, t', completed, logs2, st.2.1, st.2.2.1, st.2.2.2, inq2⟩)) :
    (∀ i ∈ out.q1 ++ out.q2 ++ out.q3,
      inqAt out.inq i = true ∧ 0 < (getP out.queue i).rem_time) ∧
    (out.q1 ++ out.q2 ++ out.q3).Nodup ∧
    out.inq.length = out.queue.length ∧
    out.queue.length = queueA.length ∧
    (LInv t logs → LInv out.t out.logs) := by
  obtain ⟨hq1nd, hq2nd, hq3nd, d12, d13, d23⟩ := nodup3_parts hnd
  have hnm1 : idx ∉ q1 := fun hx => hnm (List.mem_append.mpr (Or.inl (List.mem_append.mpr (Or.inl hx))))
  have hnm2 : idx ∉ q2 := fun hx => hnm (List.mem_append.mpr (Or.inl (List.mem_append.mpr (Or.inr hx))))
  have hnm3 : idx ∉ q3 := fun hx => hnm (List.mem_append.mpr (Or.inr hx))
  have hq1f : ∀ i ∈ q1, inqAt inq i = true :=
    fun i hi => (hq i (List.mem_append.mpr (Or.inl (List.mem_append.mpr (Or.inl hi))))).1
  have hq2f : ∀ i ∈ q2, inqAt inq i = true ∧ 0 < (getP queueA i).rem_time :=
    fun i hi => hq i (List.mem_append.mpr (Or.inl (List.mem_append.mpr (Or.inr hi))))
  have hq3f : ∀ i ∈ q3, inqAt inq i = true ∧ 0 < (getP queueA i).rem_time :=
    fun i hi => hq i (List.mem_append.mpr (Or.inr hi))
  have hidxlen : idx < queueA.length := by
    have := inqAt_true_lt _ _ hidxflag
    omega
  have hqB : getP (setP queueA idx { getP queueA idx with rem_time := (getP queueA idx).rem_time - E }) idx =
      { getP queueA idx with rem_time := (getP queueA idx).rem_time - E } :=
    getP_setP_self _ _ _ hidxlen
  have hqBrem : (getP (setP queueA idx { getP queueA idx with rem_time := (getP queueA idx).rem_time - E }) idx).rem_time = (getP queueA idx).rem_time - E := by
    rw [hqB]
  have hqBlen : ((setP queueA idx { getP queueA idx with rem_time := (getP queueA idx).rem_time - E })).length = queueA.length := length_setP _ _ _
  have hBother : ∀ i : Nat, idx ≠ i → getP (setP queueA idx { getP queueA idx with rem_time := (getP queueA idx).rem_time - E }) i = getP queueA i := by
    intro i hne
    rw [getP_setP, if_neg (fun hc => hne hc.1)]
  have hbnd : ∀ j ∈ List.range (setP queueA idx { getP queueA idx with rem_time := (getP queueA idx).rem_time - E }).length, j < inq.length := by
    intro j hj
    have := List.mem_range.mp hj
    omega
  have hm := arrivalScan_marks (setP queueA idx { getP queueA idx with rem_time := (getP queueA idx).rem_time - E }) (t + E) (List.range (setP queueA idx { getP queueA idx with rem_time := (getP queueA idx).rem_time - E }).length) q1 inq hbnd hq1f
  have hmemc := arrivalScan_mem_cases (setP queueA idx { getP queueA idx with rem_time := (getP queueA idx).rem_time - E }) (t + E) (List.range (setP queueA idx { getP queueA idx with rem_time := (getP queueA idx).rem_time - E }).length) q1 inq
    (List.nodup_range _)
  have hnd1 := arrivalScan_out_nodup (setP queueA idx { getP queueA idx with rem_time := (getP queueA idx).rem_time - E }) (t + E) (List.range (setP queueA idx { getP queueA idx with rem_time := (getP queueA idx).rem_time - E }).length) q1 inq
    (List.nodup_range _) hq1nd hq1f
  have hnmq1 := arrivalScan_flag_not_mem (setP queueA idx { getP queueA idx with rem_time := (getP queueA idx).rem_time - E }) (t + E) (List.range (setP queueA idx { getP queueA idx with rem_time := (getP queueA idx).rem_time - E }).length) q1 inq
    (List.nodup_range _) idx hidxflag hnm1
  have hr1 : ∀ i ∈ (arrivalScan (setP queueA idx { getP queueA idx with rem_time := (getP queueA idx).rem_time - E }) (t + E) (List.range (setP queueA idx { getP queueA idx with rem_time := (getP queueA idx).rem_time - E }).length) q1 inq).1, 0 < (getP (setP queueA idx { getP queueA idx with rem_time := (getP queueA idx).rem_time - E }) i).rem_time := by
    apply arrivalScan_mem_rem (setP queueA idx { getP queueA idx with rem_time := (getP queueA idx).rem_time - E }) (t + E) (List.range (setP queueA idx { getP queueA idx with rem_time := (getP queueA idx).rem_time - E }).length) q1 inq
      (List.nodup_range _)
    intro i hi
    have hne : idx ≠ i := fun he => hnm1 (he ▸ hi)
    rw [hBother i hne]
    exact (hq i (List.mem_append.mpr (Or.inl (List.mem_append.mpr (Or.inl hi))))).2
  have hsl := arrivalScan_inq_length (setP queueA idx { getP queueA idx with rem_time := (getP queueA idx).rem_time - E }) (t + E) (List.range (setP queueA idx { getP queueA idx with rem_time := (getP queueA idx).rem_time - E }).length) q1 inq
  have hq2B : ∀ i ∈ q2, inqAt (arrivalScan (setP queueA idx { getP queueA idx with rem_time := (getP queueA idx).rem_time - E }) (t + E) (List.range (setP queueA idx { getP queueA idx with rem_time := (getP queueA idx).rem_time - E }).length) q1 inq).2 i = true ∧ 0 < (getP (setP queueA idx { getP queueA idx with rem_time := (getP queueA idx).rem_time - E }) i).rem_time := by
    intro i hi
    have hne : idx ≠ i := fun he => hnm2 (he ▸ hi)
    rw [hBother i hne]
    exact ⟨arrivalScan_inq_mono _ _ _ _ _ i (hq2f i hi).1, (hq2f i hi).2⟩
  have hq3B : ∀ i ∈ q3, inqAt (arrivalScan (setP queueA idx { getP queueA idx with rem_time := (getP queueA idx).rem_time - E }) (t + E) (List.range (setP queueA idx { getP queueA idx with rem_time := (getP queueA idx).rem_time - E }).length) q1 inq).2 i = true ∧ 0 < (getP (setP queueA idx { getP queueA idx with rem_time := (getP queueA idx).rem_time - E }) i).rem_time := by
    intro i hi
    have hne : idx ≠ i := fun he => hnm3 (he ▸ hi)
    rw [hBother i hne]
    exact ⟨arrivalScan_inq_mono _ _ _ _ _ i (hq3f i hi).1, (hq3f i hi).2⟩
  have hd12 : ∀ x ∈ (arrivalScan (setP queueA idx { getP queueA idx with rem_time := (getP queueA idx).rem_time - E }) (t + E) (List.range (setP queueA idx { getP queueA idx with rem_time := (getP queueA idx).rem_time - E }).length) q1 inq).1, x ∉ q2 := by
    intro x hx hx2
    rcases hmemc x hx with hx' | hx'
    · exact d12 x hx' hx2
    · rw [(hq2f x hx2).1] at hx'
      exact Bool.noConfusion hx'
  have hd13 : ∀ x ∈ (arrivalScan (setP queueA idx { getP queueA idx with rem_time := (getP queueA idx).rem_time - E }) (t + E) (List.range (setP queueA idx { getP queueA idx with rem_time := (getP queueA idx).rem_time - E }).length) q1 inq).1, x ∉ q3 := by
    intro x hx hx3
    rcases hmemc x hx with hx' | hx'
    · exact d13 x hx' hx3
    · rw [(hq3f x hx3).1] at hx'
      exact Bool.noConfusion hx'
  have hndb : ((arrivalScan (setP queueA idx { getP queueA idx with rem_time := (getP queueA idx).rem_time - E }) (t + E) (List.range (setP queueA idx { getP queueA idx with rem_time := (getP queueA idx).rem_time - E }).length) q1 inq).1 ++ q2 ++ q3).Nodup :=
    nodup3_of_parts hnd1 hq2nd hq3nd hd12 hd13 d23
  have hmarked : ∀ i ∈ (arrivalScan (setP queueA idx { getP queueA idx with rem_time := (getP queueA idx).rem_time - E }) (t + E) (List.range (setP queueA idx { getP queueA idx with rem_time := (getP queueA idx).rem_time - E }).length) q1 inq).1, inqAt (arrivalScan (setP queueA idx { getP queueA idx with rem_time := (getP queueA idx).rem_time - E }) (t + E) (List.range (setP queueA idx { getP queueA idx with rem_time := (getP queueA idx).rem_time - E }).length) q1 inq).2 i = true := hm
  subst hout
  simp only []
  split
  · rename_i hz
    refine ⟨?_, hndb, ?_, hqBlen, ?_⟩
    · intro i hi
      have hne : idx ≠ i := by
        intro he
        subst he
        rcases List.mem_append.mp hi with hi' | hi'
        · rcases List.mem_append.mp hi' with hi'' | hi''
          · exact hnmq1 hi''
          · exact hnm2 hi''
        · exact hnm3 hi'
      constructor
      · show inqAt ((arrivalScan (setP queueA idx { getP queueA idx with rem_time := (getP queueA idx).rem_time - E }) (t + E) (List.range (setP queueA idx { getP queueA idx with rem_time := (getP queueA idx).rem_time - E }).length) q1 inq).2.set idx false) i = true
        rw [inqAt_set, if_neg (fun hc => hne hc.1)]
        rcases List.mem_append.mp hi with hi' | hi'
        · rcases List.mem_append.mp hi' with hi'' | hi''
          · exact hmarked i hi''
          · exact (hq2B i hi'').1
        · exact (hq3B i hi').1
      · rcases List.mem_append.mp hi with hi' | hi'
        · rcases List.mem_append.mp hi' with hi'' | hi''
          · exact hr1 i hi''
          · exact (hq2B i hi'').2
        · exact (hq3B i hi').2
    · show ((arrivalScan (setP queueA idx { getP queueA idx with rem_time := (getP queueA idx).rem_time - E }) (t + E) (List.range (setP queueA idx { getP queueA idx with rem_time := (getP queueA idx).rem_time - E }).length) q1 inq).2.set idx false).length = ((setP queueA idx { getP queueA idx with rem_time := (getP queueA idx).rem_time - E })).length
      rw [List.length_set, hsl, hlen, hqBlen]
    · intro hL
      exact appendLog_LInv _ (t + E) hL (by omega)
  · rename_i hz
    have hremN : 0 < (getP (setP queueA idx { getP queueA idx with rem_time := (getP queueA idx).rem_time - E }) idx).rem_time := by
      rw [hqBrem] at hz ⊢
      omega
    have hidxflag2 : inqAt ((arrivalScan (setP queueA idx { getP queueA idx with rem_time := (getP queueA idx).rem_time - E }) (t + E) (List.range (setP queueA idx { getP queueA idx with rem_time := (getP queueA idx).rem_time - E }).length) q1 inq).2.set idx true) idx = true := by
      rw [inqAt_set, if_pos ⟨rfl, by omega⟩]
    have hmem2 : ∀ i : Nat, (i ∈ (arrivalScan (setP queueA idx { getP queueA idx with rem_time := (getP queueA idx).rem_time - E }) (t + E) (List.range (setP queueA idx { getP queueA idx with rem_time := (getP queueA idx).rem_time - E }).length) q1 inq).1 ∨ i ∈ q2 ∨ i ∈ q3 ∨ i = idx) →
        inqAt ((arrivalScan (setP queueA idx { getP queueA idx with rem_time := (getP queueA idx).rem_time - E }) (t + E) (List.range (setP queueA idx { getP queueA idx with rem_time := (getP queueA idx).rem_time - E }).length) q1 inq).2.set idx true) i = true ∧ 0 < (getP (setP queueA idx { getP queueA idx with rem_time := (getP queueA idx).rem_time - E }) i).rem_time := by
      intro i hi
      rcases hi with hi' | hi' | hi' | hi'
      · exact ⟨inqAt_set_true_mono _ _ _ (hmarked i hi'), hr1 i hi'⟩
      · exact ⟨inqAt_set_true_mono _ _ _ (hq2B i hi').1, (hq2B i hi').2⟩
      · exact ⟨inqAt_set_true_mono _ _ _ (hq3B i hi').1, (hq3B i hi').2⟩
      · subst hi'
        exact ⟨hidxflag2, hremN⟩
    have hins1 : (((arrivalScan (setP queueA idx { getP queueA idx with rem_time := (getP queueA idx).rem_time - E }) (t + E) (List.range (setP queueA idx { getP queueA idx with rem_time := (getP queueA idx).rem_time - E }).length) q1 inq).1 ++ [idx]) ++ q2 ++ q3).Nodup := by
      refine nodup3_of_parts ?_ hq2nd hq3nd ?_ ?_ d23
      · rw [List.nodup_append]
        refine ⟨hnd1, List.nodup_singleton idx, ?_⟩
        rw [List.disjoint_left]
        intro a ha ha'
        rw [List.mem_singleton.mp ha'] at ha
        exact hnmq1 ha
      · intro x hx
        rcases List.mem_append.mp hx with hx' | hx'
        · exact hd12 x hx'
        · rw [List.mem_singleton.mp hx']
          exact hnm2
      · intro x hx
        rcases List.mem_append.mp hx with hx' | hx'
        · exact hd13 x hx'
        · rw [List.mem_singleton.mp hx']
          exact hnm3
    have hins2 : ((arrivalScan (setP queueA idx { getP queueA idx with rem_time := (getP queueA idx).rem_time - E }) (t + E) (List.range (setP queueA idx { getP queueA idx with rem_time := (getP queueA idx).rem_time - E }).length) q1 inq).1 ++ (q2 ++ [idx]) ++ q3).Nodup := by
      refine nodup3_of_parts hnd1 ?_ hq3nd ?_ hd13 ?_
      · rw [List.nodup_append]
        refine ⟨hq2nd, List.nodup_singleton idx, ?_⟩
        rw [List.disjoint_left]
        intro a ha ha'
        rw [List.mem_singleton.mp ha'] at ha
        exact hnm2 ha
      · intro x hx hx'
        rcases List.mem_append.mp hx' with hx'' | hx''
        · exact hd12 x hx hx''
        · rw [List.mem_singleton.mp hx''] at hx
          exact hnmq1 hx
      · intro x hx
        rcases List.mem_append.mp hx with hx' | hx'
        · exact d23 x hx'
        · rw [List.mem_singleton.mp hx']
          exact hnm3
    have hins3 : ((arrivalScan (setP queueA idx { getP queueA idx with rem_time := (getP queueA idx).rem_time - E }) (t + E) (List.range (setP queueA idx { getP queueA idx with rem_time := (getP queueA idx).rem_time - E }).length) q1 inq).1 ++ q2 ++ (q3 ++ [idx])).Nodup := by
      refine nodup3_of_parts hnd1 hq2nd ?_ hd12 ?_ ?_
      · rw [List.nodup_append]
        refine ⟨hq3nd, List.nodup_singleton idx, ?_⟩
        rw [List.disjoint_left]
        intro a ha ha'
        rw [List.mem_singleton.mp ha'] at ha
        exact hnm3 ha
      · intro x hx hx'
        rcases List.mem_append.mp hx' with hx'' | hx''
        · exact hd13 x hx hx''
        · rw [List.mem_singleton.mp hx''] at hx
          exact hnmq1 hx
      · intro x hx hx'
        rcases List.mem_append.mp hx' with hx'' | hx''
        · exact d23 x hx hx''
        · rw [List.mem_singleton.mp hx''] at hx
          exact hnm2 hx
    have hCrem : ∀ j : Nat, (getP (setP (setP queueA idx { getP queueA idx with rem_time := (getP queueA idx).rem_time - E }) idx { getP (setP queueA idx { getP queueA idx with rem_time := (getP queueA idx).rem_time - E }) idx with current_queue := (getP (setP queueA idx { getP queueA idx with rem_time := (getP queueA idx).rem_time - E }) idx).current_queue + 1 }) j).rem_time = (getP (setP queueA idx { getP queueA idx with rem_time := (getP queueA idx).rem_time - E }) j).rem_time := by
      intro j
      rw [getP_setP]
      split
      · rename_i hc
        rw [← hc.1]
      · rfl
    have hDrem : ∀ j : Nat, (getP (setP (setP (setP queueA idx { getP queueA idx with rem_time := (getP queueA idx).rem_time - E }) idx { getP (setP queueA idx { getP queueA idx with rem_time := (getP queueA idx).rem_time - E }) idx with current_queue := (getP (setP queueA idx { getP queueA idx with rem_time := (getP queueA idx).rem_time - E }) idx).current_queue + 1 }) idx { getP (setP (setP queueA idx { getP queueA idx with rem_time := (getP queueA idx).rem_time - E }) idx { getP (setP queueA idx { getP queueA idx with rem_time := (getP queueA idx).rem_time - E }) idx with current_queue := (getP (setP queueA idx { getP queueA idx with rem_time := (getP queueA idx).rem_time - E }) idx).current_queue + 1 }) idx with current_queue := 3, last_q3_entry := t + E }) j).rem_time = (getP (setP queueA idx { getP queueA idx with rem_time := (getP queueA idx).rem_time - E }) j).rem_time := by
      intro j
      rw [getP_setP]
      split
      · rename_i hc
        rw [← hc.1]
        show (getP (setP (setP queueA idx { getP queueA idx with rem_time := (getP queueA idx).rem_time - E }) idx { getP (setP queueA idx { getP queueA idx with rem_time := (getP queueA idx).rem_time - E }) idx with current_queue := (getP (setP queueA idx { getP queueA idx with rem_time := (getP queueA idx).rem_time - E }) idx).current_queue + 1 }) idx).rem_time = (getP (setP queueA idx { getP queueA idx with rem_time := (getP queueA idx).rem_time - E }) idx).rem_time
        exact hCrem idx
      · exact hCrem j
    have hClenA : ((setP (setP queueA idx { getP queueA idx with rem_time := (getP queueA idx).rem_time - E }) idx { getP (setP queueA idx { getP queueA idx with rem_time := (getP queueA idx).rem_time - E }) idx with current_queue := (getP (setP queueA idx { getP queueA idx with rem_time := (getP queueA idx).rem_time - E }) idx).current_queue + 1 })).length = queueA.length := by
      rw [length_setP, hqBlen]
    have hDlenA : ((setP (setP (setP queueA idx { getP queueA idx with rem_time := (getP queueA idx).rem_time - E }) idx { getP (setP queueA idx { getP queueA idx with rem_time := (getP queueA idx).rem_time - E }) idx with current_queue := (getP (setP queueA idx { getP queueA idx with rem_time := (getP queueA idx).rem_time - E }) idx).current_queue + 1 }) idx { getP (setP (setP queueA idx { getP queueA idx with rem_time := (getP queueA idx).rem_time - E }) idx { getP (setP queueA idx { getP queueA idx with rem_time := (getP queueA idx).rem_time - E }) idx with current_queue := (getP (setP queueA idx { getP queueA idx with rem_time := (getP queueA idx).rem_time - E }) idx).current_queue + 1 }) idx with current_queue := 3, last_q3_entry := t + E })).length = queueA.length := by
      rw [length_setP, length_setP, hqBlen]
    split
    all_goals try split
    all_goals try split
    all_goals try split
    all_goals
      refine ⟨?_, ?_, ?_, ?_, fun hL => appendLog_LInv _ (t + E) hL (by omega)⟩
    all_goals
      first
      | (intro i hi
         simp only [List.mem_append, List.mem_singleton] at hi
         first
         | exact hmem2 i (by tauto)
         | (refine ⟨(hmem2 i (by tauto)).1, ?_⟩
            first
            | (rw [hCrem i]; exact (hmem2 i (by tauto)).2)
            | (rw [hDrem i]; exact (hmem2 i (by tauto)).2)))
      | exact hins1
      | exact hins2
      | exact hins3
      | exact hndb
      | (show ((arrivalScan (setP queueA idx { getP queueA idx with rem_time := (getP queueA idx).rem_time - E }) (t + E) (List.range (setP queueA idx { getP queueA idx with rem_time := (getP queueA idx).rem_time - E }).length) q1 inq).2.set idx true).length = ((setP queueA idx { getP queueA idx with rem_time := (getP queueA idx).rem_time - E })).length
         rw [List.length_set, hsl, hlen, hqBlen])
      | (show ((arrivalScan (setP queueA idx { getP queueA idx with rem_time := (getP queueA idx).rem_time - E }) (t + E) (List.range (setP queueA idx { getP queueA idx with rem_time := (getP queueA idx).rem_time - E }).length) q1 inq).2.set idx true).length = ((setP (setP queueA idx { getP queueA idx with rem_time := (getP queueA idx).rem_time - E }) idx { getP (setP queueA idx { getP queueA idx with rem_time := (getP queueA idx).rem_time - E }) idx with current_queue := (getP (setP queueA idx { getP queueA idx with rem_time := (getP queueA idx).rem_time - E }) idx).current_queue + 1 })).length
         rw [List.length_set, hsl, hlen, hClenA])
      | (show ((arrivalScan (setP queueA idx { getP queueA idx with rem_time := (getP queueA idx).rem_time - E }) (t + E) (List.range (setP queueA idx { getP queueA idx with rem_time := (getP queueA idx).rem_time - E }).length) q1 inq).2.set idx true).length = ((setP (setP (setP queueA idx { getP queueA idx with rem_time := (getP queueA idx).rem_time - E }) idx { getP (setP queueA idx { getP queueA idx with rem_time := (getP queueA idx).rem_time - E }) idx with current_queue := (getP (setP queueA idx { getP queueA idx with rem_time := (getP queueA idx).rem_time - E }) idx).current_queue + 1 }) idx { getP (setP (setP queueA idx { getP queueA idx with rem_time := (getP queueA idx).rem_time - E }) idx { getP (setP queueA idx { getP queueA idx with rem_time := (getP queueA idx).rem_time - E }) idx with current_queue := (getP (setP queueA idx { getP queueA idx with rem_time := (getP queueA idx).rem_time - E }) idx).current_queue + 1 }) idx with current_queue := 3, last_q3_entry := t + E })).length
         rw [List.length_set, hsl, hlen, hDlenA])
      | exact hqBlen
      | exact hClenA
      | exact hDlenA

theorem mlfqExec_inv (procs queue : List Process) (t : Int) (completed : Nat)
    (logs : List GanttLog) (q1 q2 q3 : List Nat) (inq : List Bool)
    (idx : Nat) (cq quant : Int)
    (hlen : inq.length = queue.length)
    (hquant : 0 < quant)
    (hidxrem : 0 < (getP queue idx).rem_time)
    (hidxflag : inqAt inq idx = true)
    (hq : ∀ i ∈ q1 ++ q2 ++ q3, inqAt inq i = true ∧ 0 < (getP queue i).rem_time)
    (hnd : (q1 ++ q2 ++ q3).Nodup)
    (hnm : idx ∉ q1 ++ q2 ++ q3) :
    (∀ i ∈ (mlfqExec procs queue t completed logs q1 q2 q3 inq idx cq quant).q1 ++
        (mlfqExec procs queue t completed logs q1 q2 q3 inq idx cq quant).q2 ++
        (mlfqExec procs queue t completed logs q1 q2 q3 inq idx cq quant).q3,
      inqAt (mlfqExec procs queue t completed logs q1 q2 q3 inq idx cq quant).inq i = true ∧
      0 < (getP (mlfqExec procs queue t completed logs q1 q2 q3 inq idx cq quant).queue i).rem_time) ∧
    ((mlfqExec procs queue t completed logs q1 q2 q3 inq idx cq quant).q1 ++
      (mlfqExec procs queue t completed logs q1 q2 q3 inq idx cq quant).q2 ++
      (mlfqExec procs queue t completed logs q1 q2 q3 inq idx cq quant).q3).Nodup ∧
    (mlfqExec procs queue t completed logs q1 q2 q3 inq idx cq quant).inq.length =
      (mlfqExec procs queue t completed logs q1 q2 q3 inq idx cq quant).queue.length ∧
    (mlfqExec procs queue t completed logs q1 q2 q3 inq idx cq quant).queue.length =
      queue.length ∧
    (LInv t logs →
      LInv (mlfqExec procs queue t completed logs q1 q2 q3 inq idx cq quant).t
        (mlfqExec procs queue t completed logs q1 q2 q3 inq idx cq quant).logs) := by
  by_cases hfr : (getP queue idx).first_run = -1
  · have hqr : ∀ i : Nat,
        (getP (setP queue idx { getP queue idx with first_run := t }) i).rem_time =
          (getP queue i).rem_time := by
      intro i
      rw [getP_setP]
      split
      · rename_i hc
        rw [← hc.1]
      · rfl
    have hq1len : (setP queue idx { getP queue idx with first_run := t }).length =
        queue.length := length_setP _ _ _
    have key := mlfqExecBody_inv
      (setP procs idx { getP procs idx with first_run := t })
      (setP queue idx { getP queue idx with first_run := t })
      t completed logs q1 q2 q3 inq idx cq quant
      (min (getP queue idx).rem_time quant)
      (mlfqExec procs queue t completed logs q1 q2 q3 inq idx cq quant)
      (by omega)
      (by omega)
      (by rw [hqr]; omega)
      hidxflag
      (by
        intro i hi
        rw [hqr]
        exact hq i hi)
      hnd hnm
      (by
        simp only [mlfqExec]
        rw [if_pos hfr, if_pos hfr])
    refine ⟨key.1, key.2.1, key.2.2.1, ?_, key.2.2.2.2⟩
    rw [key.2.2.2.1, hq1len]
  · have key := mlfqExecBody_inv procs queue t completed logs q1 q2 q3 inq idx cq quant
      (min (getP queue idx).rem_time quant)
      (mlfqExec procs queue t completed logs q1 q2 q3 inq idx cq quant)
      hlen
      (by omega)
      (by omega)
      hidxflag hq hnd hnm
      (by
        simp only [mlfqExec]
        rw [if_neg hfr, if_neg hfr])
    exact ⟨key.1, key.2.1, key.2.2.1, key.2.2.2.1, key.2.2.2.2⟩

theorem mlfqStep_cinv (s : MLFQState) (h : MLFQCore s) :
    MLFQCore (mlfqStep s) ∧
    (mlfqStep s).queue.length = s.queue.length ∧
    (LInv s.t s.logs → LInv (mlfqStep s).t (mlfqStep s).logs) := by
  obtain ⟨hq, hnd, hlen⟩ := h
  obtain ⟨hq1nd, hq2nd, hq3nd, d12, d13, d23⟩ := nodup3_parts hnd
  have hq1m : ∀ i ∈ s.q1, inqAt s.inq i = true ∧ 0 < (getP s.queue i).rem_time :=
    fun i hi => hq i (List.mem_append.mpr (Or.inl (List.mem_append.mpr (Or.inl hi))))
  have hq2m : ∀ i ∈ s.q2, inqAt s.inq i = true ∧ 0 < (getP s.queue i).rem_time :=
    fun i hi => hq i (List.mem_append.mpr (Or.inl (List.mem_append.mpr (Or.inr hi))))
  have hq3m : ∀ i ∈ s.q3, inqAt s.inq i = true ∧ 0 < (getP s.queue i).rem_time :=
    fun i hi => hq i (List.mem_append.mpr (Or.inr hi))
  have hbnd : ∀ j ∈ List.range s.queue.length, j < s.inq.length := by
    intro j hj
    have := List.mem_range.mp hj
    omega
  have hm := arrivalScan_marks s.queue s.t (List.range s.queue.length) s.q1 s.inq hbnd
    (fun i hi => (hq1m i hi).1)
  have hmemc := arrivalScan_mem_cases s.queue s.t (List.range s.queue.length) s.q1 s.inq
    (List.nodup_range _)
  have hnd1 := arrivalScan_out_nodup s.queue s.t (List.range s.queue.length) s.q1 s.inq
    (List.nodup_range _) hq1nd (fun i hi => (hq1m i hi).1)
  have hr1 := arrivalScan_mem_rem s.queue s.t (List.range s.queue.length) s.q1 s.inq
    (List.nodup_range _) (fun i hi => (hq1m i hi).2)
  have hsl := arrivalScan_inq_length s.queue s.t (List.range s.queue.length) s.q1 s.inq
  have hperm := mlfqPromote_perm s.t s.q3 s.queue
  have hPmem : ∀ x ∈ (mlfqPromote s.t s.queue s.q3).2.1, x ∈ s.q3 := by
    intro x hx
    exact hperm.mem_iff.mp (List.mem_append.mpr (Or.inl hx))
  have hSmem : ∀ x ∈ (mlfqPromote s.t s.queue s.q3).2.2, x ∈ s.q3 := by
    intro x hx
    exact hperm.mem_iff.mp (List.mem_append.mpr (Or.inr hx))
  have hPSnd : ((mlfqPromote s.t s.queue s.q3).2.1 ++ (mlfqPromote s.t s.queue s.q3).2.2).Nodup :=
    (hperm.nodup_iff).mpr hq3nd
  have hPnd : (mlfqPromote s.t s.queue s.q3).2.1.Nodup := (List.nodup_append.mp hPSnd).1
  have hSnd : (mlfqPromote s.t s.queue s.q3).2.2.Nodup := (List.nodup_append.mp hPSnd).2.1
  have hPSdis : ∀ x ∈ (mlfqPromote s.t s.queue s.q3).2.1,
      x ∉ (mlfqPromote s.t s.queue s.q3).2.2 := by
    intro x hx
    exact List.disjoint_left.mp (List.nodup_append.mp hPSnd).2.2 hx
  have hProm : ∀ j : Nat, (getP (mlfqPromote s.t s.queue s.q3).1 j).rem_time =
      (getP s.queue j).rem_time := fun j => mlfqPromote_rem s.t s.q3 s.queue j
  have hPlen : (mlfqPromote s.t s.queue s.q3).1.length = s.queue.length :=
    mlfqPromote_len s.t s.q3 s.queue
  have hU : ∀ i ∈ (arrivalScan s.queue s.t (List.range s.queue.length) s.q1 s.inq).1 ++
      (s.q2 ++ (mlfqPromote s.t s.queue s.q3).2.1) ++ (mlfqPromote s.t s.queue s.q3).2.2,
      inqAt (arrivalScan s.queue s.t (List.range s.queue.length) s.q1 s.inq).2 i = true ∧
      0 < (getP (mlfqPromote s.t s.queue s.q3).1 i).rem_time := by
    intro i hi
    rw [hProm]
    rcases List.mem_append.mp hi with hi' | hi'
    · rcases List.mem_append.mp hi' with hi'' | hi''
      · exact ⟨hm i hi'', hr1 i hi''⟩
      · rcases List.mem_append.mp hi'' with hi3 | hi3
        · exact ⟨arrivalScan_inq_mono _ _ _ _ _ i (hq2m i hi3).1, (hq2m i hi3).2⟩
        · exact ⟨arrivalScan_inq_mono _ _ _ _ _ i (hq3m i (hPmem i hi3)).1,
            (hq3m i (hPmem i hi3)).2⟩
    · exact ⟨arrivalScan_inq_mono _ _ _ _ _ i (hq3m i (hSmem i hi')).1,
        (hq3m i (hSmem i hi')).2⟩
  have hd1q2P : ∀ x ∈ (arrivalScan s.queue s.t (List.range s.queue.length) s.q1 s.inq).1,
      x ∉ s.q2 ++ (mlfqPromote s.t s.queue s.q3).2.1 := by
    intro x hx hx'
    have hin3 : x ∈ s.q2 ∨ x ∈ s.q3 := by
      rcases List.mem_append.mp hx' with h' | h'
      · exact Or.inl h'
      · exact Or.inr (hPmem x h')
    rcases hmemc x hx with hx1 | hx1
    · rcases hin3 with h' | h'
      · exact d12 x hx1 h'
      · exact d13 x hx1 h'
    · rcases hin3 with h' | h'
      · rw [(hq2m x h').1] at hx1
        exact Bool.noConfusion hx1
      · rw [(hq3m x h').1] at hx1
        exact Bool.noConfusion hx1
  have hd1S : ∀ x ∈ (arrivalScan s.queue s.t (List.range s.queue.length) s.q1 s.inq).1,
      x ∉ (mlfqPromote s.t s.queue s.q3).2.2 := by
    intro x hx hx'
    have hin3 : x ∈ s.q3 := hSmem x hx'
    rcases hmemc x hx with hx1 | hx1
    · exact d13 x hx1 hin3
    · rw [(hq3m x hin3).1] at hx1
      exact Bool.noConfusion hx1
  have hq2Pnd : (s.q2 ++ (mlfqPromote s.t s.queue s.q3).2.1).Nodup := by
    rw [List.nodup_append]
    refine ⟨hq2nd, hPnd, ?_⟩
    rw [List.disjoint_left]
    intro a ha ha'
    exact d23 a ha (hPmem a ha')
  have hq2PSdis : ∀ x ∈ s.q2 ++ (mlfqPromote s.t s.queue s.q3).2.1,
      x ∉ (mlfqPromote s.t s.queue s.q3).2.2 := by
    intro x hx hx'
    rcases List.mem_append.mp hx with h' | h'
    · exact d23 x h' (hSmem x hx')
    · exact hPSdis x h' hx'
  have hUnd : ((arrivalScan s.queue s.t (List.range s.queue.length) s.q1 s.inq).1 ++
      (s.q2 ++ (mlfqPromote s.t s.queue s.q3).2.1) ++
      (mlfqPromote s.t s.queue s.q3).2.2).Nodup :=
    nodup3_of_parts hnd1 hq2Pnd hSnd hd1q2P hd1S hq2PSdis
  have hUlen : (arrivalScan s.queue s.t (List.range s.queue.length) s.q1 s.inq).2.length =
      (mlfqPromote s.t s.queue s.q3).1.length := by
    rw [hsl, hPlen, hlen]
  simp only [mlfqStep]
  split
  · rename_i idx q1rest hsc
    rw [hsc] at hU hUnd
    have hparts := nodup3_cons_head hUnd
    have key := mlfqExec_inv s.procs (mlfqPromote s.t s.queue s.q3).1 s.t s.completed
      s.logs q1rest (s.q2 ++ (mlfqPromote s.t s.queue s.q3).2.1)
      (mlfqPromote s.t s.queue s.q3).2.2
      (arrivalScan s.queue s.t (List.range s.queue.length) s.q1 s.inq).2
      idx 1 Q1_QUANTUM
      hUlen
      (by show (0:Int) < 8; omega)
      (hU idx (List.mem_cons_self idx _)).2
      (hU idx (List.mem_cons_self idx _)).1
      (fun i hi => hU i (List.mem_cons_of_mem idx hi))
      hparts.1
      hparts.2
    refine ⟨⟨key.1, key.2.1, key.2.2.1⟩, ?_, key.2.2.2.2⟩
    rw [key.2.2.2.1, hPlen]
  · rename_i hsc
    split
    · rename_i idx q2rest hq2eq
      rw [hsc] at hU hUnd
      rw [hq2eq] at hU hUnd
      have hUnd2 : (idx :: (q2rest ++ (mlfqPromote s.t s.queue s.q3).2.2)).Nodup := hUnd
      have hparts := List.nodup_cons.mp hUnd2
      have key := mlfqExec_inv s.procs (mlfqPromote s.t s.queue s.q3).1 s.t s.completed
        s.logs [] q2rest (mlfqPromote s.t s.queue s.q3).2.2
        (arrivalScan s.queue s.t (List.range s.queue.length) s.q1 s.inq).2
        idx 2 Q2_QUANTUM
        hUlen
        (by show (0:Int) < 16; omega)
        (hU idx (List.mem_cons_self idx _)).2
        (hU idx (List.mem_cons_self idx _)).1
        (fun i hi => hU i (List.mem_cons_of_mem idx hi))
        hparts.2
        hparts.1
      refine ⟨⟨key.1, key.2.1, key.2.2.1⟩, ?_, key.2.2.2.2⟩
      rw [key.2.2.2.1, hPlen]
    · rename_i hq2eq
      split
      · rename_i idx q3rest hq3eq
        rw [hsc] at hU hUnd
        rw [hq2eq] at hU hUnd
        rw [hq3eq] at hU hUnd
        have hUnd2 : (idx :: q3rest).Nodup := hUnd
        have hparts := List.nodup_cons.mp hUnd2
        have key := mlfqExec_inv s.procs (mlfqPromote s.t s.queue s.q3).1 s.t s.completed
          s.logs [] [] q3rest
          (arrivalScan s.queue s.t (List.range s.queue.length) s.q1 s.inq).2
          idx 3 (getP (mlfqPromote s.t s.queue s.q3).1 idx).rem_time
          hUlen
          ((hU idx (List.mem_cons_self idx _)).2)
          (hU idx (List.mem_cons_self idx _)).2
          (hU idx (List.mem_cons_self idx _)).1
          (fun i hi => hU i (List.mem_cons_of_mem idx hi))
          hparts.2
          hparts.1
        refine ⟨⟨key.1, key.2.1, key.2.2.1⟩, ?_, key.2.2.2.2⟩
        rw [key.2.2.2.1, hPlen]
      · refine ⟨⟨?_, ?_, ?_⟩, ?_, ?_⟩
        · intro i hi
          exact absurd hi (List.not_mem_nil i)
        · exact List.nodup_nil
        · show (arrivalScan s.queue s.t (List.range s.queue.length) s.q1 s.inq).2.length =
            (mlfqPromote s.t s.queue s.q3).1.length
          exact hUlen
        · show (mlfqPromote s.t s.queue s.q3).1.length = s.queue.length
          exact hPlen
        · intro hL
          exact idleLog_LInv hL

theorem mlfqLoop_LInv : ∀ (fuel : Nat) (s out : MLFQState),
    MLFQCore s → LInv s.t s.logs → mlfqLoop fuel s = some out →
    LInv out.t out.logs := by
  intro fuel
  induction fuel with
  | zero => intro s out _ _ hloop; simp [mlfqLoop] at hloop
  | succ f ih =>
      intro s out hc hL hloop
      simp only [mlfqLoop] at hloop
      split at hloop
      · have step := mlfqStep_cinv s hc
        exact ih _ _ step.1 (step.2.2 hL) hloop
      · obtain rfl := Option.some.inj hloop
        exact hL

/-! #### C9, MLQ branch. -/

theorem mem_insertLe (le : Nat → Nat → Prop) [DecidableRel le] (x a : Nat) :
    ∀ l : List Nat, a ∈ insertLe le x l ↔ a = x ∨ a ∈ l := by
  intro l
  induction l with
  | nil => simp [insertLe]
  | cons y ys ih =>
      unfold insertLe
      split
      · simp [List.mem_cons]
      · simp only [List.mem_cons, ih]
        tauto

theorem mem_sortLe (le : Nat → Nat → Prop) [DecidableRel le] (a : Nat) :
    ∀ l : List Nat, a ∈ sortLe le l ↔ a ∈ l := by
  intro l
  induction l with
  | nil => simp [sortLe]
  | cons y ys ih =>
      show a ∈ insertLe le y (sortLe le ys) ↔ _
      rw [mem_insertLe, List.mem_cons, ih]

theorem nodup_insertLe (le : Nat → Nat → Prop) [DecidableRel le] (x : Nat) :
    ∀ l : List Nat, x ∉ l → l.Nodup → (insertLe le x l).Nodup := by
  intro l
  induction l with
  | nil => intro _ _; exact List.nodup_singleton x
  | cons y ys ih =>
      intro hx hnd
      obtain ⟨hy, hys⟩ := List.nodup_cons.mp hnd
      unfold insertLe
      split
      · rw [List.nodup_cons]
        exact ⟨hx, hnd⟩
      · rw [List.nodup_cons]
        refine ⟨?_, ih (fun hm => hx (List.mem_cons_of_mem y hm)) hys⟩
        intro hm
        rw [mem_insertLe] at hm
        rcases hm with hm' | hm'
        · exact hx (hm' ▸ List.mem_cons_self y ys)
        · exact hy hm'

theorem nodup_sortLe (le : Nat → Nat → Prop) [DecidableRel le] :
    ∀ l : List Nat, l.Nodup → (sortLe le l).Nodup := by
  intro l
  induction l with
  | nil => intro _; exact List.nodup_nil
  | cons y ys ih =>
      intro hnd
      obtain ⟨hy, hys⟩ := List.nodup_cons.mp hnd
      show (insertLe le y (sortLe le ys)).Nodup
      refine nodup_insertLe le y _ ?_ (ih hys)
      intro hm
      exact hy ((mem_sortLe le y ys).mp hm)

theorem mlqNextSwitch_gt (queue : List Process) (t rt0 : Int) (h : 0 < rt0) :
    t < mlqNextSwitch queue t rt0 := by
  unfold mlqNextSwitch
  apply foldl_invariant _ (fun ns : Int => t < ns)
  · intro b a hb
    dsimp only
    split
    · rename_i hc
      exact hc.2.2.1
    · exact hb
  · omega

theorem mlqNextSwitch_le (queue : List Process) (t rt0 : Int) :
    mlqNextSwitch queue t rt0 ≤ t + rt0 := by
  unfold mlqNextSwitch
  apply foldl_invariant _ (fun ns : Int => ns ≤ t + rt0)
  · intro b a hb
    dsimp only
    split
    · rename_i hc
      omega
    · exact hb
  · omega

theorem getP_field_lt (l : List Process) (i : Nat)
    (h : (getP l i).current_queue ≠ 0) : i < l.length := by
  by_contra hlt
  push_neg at hlt
  rw [getP_oob l i hlt] at h
  exact h rfl

set_option maxHeartbeats 800000 in
/-- The MLQ arrival scan preserves the per-queue facts: Q1 members are
Q1-assigned, Q2/Q3 members are marked, unfinished and correctly assigned, and
Q2/Q3 stay duplicate-free. -/
theorem mlqArrivalScan_inv (queue : List Process) (t : Int) :
    ∀ (idxs q1 q2 q3 qo : List Nat) (inq : List Bool),
      (∀ j ∈ idxs, j < inq.length) →
      (∀ i ∈ q1, (getP queue i).current_queue = 1) →
      (∀ i ∈ q2, inqAt inq i = true ∧ 0 < (getP queue i).rem_time ∧
        (getP queue i).current_queue = 2) →
      q2.Nodup →
      (∀ i ∈ q3, inqAt inq i = true ∧ 0 < (getP queue i).rem_time ∧
        (getP queue i).current_queue = 3) →
      q3.Nodup →
      (∀ i ∈ (mlqArrivalScan queue t idxs q1 q2 q3 qo inq).1,
        (getP queue i).current_queue = 1) ∧
      (∀ i ∈ (mlqArrivalScan queue t idxs q1 q2 q3 qo inq).2.1,
        inqAt (mlqArrivalScan queue t idxs q1 q2 q3 qo inq).2.2.2.2 i = true ∧
        0 < (getP queue i).rem_time ∧ (getP queue i).current_queue = 2) ∧
      (mlqArrivalScan queue t idxs q1 q2 q3 qo inq).2.1.Nodup ∧
      (∀ i ∈ (mlqArrivalScan queue t idxs q1 q2 q3 qo inq).2.2.1,
        inqAt (mlqArrivalScan queue t idxs q1 q2 q3 qo inq).2.2.2.2 i = true ∧
        0 < (getP queue i).rem_time ∧ (getP queue i).current_queue = 3) ∧
      (mlqArrivalScan queue t idxs q1 q2 q3 qo inq).2.2.1.Nodup ∧
      (mlqArrivalScan queue t idxs q1 q2 q3 qo inq).2.2.2.2.length = inq.length := by
  intro idxs
  induction idxs with
  | nil =>
      intro q1 q2 q3 qo inq _ h1 h2 h2n h3 h3n
      exact ⟨h1, h2, h2n, h3, h3n, rfl⟩
  | cons j rest ih =>
      intro q1 q2 q3 qo inq hb h1 h2 h2n h3 h3n
      have hjlen : j < inq.length := hb j (List.mem_cons_self j rest)
      have hb' : ∀ a ∈ rest, a < (inq.set j true).length := by
        intro a ha
        rw [List.length_set]
        exact hb a (List.mem_cons_of_mem j ha)
      have hb'' : ∀ a ∈ rest, a < inq.length :=
        fun a ha => hb a (List.mem_cons_of_mem j ha)
      have h2' : ∀ i ∈ q2, inqAt (inq.set j true) i = true ∧
          0 < (getP queue i).rem_time ∧ (getP queue i).current_queue = 2 :=
        fun i hi => ⟨inqAt_set_true_mono _ _ _ (h2 i hi).1, (h2 i hi).2⟩
      have h3' : ∀ i ∈ q3, inqAt (inq.set j true) i = true ∧
          0 < (getP queue i).rem_time ∧ (getP queue i).current_queue = 3 :=
        fun i hi => ⟨inqAt_set_true_mono _ _ _ (h3 i hi).1, (h3 i hi).2⟩
      unfold mlqArrivalScan
      split
      · rename_i hcond
        dsimp only
        split
        · rename_i htq
          have key := ih (sortLe (mlqQ1le queue) (q1 ++ [j])) q2 q3 qo (inq.set j true)
            hb'
            (by
              intro i hi
              rw [mem_sortLe] at hi
              rcases List.mem_append.mp hi with hi' | hi'
              · exact h1 i hi'
              · rw [List.mem_singleton.mp hi']
                exact htq)
            h2' h2n h3' h3n
          have hlen2 : (inq.set j true).length = inq.length := List.length_set inq j true
          exact ⟨key.1, key.2.1, key.2.2.1, key.2.2.2.1, key.2.2.2.2.1,
            by rw [key.2.2.2.2.2, hlen2]⟩
        · rename_i htq1
          split
          · rename_i htq
            have key := ih q1 (q2 ++ [j]) q3 qo (inq.set j true)
              hb' h1
              (by
                intro i hi
                rcases List.mem_append.mp hi with hi' | hi'
                · exact h2' i hi'
                · rw [List.mem_singleton.mp hi']
                  refine ⟨?_, hcond.2.1, htq⟩
                  rw [inqAt_set, if_pos ⟨rfl, hjlen⟩])
              (by
                rw [List.nodup_append]
                refine ⟨h2n, List.nodup_singleton j, ?_⟩
                rw [List.disjoint_left]
                intro a ha ha'
                rw [List.mem_singleton.mp ha'] at ha
                have := (h2 j ha).1
                rw [this] at hcond
                exact absurd rfl hcond.1)
              h3' h3n
            have hlen2 : (inq.set j true).length = inq.length := List.length_set inq j true
            exact ⟨key.1, key.2.1, key.2.2.1, key.2.2.2.1, key.2.2.2.2.1,
              by rw [key.2.2.2.2.2, hlen2]⟩
          · rename_i htq2
            split
            · rename_i htq
              have key := ih q1 q2 (sortLe (mlqQ3le queue) (q3 ++ [j])) qo (inq.set j true)
                hb' h1 h2' h2n
                (by
                  intro i hi
                  rw [mem_sortLe] at hi
                  rcases List.mem_append.mp hi with hi' | hi'
                  · exact h3' i hi'
                  · rw [List.mem_singleton.mp hi']
                    refine ⟨?_, hcond.2.1, htq⟩
                    rw [inqAt_set, if_pos ⟨rfl, hjlen⟩])
                (by
                  apply nodup_sortLe
                  rw [List.nodup_append]
                  refine ⟨h3n, List.nodup_singleton j, ?_⟩
                  rw [List.disjoint_left]
                  intro a ha ha'
                  rw [List.mem_singleton.mp ha'] at ha
                  have := (h3 j ha).1
                  rw [this] at hcond
                  exact absurd rfl hcond.1)
              have hlen2 : (inq.set j true).length = inq.length := List.length_set inq j true
              exact ⟨key.1, key.2.1, key.2.2.1, key.2.2.2.1, key.2.2.2.2.1,
                by rw [key.2.2.2.2.2, hlen2]⟩
            · have key := ih q1 q2 q3 (qo ++ [j]) (inq.set j true)
                hb' h1 h2' h2n h3' h3n
              have hlen2 : (inq.set j true).length = inq.length := List.length_set inq j true
              exact ⟨key.1, key.2.1, key.2.2.1, key.2.2.2.1, key.2.2.2.2.1,
                by rw [key.2.2.2.2.2, hlen2]⟩
      · exact ih q1 q2 q3 qo inq hb'' h1 h2 h2n h3 h3n

/-- The per-state invariant of the MLQ loop: Q1 members carry queue
assignment 1 (completed Q1 ghosts included), Q2/Q3 members are marked,
unfinished and correctly assigned, Q2/Q3 are duplicate-free, and the flag
array spans the table. -/
def MLQCore (s : MLQState) : Prop :=
  (∀ i ∈ s.q1, (getP s.queue i).current_queue = 1) ∧
  (∀ i ∈ s.q2, inqAt s.inq i = true ∧ 0 < (getP s.queue i).rem_time ∧
    (getP s.queue i).current_queue = 2) ∧
  s.q2.Nodup ∧
  (∀ i ∈ s.q3, inqAt s.inq i = true ∧ 0 < (getP s.queue i).rem_time ∧
    (getP s.queue i).current_queue = 3) ∧
  s.q3.Nodup ∧
  s.inq.length = s.queue.length

set_option maxHeartbeats 800000 in
/-- Invariant propagation through the logging path of the MLQ execution, for
any positive slice `rt` (bounded by the remaining time for Q2/Q3 picks). -/
theorem mlqExecBody_inv (s : MLQState) (q1 q2 q3 : List Nat) (idx : Nat)
    (cq : Int) (procsA queueA : List Process) (rt : Int) (out : MLQState)
    (hqA_field : ∀ i : Nat, (getP queueA i).current_queue =
      (getP s.queue i).current_queue)
    (hqA_rem : ∀ i : Nat, (getP queueA i).rem_time = (getP s.queue i).rem_time)
    (hqA_len : queueA.length = s.queue.length)
    (hlen : s.inq.length = s.queue.length)
    (hrt : 0 < rt)
    (hrtle : cq ≠ 1 → rt ≤ (getP s.queue idx).rem_time)
    (hcq : cq = 1 ∨ cq = 2 ∨ cq = 3)
    (hfield : (getP s.queue idx).current_queue = cq)
    (hflag2 : cq = 2 → inqAt s.inq idx = true)
    (hnm2 : cq = 2 → idx ∉ q2)
    (hnm3 : cq = 3 → idx ∉ q3)
    (hq1 : ∀ i ∈ q1, (getP s.queue i).current_queue = 1)
    (hq2 : ∀ i ∈ q2, inqAt s.inq i = true ∧ 0 < (getP s.queue i).rem_time ∧
      (getP s.queue i).current_queue = 2)
    (hq2nd : q2.Nodup)
    (hq3 : ∀ i ∈ q3, inqAt s.inq i = true ∧ 0 < (getP s.queue i).rem_time ∧
      (getP s.queue i).current_queue = 3)
    (hq3nd : q3.Nodup)
    (hout : out =
      (let t' := s.t + rt
       let p' := getP queueA idx
       let queueB := setP queueA idx { p' with rem_time := p'.rem_time - rt }
       let logs2 := appendLog s.logs p'.pid s.t t'
       if (getP queueB idx).rem_time = 0 then
         { s with
            procs := setP procsA idx (finalizeP (getP procsA idx) (getP queueB idx) t')
            queue := queueB
            t := t'
            completed := s.completed + 1
            logs := logs2
            q1 := q1
            q2 := q2
            q3 := q3
            inq := s.inq.set idx false }
       else
         { s with
            procs := procsA
            queue := queueB
            t := t'
            logs := logs2
            q1 := q1
            q2 := if cq = 2 then q2 ++ [idx] else q2
            q3 := q3 })) :
    (∀ i ∈ out.q1, (getP out.queue i).current_queue = 1) ∧
    (∀ i ∈ out.q2, inqAt out.inq i = true ∧ 0 < (getP out.queue i).rem_time ∧
      (getP out.queue i).current_queue = 2) ∧
    out.q2.Nodup ∧
    (∀ i ∈ out.q3, inqAt out.inq i = true ∧ 0 < (getP out.queue i).rem_time ∧
      (getP out.queue i).current_queue = 3) ∧
    out.q3.Nodup ∧
    out.inq.length = out.queue.length ∧
    out.queue.length = s.queue.length ∧
    (LInv s.t s.logs → LInv out.t out.logs) := by
  have hidxlen : idx < queueA.length := by
    apply getP_field_lt
    rw [hqA_field idx, hfield]
    rcases hcq with h | h | h <;> simp [h]
  have hBidx : getP (setP queueA idx { getP queueA idx with rem_time := (getP queueA idx).rem_time - rt }) idx =
      { getP queueA idx with rem_time := (getP queueA idx).rem_time - rt } :=
    getP_setP_self _ _ _ hidxlen
  have hB_field : ∀ i : Nat, (getP (setP queueA idx { getP queueA idx with rem_time := (getP queueA idx).rem_time - rt }) i).current_queue =
      (getP s.queue i).current_queue := by
    intro i
    rw [getP_setP]
    split
    · rename_i hc
      rw [← hc.1]
      show (getP queueA idx).current_queue = _
      exact hqA_field idx
    · exact hqA_field i
  have hB_rem_o : ∀ i : Nat, idx ≠ i →
      (getP (setP queueA idx { getP queueA idx with rem_time := (getP queueA idx).rem_time - rt }) i).rem_time = (getP s.queue i).rem_time := by
    intro i hne
    rw [getP_setP, if_neg (fun hc => hne hc.1)]
    exact hqA_rem i
  have hB_rem_idx : (getP (setP queueA idx { getP queueA idx with rem_time := (getP queueA idx).rem_time - rt }) idx).rem_time =
      (getP s.queue idx).rem_time - rt := by
    rw [hBidx]
    show (getP queueA idx).rem_time - rt = _
    rw [hqA_rem idx]
  have hB_len : ((setP queueA idx { getP queueA idx with rem_time := (getP queueA idx).rem_time - rt })).length = s.queue.length := by
    rw [length_setP, hqA_len]
  have hq2ne : ∀ i ∈ q2, i ≠ idx := by
    intro i hi he
    rcases hcq with h | h | h
    · have h1 := (hq2 i hi).2.2
      rw [he, hfield, h] at h1
      exact absurd h1 (by omega)
    · exact hnm2 h (he ▸ hi)
    · have h1 := (hq2 i hi).2.2
      rw [he, hfield, h] at h1
      exact absurd h1 (by omega)
  have hq3ne : ∀ i ∈ q3, i ≠ idx := by
    intro i hi he
    rcases hcq with h | h | h
    · have h1 := (hq3 i hi).2.2
      rw [he, hfield, h] at h1
      exact absurd h1 (by omega)
    · have h1 := (hq3 i hi).2.2
      rw [he, hfield, h] at h1
      exact absurd h1 (by omega)
    · exact hnm3 h (he ▸ hi)
  subst hout
  simp only []
  split
  · rename_i hz
    refine ⟨?_, ?_, hq2nd, ?_, hq3nd, ?_, hB_len, ?_⟩
    · intro i hi
      show (getP (setP queueA idx { getP queueA idx with rem_time := (getP queueA idx).rem_time - rt }) i).current_queue = 1
      rw [hB_field i]
      exact hq1 i hi
    · intro i hi
      have hne := hq2ne i hi
      refine ⟨?_, ?_, ?_⟩
      · show inqAt (s.inq.set idx false) i = true
        rw [inqAt_set, if_neg (fun hc => hne hc.1.symm)]
        exact (hq2 i hi).1
      · show 0 < (getP (setP queueA idx { getP queueA idx with rem_time := (getP queueA idx).rem_time - rt }) i).rem_time
        rw [hB_rem_o i (fun he => hne he.symm)]
        exact (hq2 i hi).2.1
      · show (getP (setP queueA idx { getP queueA idx with rem_time := (getP queueA idx).rem_time - rt }) i).current_queue = 2
        rw [hB_field i]
        exact (hq2 i hi).2.2
    · intro i hi
      have hne := hq3ne i hi
      refine ⟨?_, ?_, ?_⟩
      · show inqAt (s.inq.set idx false) i = true
        rw [inqAt_set, if_neg (fun hc => hne hc.1.symm)]
        exact (hq3 i hi).1
      · show 0 < (getP (setP queueA idx { getP queueA idx with rem_time := (getP queueA idx).rem_time - rt }) i).rem_time
        rw [hB_rem_o i (fun he => hne he.symm)]
        exact (hq3 i hi).2.1
      · show (getP (setP queueA idx { getP queueA idx with rem_time := (getP queueA idx).rem_time - rt }) i).current_queue = 3
        rw [hB_field i]
        exact (hq3 i hi).2.2
    · show (s.inq.set idx false).length = ((setP queueA idx { getP queueA idx with rem_time := (getP queueA idx).rem_time - rt })).length
      rw [List.length_set, hlen, hB_len]
    · intro hL
      exact appendLog_LInv _ (s.t + rt) hL (by omega)
  · rename_i hz
    rw [hB_rem_idx] at hz
    refine ⟨?_, ?_, ?_, ?_, hq3nd, ?_, hB_len, ?_⟩
    · intro i hi
      show (getP (setP queueA idx { getP queueA idx with rem_time := (getP queueA idx).rem_time - rt }) i).current_queue = 1
      rw [hB_field i]
      exact hq1 i hi
    · intro i hi
      show inqAt s.inq i = true ∧ 0 < (getP (setP queueA idx { getP queueA idx with rem_time := (getP queueA idx).rem_time - rt }) i).rem_time ∧
        (getP (setP queueA idx { getP queueA idx with rem_time := (getP queueA idx).rem_time - rt }) i).current_queue = 2
      by_cases hc2 : cq = 2
      · rw [if_pos hc2] at hi
        rcases List.mem_append.mp hi with hi' | hi'
        · have hne := hq2ne i hi'
          refine ⟨(hq2 i hi').1, ?_, ?_⟩
          · rw [hB_rem_o i (fun he => hne he.symm)]
            exact (hq2 i hi').2.1
          · rw [hB_field i]
            exact (hq2 i hi').2.2
        · rw [List.mem_singleton.mp hi']
          refine ⟨hflag2 hc2, ?_, ?_⟩
          · rw [hB_rem_idx]
            have := hrtle (by omega)
            omega
          · rw [hB_field idx, hfield, hc2]
      · rw [if_neg hc2] at hi
        have hne := hq2ne i hi
        refine ⟨(hq2 i hi).1, ?_, ?_⟩
        · rw [hB_rem_o i (fun he => hne he.symm)]
          exact (hq2 i hi).2.1
        · rw [hB_field i]
          exact (hq2 i hi).2.2
    · show (if cq = 2 then q2 ++ [idx] else q2).Nodup
      by_cases hc2 : cq = 2
      · rw [if_pos hc2, List.nodup_append]
        refine ⟨hq2nd, List.nodup_singleton idx, ?_⟩
        rw [List.disjoint_left]
        intro a ha ha'
        rw [List.mem_singleton.mp ha'] at ha
        exact (hnm2 hc2) ha
      · rw [if_neg hc2]
        exact hq2nd
    · intro i hi
      have hne := hq3ne i hi
      refine ⟨(hq3 i hi).1, ?_, ?_⟩
      · show 0 < (getP (setP queueA idx { getP queueA idx with rem_time := (getP queueA idx).rem_time - rt }) i).rem_time
        rw [hB_rem_o i (fun he => hne he.symm)]
        exact (hq3 i hi).2.1
      · show (getP (setP queueA idx { getP queueA idx with rem_time := (getP queueA idx).rem_time - rt }) i).current_queue = 3
        rw [hB_field i]
        exact (hq3 i hi).2.2
    · show s.inq.length = ((setP queueA idx { getP queueA idx with rem_time := (getP queueA idx).rem_time - rt })).length
      rw [hlen, hB_len]
    · intro hL
      exact appendLog_LInv _ (s.t + rt) hL (by omega)

set_option maxHeartbeats 800000 in
theorem mlqExec_inv (s : MLQState) (q1 q2 q3 : List Nat) (idx : Nat) (cq : Int)
    (hlen : s.inq.length = s.queue.length)
    (hcq : cq = 1 ∨ cq = 2 ∨ cq = 3)
    (hfield : (getP s.queue idx).current_queue = cq)
    (hrem : cq ≠ 1 → 0 < (getP s.queue idx).rem_time)
    (hflag2 : cq = 2 → inqAt s.inq idx = true)
    (hnm2 : cq = 2 → idx ∉ q2)
    (hnm3 : cq = 3 → idx ∉ q3)
    (hq1 : ∀ i ∈ q1, (getP s.queue i).current_queue = 1)
    (hq2 : ∀ i ∈ q2, inqAt s.inq i = true ∧ 0 < (getP s.queue i).rem_time ∧
      (getP s.queue i).current_queue = 2)
    (hq2nd : q2.Nodup)
    (hq3 : ∀ i ∈ q3, inqAt s.inq i = true ∧ 0 < (getP s.queue i).rem_time ∧
      (getP s.queue i).current_queue = 3)
    (hq3nd : q3.Nodup) :
    (∀ i ∈ (mlqExec s q1 q2 q3 idx cq).q1,
      (getP (mlqExec s q1 q2 q3 idx cq).queue i).current_queue = 1) ∧
    (∀ i ∈ (mlqExec s q1 q2 q3 idx cq).q2,
      inqAt (mlqExec s q1 q2 q3 idx cq).inq i = true ∧
      0 < (getP (mlqExec s q1 q2 q3 idx cq).queue i).rem_time ∧
      (getP (mlqExec s q1 q2 q3 idx cq).queue i).current_queue = 2) ∧
    (mlqExec s q1 q2 q3 idx cq).q2.Nodup ∧
    (∀ i ∈ (mlqExec s q1 q2 q3 idx cq).q3,
      inqAt (mlqExec s q1 q2 q3 idx cq).inq i = true ∧
      0 < (getP (mlqExec s q1 q2 q3 idx cq).queue i).rem_time ∧
      (getP (mlqExec s q1 q2 q3 idx cq).queue i).current_queue = 3) ∧
    (mlqExec s q1 q2 q3 idx cq).q3.Nodup ∧
    (mlqExec s q1 q2 q3 idx cq).inq.length = (mlqExec s q1 q2 q3 idx cq).queue.length ∧
    (mlqExec s q1 q2 q3 idx cq).queue.length = s.queue.length ∧
    (LInv s.t s.logs → LInv (mlqExec s q1 q2 q3 idx cq).t (mlqExec s q1 q2 q3 idx cq).logs) := by
  have hrt0 : 0 < (if cq = 1 then (1:Int) else if cq = 2 then min (getP s.queue idx).rem_time MLQ_Q2_QUANTUM else (getP s.queue idx).rem_time) := by
    rcases hcq with h | h | h
    · rw [if_pos h]
      omega
    · rw [if_neg (by omega), if_pos h]
      have := hrem (by omega)
      rw [show MLQ_Q2_QUANTUM = (10:Int) from rfl]
      omega
    · rw [if_neg (by omega), if_neg (by omega)]
      exact hrem (by omega)
  have hgt := mlqNextSwitch_gt s.queue s.t (if cq = 1 then (1:Int) else if cq = 2 then min (getP s.queue idx).rem_time MLQ_Q2_QUANTUM else (getP s.queue idx).rem_time) hrt0
  have hle := mlqNextSwitch_le s.queue s.t (if cq = 1 then (1:Int) else if cq = 2 then min (getP s.queue idx).rem_time MLQ_Q2_QUANTUM else (getP s.queue idx).rem_time)
  have hrtpos : 0 < mlqNextSwitch s.queue s.t (if cq = 1 then (1:Int) else if cq = 2 then min (getP s.queue idx).rem_time MLQ_Q2_QUANTUM else (getP s.queue idx).rem_time) - s.t := by omega
  have hrtle : cq ≠ 1 → mlqNextSwitch s.queue s.t (if cq = 1 then (1:Int) else if cq = 2 then min (getP s.queue idx).rem_time MLQ_Q2_QUANTUM else (getP s.queue idx).rem_time) - s.t ≤
      (getP s.queue idx).rem_time := by
    intro h
    rcases hcq with h1 | h1 | h1
    · exact absurd h1 h
    · rw [if_neg (by omega), if_pos h1] at hle ⊢
      rw [show MLQ_Q2_QUANTUM = (10:Int) from rfl] at hle ⊢
      omega
    · rw [if_neg (by omega), if_neg (by omega)] at hle ⊢
      omega
  by_cases hfr : (getP s.queue idx).first_run = -1
  · have hfA : ∀ i : Nat,
        (getP (setP s.queue idx { getP s.queue idx with first_run := s.t }) i).current_queue =
          (getP s.queue i).current_queue := by
      intro i
      rw [getP_setP]
      split
      · rename_i hc
        rw [← hc.1]
      · rfl
    have hrA : ∀ i : Nat,
        (getP (setP s.queue idx { getP s.queue idx with first_run := s.t }) i).rem_time =
          (getP s.queue i).rem_time := by
      intro i
      rw [getP_setP]
      split
      · rename_i hc
        rw [← hc.1]
      · rfl
    exact mlqExecBody_inv s q1 q2 q3 idx cq
      (setP s.procs idx { getP s.procs idx with first_run := s.t })
      (setP s.queue idx { getP s.queue idx with first_run := s.t })
      (mlqNextSwitch s.queue s.t (if cq = 1 then (1:Int) else if cq = 2 then min (getP s.queue idx).rem_time MLQ_Q2_QUANTUM else (getP s.queue idx).rem_time) - s.t)
      (mlqExec s q1 q2 q3 idx cq)
      hfA hrA (length_setP _ _ _) hlen hrtpos hrtle hcq hfield hflag2 hnm2 hnm3
      hq1 hq2 hq2nd hq3 hq3nd
      (by
        simp only [mlqExec]
        rw [if_neg (show ¬ (mlqNextSwitch s.queue s.t (if cq = 1 then (1:Int) else if cq = 2 then min (getP s.queue idx).rem_time MLQ_Q2_QUANTUM else (getP s.queue idx).rem_time) - s.t ≤ 0) from by omega)]
        rw [if_pos hfr, if_pos hfr])
  · exact mlqExecBody_inv s q1 q2 q3 idx cq s.procs s.queue
      (mlqNextSwitch s.queue s.t (if cq = 1 then (1:Int) else if cq = 2 then min (getP s.queue idx).rem_time MLQ_Q2_QUANTUM else (getP s.queue idx).rem_time) - s.t)
      (mlqExec s q1 q2 q3 idx cq)
      (fun i => rfl) (fun i => rfl) rfl hlen hrtpos hrtle hcq hfield hflag2 hnm2 hnm3
      hq1 hq2 hq2nd hq3 hq3nd
      (by
        simp only [mlqExec]
        rw [if_neg (show ¬ (mlqNextSwitch s.queue s.t (if cq = 1 then (1:Int) else if cq = 2 then min (getP s.queue idx).rem_time MLQ_Q2_QUANTUM else (getP s.queue idx).rem_time) - s.t ≤ 0) from by omega)]
        rw [if_neg hfr, if_neg hfr])

set_option maxHeartbeats 800000 in
theorem mlqStep_cinv (s : MLQState) (h : MLQCore s) :
    MLQCore (mlqStep s) ∧
    (mlqStep s).queue.length = s.queue.length ∧
    (LInv s.t s.logs → LInv (mlqStep s).t (mlqStep s).logs) := by
  obtain ⟨h1, h2, h2n, h3, h3n, hlen⟩ := h
  have hb : ∀ j ∈ List.range s.queue.length, j < s.inq.length := by
    intro j hj
    have := List.mem_range.mp hj
    omega
  obtain ⟨k1, k2, k2n, k3, k3n, klen⟩ := mlqArrivalScan_inv s.queue s.t
    (List.range s.queue.length) s.q1 s.q2 s.q3 s.qother s.inq hb h1 h2 h2n h3 h3n
  have hlen2 : (mlqArrivalScan s.queue s.t (List.range s.queue.length) s.q1 s.q2 s.q3
      s.qother s.inq).2.2.2.2.length = s.queue.length := by
    rw [klen, hlen]
  simp only [mlqStep]
  split
  · rename_i idx rest hsc
    have hmem : idx ∈ (mlqArrivalScan s.queue s.t (List.range s.queue.length) s.q1 s.q2
        s.q3 s.qother s.inq).1 := by
      rw [hsc]
      exact List.mem_cons_self idx rest
    have key := mlqExec_inv
      { s with
        q1 := (mlqArrivalScan s.queue s.t (List.range s.queue.length) s.q1 s.q2 s.q3 s.qother s.inq).1
        q2 := (mlqArrivalScan s.queue s.t (List.range s.queue.length) s.q1 s.q2 s.q3 s.qother s.inq).2.1
        q3 := (mlqArrivalScan s.queue s.t (List.range s.queue.length) s.q1 s.q2 s.q3 s.qother s.inq).2.2.1
        qother := (mlqArrivalScan s.queue s.t (List.range s.queue.length) s.q1 s.q2 s.q3 s.qother s.inq).2.2.2.1
        inq := (mlqArrivalScan s.queue s.t (List.range s.queue.length) s.q1 s.q2 s.q3 s.qother s.inq).2.2.2.2 }
      (mlqArrivalScan s.queue s.t (List.range s.queue.length) s.q1 s.q2 s.q3 s.qother s.inq).1
      (mlqArrivalScan s.queue s.t (List.range s.queue.length) s.q1 s.q2 s.q3 s.qother s.inq).2.1
      (mlqArrivalScan s.queue s.t (List.range s.queue.length) s.q1 s.q2 s.q3 s.qother s.inq).2.2.1
      idx 1
      hlen2
      (Or.inl rfl)
      (k1 idx hmem)
      (fun h' => absurd rfl h')
      (fun h' => absurd h' (by omega))
      (fun h' => absurd h' (by omega))
      (fun h' => absurd h' (by omega))
      k1 k2 k2n k3 k3n
    exact ⟨⟨key.1, key.2.1, key.2.2.1, key.2.2.2.1, key.2.2.2.2.1, key.2.2.2.2.2.1⟩,
      key.2.2.2.2.2.2.1, key.2.2.2.2.2.2.2⟩
  · rename_i hsc
    split
    · rename_i idx q2rest hq2eq
      rw [hq2eq] at k2n
      have hmem : idx ∈ (mlqArrivalScan s.queue s.t (List.range s.queue.length) s.q1 s.q2
          s.q3 s.qother s.inq).2.1 := by
        rw [hq2eq]
        exact List.mem_cons_self idx q2rest
      have key := mlqExec_inv
        { s with
          q1 := (mlqArrivalScan s.queue s.t (List.range s.queue.length) s.q1 s.q2 s.q3 s.qother s.inq).1
          q2 := (mlqArrivalScan s.queue s.t (List.range s.queue.length) s.q1 s.q2 s.q3 s.qother s.inq).2.1
          q3 := (mlqArrivalScan s.queue s.t (List.range s.queue.length) s.q1 s.q2 s.q3 s.qother s.inq).2.2.1
          qother := (mlqArrivalScan s.queue s.t (List.range s.queue.length) s.q1 s.q2 s.q3 s.qother s.inq).2.2.2.1
          inq := (mlqArrivalScan s.queue s.t (List.range s.queue.length) s.q1 s.q2 s.q3 s.qother s.inq).2.2.2.2 }
        [] q2rest
        (mlqArrivalScan s.queue s.t (List.range s.queue.length) s.q1 s.q2 s.q3 s.qother s.inq).2.2.1
        idx 2
        hlen2
        (Or.inr (Or.inl rfl))
        (k2 idx hmem).2.2
        (fun _ => (k2 idx hmem).2.1)
        (fun _ => (k2 idx hmem).1)
        (fun _ => (List.nodup_cons.mp k2n).1)
        (fun h' => absurd h' (by omega))
        (fun i hi => absurd hi (List.not_mem_nil i))
        (fun i hi => k2 i (by rw [hq2eq]; exact List.mem_cons_of_mem idx hi))
        (List.nodup_cons.mp k2n).2
        k3 k3n
      exact ⟨⟨key.1, key.2.1, key.2.2.1, key.2.2.2.1, key.2.2.2.2.1, key.2.2.2.2.2.1⟩,
        key.2.2.2.2.2.2.1, key.2.2.2.2.2.2.2⟩
    · rename_i hq2eq
      split
      · rename_i idx q3rest hq3eq
        rw [hq3eq] at k3n
        have hmem : idx ∈ (mlqArrivalScan s.queue s.t (List.range s.queue.length) s.q1
            s.q2 s.q3 s.qother s.inq).2.2.1 := by
          rw [hq3eq]
          exact List.mem_cons_self idx q3rest
        have key := mlqExec_inv
          { s with
            q1 := (mlqArrivalScan s.queue s.t (List.range s.queue.length) s.q1 s.q2 s.q3 s.qother s.inq).1
            q2 := (mlqArrivalScan s.queue s.t (List.range s.queue.length) s.q1 s.q2 s.q3 s.qother s.inq).2.1
            q3 := (mlqArrivalScan s.queue s.t (List.range s.queue.length) s.q1 s.q2 s.q3 s.qother s.inq).2.2.1
            qother := (mlqArrivalScan s.queue s.t (List.range s.queue.length) s.q1 s.q2 s.q3 s.qother s.inq).2.2.2.1
            inq := (mlqArrivalScan s.queue s.t (List.range s.queue.length) s.q1 s.q2 s.q3 s.qother s.inq).2.2.2.2 }
          [] [] q3rest
          idx 3
          hlen2
          (Or.inr (Or.inr rfl))
          (k3 idx hmem).2.2
          (fun _ => (k3 idx hmem).2.1)
          (fun h' => absurd h' (by omega))
          (fun h' => absurd h' (by omega))
          (fun _ => (List.nodup_cons.mp k3n).1)
          (fun i hi => absurd hi (List.not_mem_nil i))
          (fun i hi => absurd hi (List.not_mem_nil i))
          List.nodup_nil
          (fun i hi => k3 i (by rw [hq3eq]; exact List.mem_cons_of_mem idx hi))
          (List.nodup_cons.mp k3n).2
        exact ⟨⟨key.1, key.2.1, key.2.2.1, key.2.2.2.1, key.2.2.2.2.1, key.2.2.2.2.2.1⟩,
          key.2.2.2.2.2.2.1, key.2.2.2.2.2.2.2⟩
      · rename_i hq3eq
        refine ⟨⟨?_, ?_, ?_, ?_, ?_, ?_⟩, rfl, ?_⟩
        · intro i hi
          rw [hsc] at hi
          exact absurd hi (List.not_mem_nil i)
        · intro i hi
          rw [hq2eq] at hi
          exact absurd hi (List.not_mem_nil i)
        · show (mlqArrivalScan s.queue s.t (List.range s.queue.length) s.q1 s.q2 s.q3
            s.qother s.inq).2.1.Nodup
          exact k2n
        · intro i hi
          rw [hq3eq] at hi
          exact absurd hi (List.not_mem_nil i)
        · show (mlqArrivalScan s.queue s.t (List.range s.queue.length) s.q1 s.q2 s.q3
            s.qother s.inq).2.2.1.Nodup
          exact k3n
        · exact hlen2
        · intro hL
          exact idleLog_LInv hL

theorem mlqLoop_LInv : ∀ (fuel : Nat) (s out : MLQState),
    MLQCore s → LInv s.t s.logs → mlqLoop fuel s = some out →
    LInv out.t out.logs := by
  intro fuel
  induction fuel with
  | zero => intro s out _ _ hloop; simp [mlqLoop] at hloop
  | succ f ih =>
      intro s out hc hL hloop
      simp only [mlqLoop] at hloop
      split at hloop
      · have step := mlqStep_cinv s hc
        exact ih _ _ step.1 (step.2.2 hL) hloop
      · obtain rfl := Option.some.inj hloop
        exact hL

theorem rrInitState_core (procs : List Process) : RRCore (rrInitState procs) := by
  refine ⟨?_, List.nodup_nil, ?_⟩
  · intro i hi
    exact absurd hi (List.not_mem_nil i)
  · show (List.replicate (procs.map (initProc 5)).length false).length =
      (procs.map (initProc 5)).length
    rw [List.length_replicate]

theorem mlfqInitState_core (procs : List Process) : MLFQCore (mlfqInitState procs) := by
  refine ⟨?_, List.nodup_nil, ?_⟩
  · intro i hi
    exact absurd hi (List.not_mem_nil i)
  · show (List.replicate (procs.map (initProc 6)).length false).length =
      (procs.map (initProc 6)).length
    rw [List.length_replicate]

theorem mlqInitState_core (procs : List Process) : MLQCore (mlqInitState procs) := by
  refine ⟨?_, ?_, List.nodup_nil, ?_, List.nodup_nil, ?_⟩
  · intro i hi
    exact absurd hi (List.not_mem_nil i)
  · intro i hi
    exact absurd hi (List.not_mem_nil i)
  · intro i hi
    exact absurd hi (List.not_mem_nil i)
  · show (List.replicate (procs.map (initProc 7)).length false).length =
      (procs.map (initProc 7)).length
    rw [List.length_replicate]

/-- C9: for every run of `run_scheduler` that returns, the emitted Gantt log
has only intervals with `finish > start`, consecutive intervals are contiguous
(each finish equals the next start) with distinct pids (idle `-1` entries
included), starts are strictly increasing, and intervals are pairwise
nonoverlapping. -/
theorem gantt_log_invariants (procs : List Process) (code quantum maxLogs : Int)
    (fuel : Nat) (res : SchedResult)
    (h : run_scheduler procs code quantum maxLogs fuel = some res) :
    GanttOk res.logs := by
  unfold run_scheduler at h
  split at h
  · obtain ⟨out, hloop, hres⟩ := Option.map_eq_some'.mp h
    have hL := mlqLoop_LInv fuel (mlqInitState procs) out (mlqInitState_core procs)
      (LInv_nil 0) hloop
    rw [← hres]
    exact LogOk_gantt hL.1 maxLogs.toNat
  · split at h
    · obtain ⟨out, hloop, hres⟩ := Option.map_eq_some'.mp h
      have hL := mlfqLoop_LInv fuel (mlfqInitState procs) out (mlfqInitState_core procs)
        (LInv_nil 0) hloop
      rw [← hres]
      exact LogOk_gantt hL.1 maxLogs.toNat
    · split at h
      · obtain ⟨out, hloop, hres⟩ := Option.map_eq_some'.mp h
        by_cases hq : 0 < quantum
        · have hL := rrLoop_LInv quantum fuel (rrInitState procs) out hq
            (rrInitState_core procs) (LInv_nil 0) hloop
          rw [← hres]
          exact LogOk_gantt hL.1 maxLogs.toNat
        · by_cases hn : 0 < (rrInitState procs).queue.length
          · have := rrLoop_bad quantum (by omega) fuel (rrInitState procs)
              (rrInitState_core procs) rfl hn
            rw [this] at hloop
            exact Option.noConfusion hloop
          · have hout : out = rrInitState procs :=
              rrLoop_exit quantum fuel (rrInitState procs) out hloop
                (by
                  intro hc
                  exact hn (by
                    have : (rrInitState procs).completed = 0 := rfl
                    omega))
            rw [← hres, hout]
            exact LogOk_gantt (LInv_nil 0).1 maxLogs.toNat
      · obtain ⟨out, hloop, hres⟩ := Option.map_eq_some'.mp h
        have hL := genLoop_LInv code fuel (genInitState code procs) out
          (LInv_nil 0) hloop
        rw [← hres]
        exact LogOk_gantt hL.1 maxLogs.toNat

/-- C9 witness: the theorem applied to a concrete returning run. -/
theorem gantt_log_invariants_witness : GanttOk fcfsOneOut.logs :=
  gantt_log_invariants [inP 1 0 1 0] 0 1 10 10 fcfsOneOut (by decide)
